import Mathlib

/-!
# logex: truth tables of boolean expressions

A shallow embedding of `logex.c`: the scanner (`get_id`, `next_token`), the
truth-table operations (`new_truth_tab`, `constant`, `single_var`, `inverse`,
`binary_op`) and the recursive-descent parser (`parse_expect`, `parse`,
`parse_expr`, `parse_term`, `parse_factor`).

Conventions of the embedding.
* The input stream is the list of bytes still to be read together with the
  end-of-file indicator of the C stream (`feof`), which `fgetc` sets when it is
  called with nothing left to read.
* `fatal` and a failed `assert` end the program; here they are the `Failure`
  values of an `Except`.  Assertions are compiled in, and memory allocation is
  taken to succeed.
* Characters, tokens and table entries are natural numbers.  Every value the
  program computes stays small (tokens below 35, lengths at most `1 << 26`,
  entries 0 or 1), so the arithmetic of `int` and `char` is exact.
* A `TruthTab` is its byte buffer; `len` is the length of that buffer.
* The loops of the parser are recursive functions over a fuel argument.
-/

namespace Logex

/-! ## Constants and tokens -/

def MAXIDENT : Nat := 26

def TOK_FALSE : Nat := MAXIDENT + 1
def TOK_TRUE : Nat := MAXIDENT + 2
def TOK_AND : Nat := MAXIDENT + 3
def TOK_OR : Nat := MAXIDENT + 4
def TOK_XOR : Nat := MAXIDENT + 5
def TOK_NOT : Nat := MAXIDENT + 6
def TOK_LPAREN : Nat := MAXIDENT + 7
def TOK_RPAREN : Nat := MAXIDENT + 8

/-- The macro `isident(x)`: `0 <= x && x < MAXIDENT`. -/
def isident (x : Nat) : Bool := decide (0 ≤ x ∧ x < MAXIDENT)

/-- The ways the program stops without a result. -/
inductive Failure where
  /-- The call `fatal("syntax error\n")` of `parse_expect`. -/
  | syntaxErr
  /-- The assertion `i == ps->ident_cnt && i < MAXIDENT` of `get_id`. -/
  | assertIdent
  /-- The assertion `len < MAX_TRUTHTAB_LEN` of `new_truth_tab`. -/
  | assertLen
  /-- The assertion `feof(ps->inputf)` of `parse`. -/
  | assertFeof
  /-- The fuel of the embedding ran out (no counterpart in the program). -/
  | outOfFuel
  deriving DecidableEq, Repr

/-! ## Data model -/

/-- The C stream: the bytes not yet read and the end-of-file indicator. -/
structure FILE where
  buf : List Nat
  eof : Bool
  deriving DecidableEq, Repr

/-- A stream opened on the given bytes, nothing read yet. -/
def FILE.open (bytes : List Nat) : FILE := { buf := bytes, eof := false }

def feof (f : FILE) : Bool := f.eof

/-- The struct `TruthTab`: `vector` is the buffer of `len` bytes. -/
structure TruthTab where
  vector : List Nat
  deriving DecidableEq, Repr

def TruthTab.len (t : TruthTab) : Nat := t.vector.length

/-- The struct `ParseState`.  `ident` is the array of `MAXIDENT` characters,
given by its index function. -/
structure ParseState where
  ident : Nat → Nat
  ident_cnt : Nat
  token : Nat
  inputf : FILE
  result : TruthTab

/-- The identifiers in use: `ident[0 .. ident_cnt)`. -/
def ParseState.idents (ps : ParseState) : List Nat :=
  (List.range ps.ident_cnt).map ps.ident

/-! ## Scanner -/

/-- The `for` loop of `get_id`, started at index `i` with `n` iterations left:
the first index whose entry is `ch`, or `none` when the loop runs to its end. -/
def get_id_loop (ps : ParseState) (ch : Nat) : Nat → Nat → Option Nat
  | 0, _ => none
  | n + 1, i => if ps.ident i = ch then some i else get_id_loop ps ch n (i + 1)

/-- The function `get_id`: the returned index and the state after the call. -/
def get_id (ps : ParseState) (ch : Nat) : Except Failure (Nat × ParseState) :=
  match get_id_loop ps ch ps.ident_cnt 0 with
  | some i => .ok (i, ps)
  | none =>
    if ps.ident_cnt < MAXIDENT then
      .ok (ps.ident_cnt,
        { ps with
          ident := fun j => if j = ps.ident_cnt then ch else ps.ident j
          ident_cnt := ps.ident_cnt + 1 })
    else .error .assertIdent

/-- The body of `next_token` on the bytes not yet read: each step is one
`fgetc`.  On the empty list `fgetc` returns `EOF` and sets the end-of-file
indicator, and `EOF` falls to the `default` case. -/
def next_token_from (ps : ParseState) : List Nat → Except Failure ParseState
  | [] => .ok { ps with token := MAXIDENT, inputf := { buf := [], eof := true } }
  | ch :: rest =>
    -- ' ' '\t' '\r' '\n'
    if ch = 32 ∨ ch = 9 ∨ ch = 13 ∨ ch = 10 then next_token_from ps rest
    else
      let ps1 : ParseState := { ps with inputf := { buf := rest, eof := ps.inputf.eof } }
      -- 'A' .. 'Z'
      if 65 ≤ ch ∧ ch ≤ 90 then
        match get_id ps1 ch with
        | .error e => .error e
        | .ok (i, ps2) => .ok { ps2 with token := i }
      -- '0'
      else if ch = 48 then .ok { ps1 with token := TOK_FALSE }
      -- '1'
      else if ch = 49 then .ok { ps1 with token := TOK_TRUE }
      -- '+' '|'
      else if ch = 43 ∨ ch = 124 then .ok { ps1 with token := TOK_OR }
      -- '*' '&'
      else if ch = 42 ∨ ch = 38 then .ok { ps1 with token := TOK_AND }
      -- '^'
      else if ch = 94 then .ok { ps1 with token := TOK_XOR }
      -- '~' '!'
      else if ch = 126 ∨ ch = 33 then .ok { ps1 with token := TOK_NOT }
      -- '('
      else if ch = 40 then .ok { ps1 with token := TOK_LPAREN }
      -- ')'
      else if ch = 41 then .ok { ps1 with token := TOK_RPAREN }
      else .ok { ps1 with token := MAXIDENT }

/-- The function `next_token`. -/
def next_token (ps : ParseState) : Except Failure ParseState :=
  next_token_from ps ps.inputf.buf

/-! ## Truth table operations -/

/-- The macro `MAX_TRUTHTAB_LEN`: `1 << MAXIDENT`. -/
def MAX_TRUTHTAB_LEN : Nat := 1 <<< MAXIDENT

/-- The function `new_truth_tab`: `calloc` gives `len` zero bytes. -/
def new_truth_tab (len : Nat) : Except Failure TruthTab :=
  if len < MAX_TRUTHTAB_LEN then .ok { vector := List.replicate len 0 }
  else .error .assertLen

/-- The function `constant`. -/
def constant (k : Nat) : Except Failure TruthTab :=
  match new_truth_tab 1 with
  | .error e => .error e
  | .ok t => .ok { vector := t.vector.set 0 k }

/-- The library call `memset(v + off, c, n)` on a buffer `v`. -/
def memset (v : List Nat) (off c n : Nat) : List Nat :=
  v.take off ++ List.replicate n c ++ v.drop (off + n)

/-- The function `single_var`: `new_truth_tab(1 << (ident+1))`, then the upper
half is set to 1. -/
def single_var (ident : Nat) : Except Failure TruthTab :=
  match new_truth_tab (1 <<< (ident + 1)) with
  | .error e => .error e
  | .ok t => .ok { vector := memset t.vector (1 <<< ident) 1 (1 <<< ident) }

/-- The function `inverse`: every entry is XOR-ed with 1. -/
def inverse (t : TruthTab) : TruthTab :=
  { vector := t.vector.map (fun x => x ^^^ 1) }

/-- The `switch` of `binary_op` on one entry; any other `op` leaves it. -/
def apply_op (op x y : Nat) : Nat :=
  if op = TOK_AND then x &&& y
  else if op = TOK_OR then x ||| y
  else if op = TOK_XOR then x ^^^ y
  else x

/-- The `for` loop of `binary_op` from index `i` on, over the entries of `lhs`
that are left. -/
def binary_op_loop (op : Nat) (rhs : List Nat) (rhsmask : Nat) : Nat → List Nat → List Nat
  | _, [] => []
  | i, x :: xs =>
    apply_op op x (rhs.getD (i &&& rhsmask) 0) :: binary_op_loop op rhs rhsmask (i + 1) xs

/-- The function `binary_op`: the longer operand is kept as `lhs`, and every
entry of it is combined with the entry of `rhs` at the masked index. -/
def binary_op (op : Nat) (lhs rhs : TruthTab) : TruthTab :=
  let (lhs, rhs) := if lhs.len < rhs.len then (rhs, lhs) else (lhs, rhs)
  let rhsmask := rhs.len - 1
  { vector := binary_op_loop op rhs.vector rhsmask 0 lhs.vector }

/-! ## Parser -/

/-- The function `parse_expect`. -/
def parse_expect (ps : ParseState) (token : Nat) : Except Failure ParseState :=
  if ps.token ≠ token then .error .syntaxErr else next_token ps

/-- The `while` loop of `parse_factor` that counts the NOT tokens. -/
def parse_factor_nots : Nat → ParseState → Nat → Except Failure (Nat × ParseState)
  | 0, _, _ => .error .outOfFuel
  | n + 1, ps, not_cnt =>
    if ps.token = TOK_NOT then
      match parse_expect ps TOK_NOT with
      | .error e => .error e
      | .ok ps => parse_factor_nots n ps (not_cnt + 1)
    else .ok (not_cnt, ps)

mutual

/-- The function `parse_expr`: `expr -> term { OR term }`. -/
def parse_expr : Nat → ParseState → Except Failure (TruthTab × ParseState)
  | 0, _ => .error .outOfFuel
  | n + 1, ps =>
    match parse_term n ps with
    | .error e => .error e
    | .ok (lhs, ps) => parse_expr_loop n lhs ps

/-- The `while` loop of `parse_expr`. -/
def parse_expr_loop : Nat → TruthTab → ParseState → Except Failure (TruthTab × ParseState)
  | 0, _, _ => .error .outOfFuel
  | n + 1, lhs, ps =>
    if ps.token = TOK_OR then
      match parse_expect ps TOK_OR with
      | .error e => .error e
      | .ok ps =>
        match parse_term n ps with
        | .error e => .error e
        | .ok (rhs, ps) => parse_expr_loop n (binary_op TOK_OR lhs rhs) ps
    else .ok (lhs, ps)

/-- The function `parse_term`: `term -> factor { ([AND] | XOR) factor }`. -/
def parse_term : Nat → ParseState → Except Failure (TruthTab × ParseState)
  | 0, _ => .error .outOfFuel
  | n + 1, ps =>
    match parse_factor n ps with
    | .error e => .error e
    | .ok (lhs, ps) => parse_term_loop n lhs ps

/-- The `for (;;)` loop of `parse_term`: `first` is the `if ... else if` on AND
and XOR, the `if` on the start of a factor follows it. -/
def parse_term_loop : Nat → TruthTab → ParseState → Except Failure (TruthTab × ParseState)
  | 0, _, _ => .error .outOfFuel
  | n + 1, lhs, ps =>
    let first : Except Failure (TruthTab × ParseState) :=
      if ps.token = TOK_AND then
        match parse_expect ps TOK_AND with
        | .error e => .error e
        | .ok ps => .ok (lhs, ps)
      else if ps.token = TOK_XOR then
        match parse_expect ps TOK_XOR with
        | .error e => .error e
        | .ok ps =>
          match parse_factor n ps with
          | .error e => .error e
          | .ok (rhs, ps) => .ok (binary_op TOK_XOR lhs rhs, ps)
      else .ok (lhs, ps)
    match first with
    | .error e => .error e
    | .ok (lhs, ps) =>
      if isident ps.token || ps.token = TOK_TRUE || ps.token = TOK_FALSE
          || ps.token = TOK_NOT || ps.token = TOK_LPAREN then
        match parse_factor n ps with
        | .error e => .error e
        | .ok (rhs, ps) => parse_term_loop n (binary_op TOK_AND lhs rhs) ps
      else .ok (lhs, ps)

/-- The function `parse_factor`. -/
def parse_factor : Nat → ParseState → Except Failure (TruthTab × ParseState)
  | 0, _ => .error .outOfFuel
  | n + 1, ps =>
    match parse_factor_nots (n + 1) ps 0 with
    | .error e => .error e
    | .ok (not_cnt, ps) =>
      let prim : Except Failure (TruthTab × ParseState) :=
        if isident ps.token then
          match single_var ps.token with
          | .error e => .error e
          | .ok t =>
            match parse_expect ps ps.token with
            | .error e => .error e
            | .ok ps => .ok (t, ps)
        else if ps.token = TOK_FALSE then
          match constant 0 with
          | .error e => .error e
          | .ok t =>
            match parse_expect ps TOK_FALSE with
            | .error e => .error e
            | .ok ps => .ok (t, ps)
        else if ps.token = TOK_TRUE then
          match constant 1 with
          | .error e => .error e
          | .ok t =>
            match parse_expect ps TOK_TRUE with
            | .error e => .error e
            | .ok ps => .ok (t, ps)
        else
          match parse_expect ps TOK_LPAREN with
          | .error e => .error e
          | .ok ps =>
            match parse_expr n ps with
            | .error e => .error e
            | .ok (t, ps) =>
              match parse_expect ps TOK_RPAREN with
              | .error e => .error e
              | .ok ps => .ok (t, ps)
      match prim with
      | .error e => .error e
      | .ok (t, ps) => .ok (if not_cnt &&& 1 ≠ 0 then inverse t else t, ps)

end

/-- Fuel that is enough for the parser on a stream with `n` bytes left. -/
def parse_fuel (n : Nat) : Nat := 4 * n + 8

/-- The function `parse`. -/
def parse (ps : ParseState) (inputf : FILE) : Except Failure ParseState :=
  let ps : ParseState := { ps with ident_cnt := 0, inputf := inputf }
  match next_token ps with
  | .error e => .error e
  | .ok ps =>
    match parse_expr (parse_fuel inputf.buf.length) ps with
    | .error e => .error e
    | .ok (t, ps) =>
      let ps : ParseState := { ps with result := t }
      match parse_expect ps MAXIDENT with
      | .error e => .error e
      | .ok ps => if feof ps.inputf then .ok ps else .error .assertFeof

/-! ## Running the program on a text -/

/-- A parse session before `parse` is called; `parse` resets what it reads. -/
def ParseState.fresh : ParseState :=
  { ident := fun _ => 0, ident_cnt := 0, token := 0,
    inputf := FILE.open [], result := { vector := [] } }

/-- The bytes of an ASCII text. -/
def bytes (s : String) : List Nat := s.toList.map Char.toNat

/-- What `print_result` reads after `parse`: the identifiers and the table. -/
def outcome (r : Except Failure ParseState) : Except Failure (List Nat × List Nat) :=
  match r with
  | .error e => .error e
  | .ok ps => .ok (ps.idents, ps.result.vector)

/-- The program on a text: `parse` on a stream holding the text. -/
def run (s : List Nat) : Except Failure (List Nat × List Nat) :=
  outcome (parse ParseState.fresh (FILE.open s))


/-- The tokens that can start a factor, as tested in `parse_term`. -/
def starts_factor (tok : Nat) : Bool :=
  isident tok || tok = TOK_TRUE || tok = TOK_FALSE || tok = TOK_NOT || tok = TOK_LPAREN

/-- The operand of `binary_op` that is kept and written to: the longer one,
`lhs` on a tie. -/
def wide (lhs rhs : TruthTab) : TruthTab := if lhs.len < rhs.len then rhs else lhs

/-- The operand of `binary_op` that is read and freed. -/
def narrow (lhs rhs : TruthTab) : TruthTab := if lhs.len < rhs.len then lhs else rhs


/-- The boolean operation named by an operator token: AND, OR or XOR. -/
def bool_op (op : Nat) (x y : Bool) : Bool :=
  if op = TOK_AND then x && y
  else if op = TOK_OR then x || y
  else xor x y

/-- The entry at row `r` read as a truth value: true when it is 1. -/
def TruthTab.bit (t : TruthTab) (r : Nat) : Bool := decide (t.vector[r]? = some 1)

/-- Every entry is 0 or 1. -/
def TruthTab.binary (t : TruthTab) : Prop := ∀ x ∈ t.vector, x = 0 ∨ x = 1

/-- A sequence of calls of `get_id`, one for each character of `chs` in order:
the list of the returned indices and the state after the last call. -/
def get_id_calls (ps : ParseState) : List Nat → Except Failure (List Nat × ParseState)
  | [] => .ok ([], ps)
  | ch :: chs =>
    match get_id ps ch with
    | .error e => .error e
    | .ok (i, ps1) =>
      match get_id_calls ps1 chs with
      | .error e => .error e
      | .ok (is, ps2) => .ok (i :: is, ps2)

/-- The uppercase letters `'A'` to `'Z'`. -/
def is_upper (ch : Nat) : Prop := 65 ≤ ch ∧ ch ≤ 90

instance (ch : Nat) : Decidable (is_upper ch) := by
  unfold is_upper
  exact inferInstance

/-- The characters `next_token` skips: space, tab, CR and LF. -/
def is_space (ch : Nat) : Prop := ch = 32 ∨ ch = 9 ∨ ch = 13 ∨ ch = 10

instance (ch : Nat) : Decidable (is_space ch) := by
  unfold is_space
  exact inferInstance

/-- The token `next_token` gives for a character that is neither skipped nor
a letter. -/
def char_token (ch : Nat) : Nat :=
  if ch = 48 then TOK_FALSE
  else if ch = 49 then TOK_TRUE
  else if ch = 43 ∨ ch = 124 then TOK_OR
  else if ch = 42 ∨ ch = 38 then TOK_AND
  else if ch = 94 then TOK_XOR
  else if ch = 126 ∨ ch = 33 then TOK_NOT
  else if ch = 40 then TOK_LPAREN
  else if ch = 41 then TOK_RPAREN
  else MAXIDENT

/-- The characters of the operators, constants and parentheses. -/
def is_symbol (ch : Nat) : Prop := ch ∈ [48, 49, 43, 124, 42, 38, 94, 126, 33, 40, 41]

instance (ch : Nat) : Decidable (is_symbol ch) := by
  unfold is_symbol
  exact inferInstance

/-- The distinct uppercase letters of a text. -/
def distinct_letters (s : List Nat) : List Nat := (s.filter (fun c => decide (is_upper c))).dedup

/-- The identifiers in use so far: `m` of them have been made into a table,
and the table of identifiers holds at most the one of the lookahead token in
addition. -/
def Used (ps : ParseState) (m : Nat) : Prop :=
  ps.ident_cnt ≤ MAXIDENT ∧
    ((ps.ident_cnt = m ∧ (ps.token < MAXIDENT → ps.token < m)) ∨
      (ps.ident_cnt = m + 1 ∧ ps.token = m))

/-- The scanner has read the prefix of `s` before the bytes still in the
stream, the identifiers are the distinct letters of that prefix, and the
end-of-file indicator is set only with nothing left. -/
def Seen (s : List Nat) (ps : ParseState) : Prop :=
  ∃ pre, s = pre ++ ps.inputf.buf ∧ ps.idents.Nodup ∧
    (∀ c, c ∈ ps.idents ↔ c ∈ pre ∧ is_upper c) ∧
    (ps.inputf.eof = true → ps.inputf.buf = [])

/-- The `if` chain of `parse_factor` after the NOT tokens, with the call of
`parse_expr` for the parenthesised case given as `expr`. -/
def primary (expr : ParseState → Except Failure (TruthTab × ParseState)) (ps : ParseState) :
    Except Failure (TruthTab × ParseState) :=
  if isident ps.token then
    match single_var ps.token with
    | .error e => .error e
    | .ok t =>
      match parse_expect ps ps.token with
      | .error e => .error e
      | .ok ps => .ok (t, ps)
  else if ps.token = TOK_FALSE then
    match constant 0 with
    | .error e => .error e
    | .ok t =>
      match parse_expect ps TOK_FALSE with
      | .error e => .error e
      | .ok ps => .ok (t, ps)
  else if ps.token = TOK_TRUE then
    match constant 1 with
    | .error e => .error e
    | .ok t =>
      match parse_expect ps TOK_TRUE with
      | .error e => .error e
      | .ok ps => .ok (t, ps)
  else
    match parse_expect ps TOK_LPAREN with
    | .error e => .error e
    | .ok ps =>
      match expr ps with
      | .error e => .error e
      | .ok (t, ps) =>
        match parse_expect ps TOK_RPAREN with
        | .error e => .error e
        | .ok ps => .ok (t, ps)

/-- The first `if` of the loop of `parse_term`, with the call of
`parse_factor` given as `factor`. -/
def term_op (factor : ParseState → Except Failure (TruthTab × ParseState)) (lhs : TruthTab)
    (ps : ParseState) : Except Failure (TruthTab × ParseState) :=
  if ps.token = TOK_AND then
    match parse_expect ps TOK_AND with
    | .error e => .error e
    | .ok ps => .ok (lhs, ps)
  else if ps.token = TOK_XOR then
    match parse_expect ps TOK_XOR with
    | .error e => .error e
    | .ok ps =>
      match factor ps with
      | .error e => .error e
      | .ok (rhs, ps) => .ok (binary_op TOK_XOR lhs rhs, ps)
  else .ok (lhs, ps)

/-- The first token of a text is read, as `parse` does before `parse_expr`. -/
def scan_first (ps : ParseState) (s : List Nat) : Except Failure ParseState :=
  next_token { ps with inputf := FILE.open s }

/-- The characters of the NOT token: `~` and `!`. -/
def is_not_char (ch : Nat) : Prop := ch = 126 ∨ ch = 33

instance (ch : Nat) : Decidable (is_not_char ch) := by
  unfold is_not_char
  exact inferInstance

/-- The tokens `next_token` gives one after the other, up to the sentinel. -/
def token_stream : Nat → ParseState → List Nat
  | 0, _ => []
  | n + 1, ps =>
    match next_token ps with
    | .error _ => []
    | .ok ps1 => if ps1.token = MAXIDENT then [] else ps1.token :: token_stream n ps1

/-- The token sequence of a text. -/
def tokens (s : List Nat) : List Nat :=
  token_stream (s.length + 1) { ParseState.fresh with inputf := FILE.open s }

/-- The nonterminals of the grammar. -/
inductive Sym where
  | expression
  | term
  | factor
  | primary

/-- The token sequences of the grammar
`expression := term { OR term }`,
`term := factor { ( [AND] factor ) | XOR factor }`,
`factor := { NOT } primary`,
`primary := VARIABLE | 0 | 1 | '(' expression ')'`. -/
inductive Derives : Sym → List Nat → Prop where
  | variable (i : Nat) : isident i = true → Derives .primary [i]
  | literal_false : Derives .primary [TOK_FALSE]
  | literal_true : Derives .primary [TOK_TRUE]
  | paren (l : List Nat) : Derives .expression l →
      Derives .primary (TOK_LPAREN :: l ++ [TOK_RPAREN])
  | of_primary (l : List Nat) : Derives .primary l → Derives .factor l
  | not (l : List Nat) : Derives .factor l → Derives .factor (TOK_NOT :: l)
  | of_factor (l : List Nat) : Derives .factor l → Derives .term l
  | and (l r : List Nat) : Derives .term l → Derives .factor r →
      Derives .term (l ++ TOK_AND :: r)
  | juxtaposition (l r : List Nat) : Derives .term l → Derives .factor r →
      Derives .term (l ++ r)
  | xor (l r : List Nat) : Derives .term l → Derives .factor r →
      Derives .term (l ++ TOK_XOR :: r)
  | of_term (l : List Nat) : Derives .term l → Derives .expression l
  | or (l r : List Nat) : Derives .expression l → Derives .term r →
      Derives .expression (l ++ TOK_OR :: r)

/-- A bound on the tokens still to be consumed: none after the sentinel,
else the lookahead token and at most one for every byte left. -/
def pending (ps : ParseState) : Nat :=
  if ps.token = MAXIDENT then 0 else ps.inputf.buf.length + 1

/-- The characters `next_token` knows: whitespace, letters and symbols. -/
def recognised (ch : Nat) : Prop := is_space ch ∨ is_upper ch ∨ is_symbol ch

instance (ch : Nat) : Decidable (recognised ch) := by
  unfold recognised
  exact inferInstance

/-- The text read so far holds recognised characters only, or the lookahead is
the sentinel made from an unrecognised character that was read last. -/
def Clean (s : List Nat) (ps : ParseState) : Prop :=
  ∃ pre, s = pre ++ ps.inputf.buf ∧
    ((∀ c ∈ pre, recognised c) ∨
      (ps.token = MAXIDENT ∧
        ∃ good c, pre = good ++ [c] ∧ (∀ x ∈ good, recognised x) ∧ ¬ recognised c))

/-- The invariant of truth tables: the length is a power of two (so at least
1) and every entry is 0 or 1. -/
def TruthTab.valid (t : TruthTab) : Prop := (∃ w, t.len = 2 ^ w) ∧ t.binary

/-- The function `parse_term` called on a text as `parse` would call it, after
the first token is read: the table it returns and the lookahead token at that
moment. -/
def term_return (s : List Nat) : Except Failure (List Nat × Nat) :=
  match scan_first ParseState.fresh s with
  | .error e => .error e
  | .ok ps =>
    match parse_term (parse_fuel s.length) ps with
    | .error e => .error e
    | .ok (t, ps1) => .ok (t.vector, ps1.token)

/-- A text without the characters the scanner skips. -/
def strip (s : List Nat) : List Nat := s.filter (fun c => decide (¬ is_space c))

/-- A state whose stream holds the bytes still to be read without the skipped
characters. -/
def unspace (ps : ParseState) : ParseState :=
  { ps with inputf := { buf := strip ps.inputf.buf, eof := ps.inputf.eof } }

/-- The texts made from `s` by inserting or deleting a space, tab, CR or LF at
any position, any number of times. -/
inductive SpaceEdits (s : List Nat) : List Nat → Prop where
  | same : SpaceEdits s s
  | insert (a b : List Nat) (c : Nat) : SpaceEdits s (a ++ b) → is_space c →
      SpaceEdits s (a ++ c :: b)
  | delete (a b : List Nat) (c : Nat) : SpaceEdits s (a ++ c :: b) → is_space c →
      SpaceEdits s (a ++ b)

/-- The state of a run on the text with the character `c` added at its end, as
long as the end of the text is not met: the same state with `c` behind the
bytes still to be read. -/
def appended (c : Nat) (p : ParseState) : ParseState :=
  { p with inputf := { buf := p.inputf.buf ++ [c], eof := false } }

/-- The state of a run on the text with an AND character added at its end, at
the moment the run on the text itself has met the end: the lookahead is the AND
token, and nothing is left to read. -/
def at_and (p : ParseState) : ParseState :=
  { p with token := TOK_AND, inputf := { buf := [], eof := false } }

/-- The state on the longer text right after a token is read: `at_and` once
the shorter text has met its end, `appended` before. -/
def shadow (c : Nat) (p : ParseState) : ParseState :=
  if p.inputf.eof = true then at_and p else appended c p

/-- The state on the longer text after a term or an expression: the state
itself once the end is met (the added AND is consumed), `appended` before. -/
def final (c : Nat) (p : ParseState) : ParseState :=
  if p.inputf.eof = true then p else appended c p

/-- The parenthesis depth after a token that stands at depth `d`. -/
def paren_depth (d tok : Nat) : Nat :=
  if tok = TOK_LPAREN then d + 1 else if tok = TOK_RPAREN then d - 1 else d

/-- No XOR character `^` stands outside all parentheses, in a text that starts
at parenthesis depth `d`. -/
def top_xor_free : Nat → List Nat → Bool
  | _, [] => true
  | d, c :: l =>
    if c = 40 then top_xor_free (d + 1) l
    else if c = 41 then top_xor_free (d - 1) l
    else !(decide (c = 94) && decide (d = 0)) && top_xor_free d l

/-- The last character of a text that is not skipped is an AND character,
`*` or `&`. -/
def trailing_and (s : List Nat) : Prop :=
  (strip s).getLast? = some 42 ∨ (strip s).getLast? = some 38

instance (s : List Nat) : Decidable (trailing_and s) := by
  unfold trailing_and
  exact inferInstance

/-- The lookahead token stands at parenthesis depth `d`, and from it on no XOR
stands at depth 0. -/
def Level (d : Nat) (p : ParseState) : Prop :=
  top_xor_free (paren_depth d p.token) p.inputf.buf = true ∧ (p.token = TOK_XOR → d ≠ 0)

/-- No AND character ends the text: none ends the bytes still to be read, and
after an AND lookahead some character that is not skipped is left. -/
def AndFollowed (p : ParseState) : Prop :=
  ¬ trailing_and p.inputf.buf ∧ (p.token = TOK_AND → strip p.inputf.buf ≠ [])

/-- The end-of-file indicator is set only at the sentinel with nothing left. -/
def EndMet (p : ParseState) : Prop :=
  p.inputf.eof = true → p.token = MAXIDENT ∧ p.inputf.buf = []

/-- Only recognised characters are left, and the sentinel stands for the end
of the text. -/
def Known (p : ParseState) : Prop :=
  (∀ x ∈ p.inputf.buf, recognised x) ∧ (p.token = MAXIDENT → p.inputf.eof = true)

/-- The identifier count is within the array `ident`. -/
def Room (p : ParseState) : Prop := p.ident_cnt ≤ MAXIDENT

/-- What holds of every state of a run on a text of recognised characters that
no AND character ends. -/
def Sound (p : ParseState) : Prop := Room p ∧ EndMet p ∧ AndFollowed p ∧ Known p

/-- The loop of `parse_term` with a ghost flag beside its result: whether the
round that returns took the AND or the XOR branch of the first `if`, that is,
consumed an operator token. -/
def parse_term_loop_flag :
    Nat → TruthTab → ParseState → Except Failure (TruthTab × ParseState × Bool)
  | 0, _, _ => .error .outOfFuel
  | n + 1, lhs, ps =>
    match term_op (parse_factor n) lhs ps with
    | .error e => .error e
    | .ok (lhs1, ps1) =>
      if starts_factor ps1.token then
        match parse_factor n ps1 with
        | .error e => .error e
        | .ok (rhs, ps2) => parse_term_loop_flag n (binary_op TOK_AND lhs1 rhs) ps2
      else .ok (lhs1, ps1, decide (ps.token = TOK_AND ∨ ps.token = TOK_XOR))

/-- The function `parse_term` with the ghost flag of its loop. -/
def parse_term_flag : Nat → ParseState → Except Failure (TruthTab × ParseState × Bool)
  | 0, _ => .error .outOfFuel
  | n + 1, ps =>
    match parse_factor n ps with
    | .error e => .error e
    | .ok (lhs, ps1) => parse_term_loop_flag n lhs ps1

/-- The token sequences that are a sequence of factors joined by an explicit
AND or by juxtaposition. -/
inductive FactorSeq : List Nat → Prop where
  | one (l : List Nat) : Derives .factor l → FactorSeq l
  | and (l r : List Nat) : FactorSeq l → Derives .factor r → FactorSeq (l ++ TOK_AND :: r)
  | juxtaposition (l r : List Nat) : FactorSeq l → Derives .factor r → FactorSeq (l ++ r)

/-- No XOR token stands outside all parentheses, in a token sequence that
starts at parenthesis depth `d`. -/
def toks_xor_free : Nat → List Nat → Bool
  | _, [] => true
  | d, t :: l =>
    if t = TOK_LPAREN then toks_xor_free (d + 1) l
    else if t = TOK_RPAREN then toks_xor_free (d - 1) l
    else !(decide (t = TOK_XOR) && decide (d = 0)) && toks_xor_free d l

/-- The number of NOT characters, `~` and `!`, of a text. -/
def not_count (s : List Nat) : Nat := s.countP (fun c => decide (is_not_char c))

deriving instance DecidableEq for Except


/-! ## Reference evaluator

The value of the expression under one assignment of the variables, read off
the same token stream one row at a time: terms are OR-ed left to right, the
factors of a term are folded left to right with AND (written or by
juxtaposition) and XOR, a factor is negated when it carries an odd number of
NOT tokens, `0` and `1` are false and true, and a parenthesised expression is a
primary.  It builds no table and calls none of the parser's functions: of the
program it uses the scanner `next_token` only, to take the next token from the
stream. -/

/-- The assignment of row `r`: the variable with index `i` gets bit `i` of `r`. -/
def row_env (r : Nat) : Nat → Bool := fun i => r.testBit i

/-- The lookahead token is required to be `tok`, and the scanner reads the
next one; any other lookahead is a syntax error. -/
def eval_take (ps : ParseState) (tok : Nat) : Except Failure ParseState :=
  if ps.token = tok then next_token ps else .error .syntaxErr

/-- The value of a primary: a variable, `0`, `1` or `( expression )`. -/
def eval_primary (env : Nat → Bool) (expr : ParseState → Except Failure (Bool × ParseState))
    (ps : ParseState) : Except Failure (Bool × ParseState) :=
  if isident ps.token then
    match eval_take ps ps.token with
    | .error e => .error e
    | .ok ps1 => .ok (env ps.token, ps1)
  else if ps.token = TOK_FALSE then
    match eval_take ps TOK_FALSE with
    | .error e => .error e
    | .ok ps1 => .ok (false, ps1)
  else if ps.token = TOK_TRUE then
    match eval_take ps TOK_TRUE with
    | .error e => .error e
    | .ok ps1 => .ok (true, ps1)
  else
    match eval_take ps TOK_LPAREN with
    | .error e => .error e
    | .ok ps1 =>
      match expr ps1 with
      | .error e => .error e
      | .ok (v, ps2) =>
        match eval_take ps2 TOK_RPAREN with
        | .error e => .error e
        | .ok ps3 => .ok (v, ps3)

/-- The operator part of one round of a term on the value `v` so far: a written
AND is a separator, an XOR takes the factor after it. -/
def eval_term_op (factor : ParseState → Except Failure (Bool × ParseState))
    (v : Bool) (ps : ParseState) : Except Failure (Bool × ParseState) :=
  if ps.token = TOK_AND then
    match eval_take ps TOK_AND with
    | .error e => .error e
    | .ok ps1 => .ok (v, ps1)
  else if ps.token = TOK_XOR then
    match eval_take ps TOK_XOR with
    | .error e => .error e
    | .ok ps1 =>
      match factor ps1 with
      | .error e => .error e
      | .ok (w, ps2) => .ok (xor v w, ps2)
  else .ok (v, ps)

/-- The NOT tokens that stand in front of a primary: how many there are, and
the state with the first token after them as the lookahead.  The count is the
evaluator's own, one for each NOT token from the first one on. -/
def eval_nots : Nat → ParseState → Except Failure (Nat × ParseState)
  | 0, _ => .error .outOfFuel
  | n + 1, ps =>
    if ps.token = TOK_NOT then
      match eval_take ps TOK_NOT with
      | .error e => .error e
      | .ok ps1 =>
        match eval_nots n ps1 with
        | .error e => .error e
        | .ok (k, ps2) => .ok (k + 1, ps2)
    else .ok (0, ps)

mutual

/-- The value of an expression: its terms OR-ed left to right. -/
def eval_expr (env : Nat → Bool) : Nat → ParseState → Except Failure (Bool × ParseState)
  | 0, _ => .error .outOfFuel
  | n + 1, ps =>
    match eval_term env n ps with
    | .error e => .error e
    | .ok (v, ps1) => eval_expr_loop env n v ps1

/-- The terms after the first one, on the value `v` so far. -/
def eval_expr_loop (env : Nat → Bool) :
    Nat → Bool → ParseState → Except Failure (Bool × ParseState)
  | 0, _, _ => .error .outOfFuel
  | n + 1, v, ps =>
    if ps.token = TOK_OR then
      match eval_take ps TOK_OR with
      | .error e => .error e
      | .ok ps1 =>
        match eval_term env n ps1 with
        | .error e => .error e
        | .ok (w, ps2) => eval_expr_loop env n (v || w) ps2
    else .ok (v, ps)

/-- The value of a term: its factors folded left to right. -/
def eval_term (env : Nat → Bool) : Nat → ParseState → Except Failure (Bool × ParseState)
  | 0, _ => .error .outOfFuel
  | n + 1, ps =>
    match eval_factor env n ps with
    | .error e => .error e
    | .ok (v, ps1) => eval_term_loop env n v ps1

/-- The factors after the first one, on the value `v` so far: a factor that
follows, with or without a written AND, is AND-ed. -/
def eval_term_loop (env : Nat → Bool) :
    Nat → Bool → ParseState → Except Failure (Bool × ParseState)
  | 0, _, _ => .error .outOfFuel
  | n + 1, v, ps =>
    match eval_term_op (eval_factor env n) v ps with
    | .error e => .error e
    | .ok (v1, ps1) =>
      if starts_factor ps1.token then
        match eval_factor env n ps1 with
        | .error e => .error e
        | .ok (w, ps2) => eval_term_loop env n (v1 && w) ps2
      else .ok (v1, ps1)

/-- The value of a factor: the value of its primary, negated when the number
of NOT tokens in front of it, counted by `eval_nots`, is odd. -/
def eval_factor (env : Nat → Bool) : Nat → ParseState → Except Failure (Bool × ParseState)
  | 0, _ => .error .outOfFuel
  | n + 1, ps =>
    match eval_nots (n + 1) ps with
    | .error e => .error e
    | .ok (k, ps1) =>
      match eval_primary env (eval_expr env n) ps1 with
      | .error e => .error e
      | .ok (v, ps2) => .ok (if k % 2 = 1 then !v else v, ps2)

end

/-- The value of the whole input under the assignment `env`: the first token is
read, the expression is evaluated, and the end of the input is required as
`parse` requires it. -/
def eval_input (env : Nat → Bool) (ps : ParseState) (inputf : FILE) : Except Failure Bool :=
  let ps : ParseState := { ps with ident_cnt := 0, inputf := inputf }
  match next_token ps with
  | .error e => .error e
  | .ok ps1 =>
    match eval_expr env (parse_fuel inputf.buf.length) ps1 with
    | .error e => .error e
    | .ok (v, ps2) =>
      match eval_take ps2 MAXIDENT with
      | .error e => .error e
      | .ok ps3 => if feof ps3.inputf then .ok v else .error .assertFeof

/-- The table `t` lists the row function `g`: its length is a power of two and
its entry at the low bits of every row number `r` is `g r`. -/
def Tab (t : TruthTab) (g : Nat → Bool) : Prop :=
  ∃ w, t.vector.length = 2 ^ w ∧ ∀ r, t.vector[r % 2 ^ w]? = some (g r).toNat


/-! ## Rule induction over the parser -/

/-- Rule induction over the successful runs of the parser.  `Qo` speaks of the
first `if` of the loop of `parse_term`, `Qp` of the primary of `parse_factor`. -/
theorem parse_induction
    (Qe Qt Qf Qp : Nat → ParseState → TruthTab → ParseState → Prop)
    (Qel Qtl Qo : Nat → TruthTab → ParseState → TruthTab → ParseState → Prop)
    (h_expr : ∀ n ps lhs ps1 t ps2, Qt n ps lhs ps1 → Qel n lhs ps1 t ps2 →
      Qe (n + 1) ps t ps2)
    (h_expr_exit : ∀ n lhs ps, ps.token ≠ TOK_OR → Qel (n + 1) lhs ps lhs ps)
    (h_expr_or : ∀ n lhs ps ps1 rhs ps2 t ps3, ps.token = TOK_OR →
      parse_expect ps TOK_OR = .ok ps1 → Qt n ps1 rhs ps2 →
      Qel n (binary_op TOK_OR lhs rhs) ps2 t ps3 → Qel (n + 1) lhs ps t ps3)
    (h_term : ∀ n ps lhs ps1 t ps2, Qf n ps lhs ps1 → Qtl n lhs ps1 t ps2 →
      Qt (n + 1) ps t ps2)
    (h_op_and : ∀ n lhs ps ps1, ps.token = TOK_AND →
      parse_expect ps TOK_AND = .ok ps1 → Qo n lhs ps lhs ps1)
    (h_op_xor : ∀ n lhs ps ps1 rhs ps2, ps.token ≠ TOK_AND → ps.token = TOK_XOR →
      parse_expect ps TOK_XOR = .ok ps1 → Qf n ps1 rhs ps2 →
      Qo n lhs ps (binary_op TOK_XOR lhs rhs) ps2)
    (h_op_none : ∀ n lhs ps, ps.token ≠ TOK_AND → ps.token ≠ TOK_XOR → Qo n lhs ps lhs ps)
    (h_term_exit : ∀ n lhs ps lhs1 ps1, Qo n lhs ps lhs1 ps1 →
      starts_factor ps1.token = false → Qtl (n + 1) lhs ps lhs1 ps1)
    (h_term_and : ∀ n lhs ps lhs1 ps1 rhs ps2 t ps3, Qo n lhs ps lhs1 ps1 →
      starts_factor ps1.token = true → Qf n ps1 rhs ps2 →
      Qtl n (binary_op TOK_AND lhs1 rhs) ps2 t ps3 → Qtl (n + 1) lhs ps t ps3)
    (h_prim_var : ∀ n ps t ps1, isident ps.token = true → single_var ps.token = .ok t →
      parse_expect ps ps.token = .ok ps1 → Qp n ps t ps1)
    (h_prim_false : ∀ n ps t ps1, isident ps.token = false → ps.token = TOK_FALSE →
      constant 0 = .ok t → parse_expect ps TOK_FALSE = .ok ps1 → Qp n ps t ps1)
    (h_prim_true : ∀ n ps t ps1, isident ps.token = false → ps.token ≠ TOK_FALSE →
      ps.token = TOK_TRUE → constant 1 = .ok t → parse_expect ps TOK_TRUE = .ok ps1 →
      Qp n ps t ps1)
    (h_prim_paren : ∀ n ps ps1 t ps2 ps3, isident ps.token = false →
      ps.token ≠ TOK_FALSE → ps.token ≠ TOK_TRUE → parse_expect ps TOK_LPAREN = .ok ps1 →
      Qe n ps1 t ps2 → parse_expect ps2 TOK_RPAREN = .ok ps3 → Qp n ps t ps3)
    (h_factor : ∀ n ps not_cnt ps1 t ps2,
      parse_factor_nots (n + 1) ps 0 = .ok (not_cnt, ps1) → Qp n ps1 t ps2 →
      Qf (n + 1) ps (if not_cnt &&& 1 ≠ 0 then inverse t else t) ps2) :
    ∀ n,
      (∀ ps t ps', parse_expr n ps = .ok (t, ps') → Qe n ps t ps') ∧
      (∀ lhs ps t ps', parse_expr_loop n lhs ps = .ok (t, ps') → Qel n lhs ps t ps') ∧
      (∀ ps t ps', parse_term n ps = .ok (t, ps') → Qt n ps t ps') ∧
      (∀ lhs ps t ps', parse_term_loop n lhs ps = .ok (t, ps') → Qtl n lhs ps t ps') ∧
      (∀ ps t ps', parse_factor n ps = .ok (t, ps') → Qf n ps t ps') := by
  intro n
  induction n with
  | zero =>
    refine ⟨?_, ?_, ?_, ?_, ?_⟩
    · intro ps t ps' h; simp [parse_expr] at h
    · intro lhs ps t ps' h; simp [parse_expr_loop] at h
    · intro ps t ps' h; simp [parse_term] at h
    · intro lhs ps t ps' h; simp [parse_term_loop] at h
    · intro ps t ps' h; simp [parse_factor] at h
  | succ n ih =>
    obtain ⟨ihe, _, iht, ihtl, ihf⟩ := ih
    rename_i ihel
    refine ⟨?_, ?_, ?_, ?_, ?_⟩
    · intro ps t ps' h
      rw [parse_expr] at h
      cases h1 : parse_term n ps with
      | error e => simp [h1] at h
      | ok r =>
        obtain ⟨lhs, ps1⟩ := r
        simp only [h1] at h
        exact h_expr n ps lhs ps1 t ps' (iht _ _ _ h1) (ihel _ _ _ _ h)
    · intro lhs ps t ps' h
      rw [parse_expr_loop] at h
      by_cases hor : ps.token = TOK_OR
      · rw [if_pos hor] at h
        cases h1 : parse_expect ps TOK_OR with
        | error e => simp [h1] at h
        | ok ps1 =>
          simp only [h1] at h
          cases h2 : parse_term n ps1 with
          | error e => simp [h2] at h
          | ok r =>
            obtain ⟨rhs, ps2⟩ := r
            simp only [h2] at h
            exact h_expr_or n lhs ps ps1 rhs ps2 t ps' hor h1 (iht _ _ _ h2) (ihel _ _ _ _ h)
      · rw [if_neg hor] at h
        simp only [Except.ok.injEq, Prod.mk.injEq] at h
        obtain ⟨rfl, rfl⟩ := h
        exact h_expr_exit n _ _ hor
    · intro ps t ps' h
      rw [parse_term] at h
      cases h1 : parse_factor n ps with
      | error e => simp [h1] at h
      | ok r =>
        obtain ⟨lhs, ps1⟩ := r
        simp only [h1] at h
        exact h_term n ps lhs ps1 t ps' (ihf _ _ _ h1) (ihtl _ _ _ _ h)
    · intro lhs ps t ps' h
      rw [parse_term_loop] at h
      have key : ∀ lhs1 ps1, Qo n lhs ps lhs1 ps1 →
          (if (isident ps1.token || decide (ps1.token = TOK_TRUE) || decide (ps1.token = TOK_FALSE)
              || decide (ps1.token = TOK_NOT) || decide (ps1.token = TOK_LPAREN)) = true then
            match parse_factor n ps1 with
            | .error e => .error e
            | .ok (rhs, ps) => parse_term_loop n (binary_op TOK_AND lhs1 rhs) ps
          else (.ok (lhs1, ps1) : Except Failure (TruthTab × ParseState))) = .ok (t, ps') →
          Qtl (n + 1) lhs ps t ps' := by
        intro lhs1 ps1 ho h
        by_cases hs : starts_factor ps1.token = true
        · have hs' := hs
          unfold starts_factor at hs'
          rw [if_pos hs'] at h
          cases h2 : parse_factor n ps1 with
          | error e => simp [h2] at h
          | ok r =>
            obtain ⟨rhs, ps2⟩ := r
            simp only [h2] at h
            exact h_term_and n lhs ps lhs1 ps1 rhs ps2 t ps' ho hs (ihf _ _ _ h2) (ihtl _ _ _ _ h)
        · have hs' := hs
          unfold starts_factor at hs'
          rw [if_neg hs'] at h
          simp only [Except.ok.injEq, Prod.mk.injEq] at h
          obtain ⟨rfl, rfl⟩ := h
          exact h_term_exit n lhs ps _ _ ho (by simpa using hs)
      by_cases hand : ps.token = TOK_AND
      · simp only [if_pos hand] at h
        cases h1 : parse_expect ps TOK_AND with
        | error e => simp [h1] at h
        | ok ps1 =>
          simp only [h1] at h
          exact key lhs ps1 (h_op_and n lhs ps ps1 hand h1) h
      · simp only [if_neg hand] at h
        by_cases hxor : ps.token = TOK_XOR
        · simp only [if_pos hxor] at h
          cases h1 : parse_expect ps TOK_XOR with
          | error e => simp [h1] at h
          | ok ps1 =>
            simp only [h1] at h
            cases h2 : parse_factor n ps1 with
            | error e => simp [h2] at h
            | ok r =>
              obtain ⟨rhs, ps2⟩ := r
              simp only [h2] at h
              exact key _ ps2 (h_op_xor n lhs ps ps1 rhs ps2 hand hxor h1 (ihf _ _ _ h2)) h
        · simp only [if_neg hxor] at h
          exact key lhs ps (h_op_none n lhs ps hand hxor) h
    · intro ps t ps' h
      rw [parse_factor] at h
      cases h0 : parse_factor_nots (n + 1) ps 0 with
      | error e => simp [h0] at h
      | ok r =>
        obtain ⟨not_cnt, ps1⟩ := r
        simp only [h0] at h
        have key : ∀ t1 ps2, Qp n ps1 t1 ps2 →
            (.ok (if not_cnt &&& 1 ≠ 0 then inverse t1 else t1, ps2) :
              Except Failure (TruthTab × ParseState)) = .ok (t, ps') → Qf (n + 1) ps t ps' := by
          intro t1 ps2 hp h
          simp only [Except.ok.injEq, Prod.mk.injEq] at h
          obtain ⟨rfl, rfl⟩ := h
          exact h_factor n ps not_cnt ps1 t1 _ h0 hp
        by_cases hid : isident ps1.token = true
        · simp only [if_pos hid] at h
          cases h1 : single_var ps1.token with
          | error e => simp [h1] at h
          | ok t1 =>
            simp only [h1] at h
            cases h2 : parse_expect ps1 ps1.token with
            | error e => simp [h2] at h
            | ok ps2 =>
              simp only [h2] at h
              exact key t1 ps2 (h_prim_var n ps1 t1 ps2 hid h1 h2) h
        · simp only [if_neg hid] at h
          have hid' : isident ps1.token = false := by simpa using hid
          by_cases hF : ps1.token = TOK_FALSE
          · simp only [if_pos hF] at h
            cases h1 : constant 0 with
            | error e => simp [h1] at h
            | ok t1 =>
              simp only [h1] at h
              cases h2 : parse_expect ps1 TOK_FALSE with
              | error e => simp [h2] at h
              | ok ps2 =>
                simp only [h2] at h
                exact key t1 ps2 (h_prim_false n ps1 t1 ps2 hid' hF h1 h2) h
          · simp only [if_neg hF] at h
            by_cases hT : ps1.token = TOK_TRUE
            · simp only [if_pos hT] at h
              cases h1 : constant 1 with
              | error e => simp [h1] at h
              | ok t1 =>
                simp only [h1] at h
                cases h2 : parse_expect ps1 TOK_TRUE with
                | error e => simp [h2] at h
                | ok ps2 =>
                  simp only [h2] at h
                  exact key t1 ps2 (h_prim_true n ps1 t1 ps2 hid' hF hT h1 h2) h
            · simp only [if_neg hT] at h
              cases h1 : parse_expect ps1 TOK_LPAREN with
              | error e => simp [h1] at h
              | ok ps2 =>
                simp only [h1] at h
                cases h2 : parse_expr n ps2 with
                | error e => simp [h2] at h
                | ok r =>
                  obtain ⟨t1, ps3⟩ := r
                  simp only [h2] at h
                  cases h3 : parse_expect ps3 TOK_RPAREN with
                  | error e => simp [h3] at h
                  | ok ps4 =>
                    simp only [h3] at h
                    exact key t1 ps4
                      (h_prim_paren n ps1 ps2 t1 ps3 ps4 hid' hF hT h1 (ihe _ _ _ h2) h3) h


/-! ## The parser functions one step unfolded -/

theorem parse_factor_succ (n : Nat) (ps : ParseState) :
    parse_factor (n + 1) ps =
      match parse_factor_nots (n + 1) ps 0 with
      | .error e => .error e
      | .ok (not_cnt, ps1) =>
        match primary (parse_expr n) ps1 with
        | .error e => .error e
        | .ok (t, ps2) => .ok (if not_cnt &&& 1 ≠ 0 then inverse t else t, ps2) := by
  rw [parse_factor]; rfl

theorem parse_term_loop_succ (n : Nat) (lhs : TruthTab) (ps : ParseState) :
    parse_term_loop (n + 1) lhs ps =
      match term_op (parse_factor n) lhs ps with
      | .error e => .error e
      | .ok (lhs1, ps1) =>
        if starts_factor ps1.token then
          match parse_factor n ps1 with
          | .error e => .error e
          | .ok (rhs, ps2) => parse_term_loop n (binary_op TOK_AND lhs1 rhs) ps2
        else .ok (lhs1, ps1) := by
  rw [parse_term_loop]; rfl

theorem parse_factor_nots_mono :
    ∀ n ps c c' ps', parse_factor_nots n ps c = .ok (c', ps') →
      ∀ k, n ≤ k → parse_factor_nots k ps c = .ok (c', ps') := by
  intro n
  induction n with
  | zero => intro ps c c' ps' h; simp [parse_factor_nots] at h
  | succ n ih =>
    intro ps c c' ps' h k hk
    obtain ⟨k', rfl⟩ : ∃ k', k = k' + 1 := ⟨k - 1, by omega⟩
    rw [parse_factor_nots] at h ⊢
    by_cases hn : ps.token = TOK_NOT
    · rw [if_pos hn] at h ⊢
      cases h1 : parse_expect ps TOK_NOT with
      | error e => simp [h1] at h
      | ok ps1 =>
        simp only [h1] at h ⊢
        exact ih ps1 _ c' ps' h k' (by omega)
    · rw [if_neg hn] at h ⊢
      exact h

/-- A successful run of the parser is the same with more fuel. -/
theorem parse_mono :
    ∀ n,
      (∀ ps t ps', parse_expr n ps = .ok (t, ps') →
        ∀ k, n ≤ k → parse_expr k ps = .ok (t, ps')) ∧
      (∀ lhs ps t ps', parse_expr_loop n lhs ps = .ok (t, ps') →
        ∀ k, n ≤ k → parse_expr_loop k lhs ps = .ok (t, ps')) ∧
      (∀ ps t ps', parse_term n ps = .ok (t, ps') →
        ∀ k, n ≤ k → parse_term k ps = .ok (t, ps')) ∧
      (∀ lhs ps t ps', parse_term_loop n lhs ps = .ok (t, ps') →
        ∀ k, n ≤ k → parse_term_loop k lhs ps = .ok (t, ps')) ∧
      (∀ ps t ps', parse_factor n ps = .ok (t, ps') →
        ∀ k, n ≤ k → parse_factor k ps = .ok (t, ps')) := by
  refine parse_induction
    (fun n ps t ps' => ∀ k, n ≤ k → parse_expr k ps = .ok (t, ps'))
    (fun n ps t ps' => ∀ k, n ≤ k → parse_term k ps = .ok (t, ps'))
    (fun n ps t ps' => ∀ k, n ≤ k → parse_factor k ps = .ok (t, ps'))
    (fun n ps t ps' => ∀ k, n ≤ k → primary (parse_expr k) ps = .ok (t, ps'))
    (fun n lhs ps t ps' => ∀ k, n ≤ k → parse_expr_loop k lhs ps = .ok (t, ps'))
    (fun n lhs ps t ps' => ∀ k, n ≤ k → parse_term_loop k lhs ps = .ok (t, ps'))
    (fun n lhs ps t ps' => ∀ k, n ≤ k → term_op (parse_factor k) lhs ps = .ok (t, ps'))
    ?_ ?_ ?_ ?_ ?_ ?_ ?_ ?_ ?_ ?_ ?_ ?_ ?_ ?_
  · intro n ps lhs ps1 t ps2 h1 h2 k hk
    obtain ⟨k', rfl⟩ : ∃ k', k = k' + 1 := ⟨k - 1, by omega⟩
    rw [parse_expr, h1 k' (by omega)]
    exact h2 k' (by omega)
  · intro n lhs ps hor k hk
    obtain ⟨k', rfl⟩ : ∃ k', k = k' + 1 := ⟨k - 1, by omega⟩
    rw [parse_expr_loop, if_neg hor]
  · intro n lhs ps ps1 rhs ps2 t ps3 hor he h1 h2 k hk
    obtain ⟨k', rfl⟩ : ∃ k', k = k' + 1 := ⟨k - 1, by omega⟩
    rw [parse_expr_loop, if_pos hor, he]
    simp only [h1 k' (by omega)]
    exact h2 k' (by omega)
  · intro n ps lhs ps1 t ps2 h1 h2 k hk
    obtain ⟨k', rfl⟩ : ∃ k', k = k' + 1 := ⟨k - 1, by omega⟩
    rw [parse_term, h1 k' (by omega)]
    exact h2 k' (by omega)
  · intro n lhs ps ps1 hand he k _
    unfold term_op
    rw [if_pos hand, he]
  · intro n lhs ps ps1 rhs ps2 hand hxor he h1 k hk
    unfold term_op
    rw [if_neg hand, if_pos hxor, he]
    simp only [h1 k hk]
  · intro n lhs ps hand hxor k _
    unfold term_op
    rw [if_neg hand, if_neg hxor]
  · intro n lhs ps lhs1 ps1 h1 hs k hk
    obtain ⟨k', rfl⟩ : ∃ k', k = k' + 1 := ⟨k - 1, by omega⟩
    rw [parse_term_loop_succ, h1 k' (by omega)]
    simp [hs]
  · intro n lhs ps lhs1 ps1 rhs ps2 t ps3 h1 hs h2 h3 k hk
    obtain ⟨k', rfl⟩ : ∃ k', k = k' + 1 := ⟨k - 1, by omega⟩
    rw [parse_term_loop_succ, h1 k' (by omega)]
    simp only [hs, if_true, h2 k' (by omega)]
    exact h3 k' (by omega)
  · intro n ps t ps1 hid hsv he k _
    unfold primary
    rw [if_pos hid, hsv]
    simp only [he]
  · intro n ps t ps1 hid hF hc he k _
    unfold primary
    rw [if_neg (by simp [hid]), if_pos hF, hc]
    simp only [he]
  · intro n ps t ps1 hid hF hT hc he k _
    unfold primary
    rw [if_neg (by simp [hid]), if_neg hF, if_pos hT, hc]
    simp only [he]
  · intro n ps ps1 t ps2 ps3 hid hF hT he1 h1 he2 k hk
    unfold primary
    rw [if_neg (by simp [hid]), if_neg hF, if_neg hT, he1]
    simp only [h1 k hk, he2]
  · intro n ps c ps1 t ps2 hn h1 k hk
    obtain ⟨k', rfl⟩ : ∃ k', k = k' + 1 := ⟨k - 1, by omega⟩
    rw [parse_factor_succ, parse_factor_nots_mono _ _ _ _ _ hn (k' + 1) (by omega)]
    simp only [h1 k' (by omega)]


/-! ## Scanner: frame facts -/

theorem get_id_loop_congr (ps ps' : ParseState) (h : ps'.ident = ps.ident) (ch n i : Nat) :
    get_id_loop ps' ch n i = get_id_loop ps ch n i := by
  induction n generalizing i with
  | zero => rfl
  | succ n ih => simp [get_id_loop, h, ih]

theorem get_id_result (ps : ParseState) (t : TruthTab) (ch : Nat) :
    get_id { ps with result := t } ch =
      (get_id ps ch).map (fun r => (r.1, { r.2 with result := t })) := by
  unfold get_id
  rw [get_id_loop_congr ps { ps with result := t } rfl]
  cases get_id_loop ps ch ps.ident_cnt 0 with
  | some i => rfl
  | none =>
    dsimp only
    by_cases h : ps.ident_cnt < MAXIDENT
    · rw [if_pos h, if_pos h]; rfl
    · rw [if_neg h, if_neg h]; rfl

theorem get_id_token (ps : ParseState) (x : Nat) (ch : Nat) :
    get_id { ps with token := x } ch =
      (get_id ps ch).map (fun r => (r.1, { r.2 with token := x })) := by
  unfold get_id
  rw [get_id_loop_congr ps { ps with token := x } rfl]
  cases get_id_loop ps ch ps.ident_cnt 0 with
  | some i => rfl
  | none =>
    dsimp only
    by_cases h : ps.ident_cnt < MAXIDENT
    · rw [if_pos h, if_pos h]; rfl
    · rw [if_neg h, if_neg h]; rfl

theorem next_token_from_result (ps : ParseState) (t : TruthTab) (l : List Nat) :
    next_token_from { ps with result := t } l =
      (next_token_from ps l).map (fun p => { p with result := t }) := by
  induction l with
  | nil => rfl
  | cons ch rest ih =>
    unfold next_token_from
    by_cases hws : ch = 32 ∨ ch = 9 ∨ ch = 13 ∨ ch = 10
    · rw [if_pos hws, if_pos hws]; exact ih
    · rw [if_neg hws, if_neg hws]
      dsimp only
      by_cases hl : 65 ≤ ch ∧ ch ≤ 90
      · rw [if_pos hl, if_pos hl]
        have := get_id_result { ps with inputf := { buf := rest, eof := ps.inputf.eof } } t ch
        dsimp only at this
        rw [this]
        cases get_id { ps with inputf := { buf := rest, eof := ps.inputf.eof } } ch with
        | error e => rfl
        | ok r => rfl
      · rw [if_neg hl, if_neg hl]
        repeat' split <;> try rfl

theorem next_token_from_token (ps : ParseState) (x : Nat) (l : List Nat) :
    next_token_from { ps with token := x } l = next_token_from ps l := by
  induction l with
  | nil => rfl
  | cons ch rest ih =>
    unfold next_token_from
    by_cases hws : ch = 32 ∨ ch = 9 ∨ ch = 13 ∨ ch = 10
    · rw [if_pos hws, if_pos hws]; exact ih
    · rw [if_neg hws, if_neg hws]
      dsimp only
      by_cases hl : 65 ≤ ch ∧ ch ≤ 90
      · rw [if_pos hl, if_pos hl]
        have := get_id_token { ps with inputf := { buf := rest, eof := ps.inputf.eof } } x ch
        dsimp only at this
        rw [this]
        cases get_id { ps with inputf := { buf := rest, eof := ps.inputf.eof } } ch with
        | error e => rfl
        | ok r => rfl
      · rw [if_neg hl, if_neg hl]

theorem parse_expect_result (ps : ParseState) (t : TruthTab) (tok : Nat) :
    parse_expect { ps with result := t } tok =
      (parse_expect ps tok).map (fun p => { p with result := t }) := by
  unfold parse_expect
  by_cases h : ps.token ≠ tok
  · rw [if_pos h, if_pos (by exact h)]; rfl
  · rw [if_neg h, if_neg (by exact h)]
    exact next_token_from_result ps t _


/-! ## The steps of `parse` -/

/-- What a successful `parse` went through. -/
theorem parse_ok_inv (ps : ParseState) (inputf : FILE) (ps' : ParseState)
    (h : parse ps inputf = .ok ps') :
    ∃ ps1 t ps2,
      next_token { ps with ident_cnt := 0, inputf := inputf } = .ok ps1 ∧
      parse_expr (parse_fuel inputf.buf.length) ps1 = .ok (t, ps2) ∧
      parse_expect { ps2 with result := t } MAXIDENT = .ok ps' ∧
      feof ps'.inputf = true := by
  unfold parse at h
  dsimp only at h
  cases h1 : next_token { ps with ident_cnt := 0, inputf := inputf } with
  | error e => simp [h1] at h
  | ok ps1 =>
    simp only [h1] at h
    cases h2 : parse_expr (parse_fuel inputf.buf.length) ps1 with
    | error e => simp [h2] at h
    | ok r =>
      obtain ⟨t, ps2⟩ := r
      simp only [h2] at h
      cases h3 : parse_expect { ps2 with result := t } MAXIDENT with
      | error e => simp [h3] at h
      | ok ps3 =>
        simp only [h3] at h
        by_cases hf : feof ps3.inputf = true
        · rw [if_pos hf] at h
          simp only [Except.ok.injEq] at h
          subst h
          exact ⟨ps1, t, ps2, rfl, h2, h3, hf⟩
        · rw [if_neg hf] at h
          cases h

theorem outcome_ok_inv (r : Except Failure ParseState) (ids tab : List Nat)
    (h : outcome r = .ok (ids, tab)) :
    ∃ ps', r = .ok ps' ∧ ps'.idents = ids ∧ ps'.result.vector = tab := by
  cases r with
  | error e => simp [outcome] at h
  | ok ps' =>
    simp only [outcome, Except.ok.injEq, Prod.mk.injEq] at h
    exact ⟨ps', rfl, h.1, h.2⟩

theorem parse_expect_result_ok (ps : ParseState) (t : TruthTab) (tok : Nat) (ps' : ParseState)
    (h : parse_expect { ps with result := t } tok = .ok ps') :
    ∃ ps1, parse_expect ps tok = .ok ps1 ∧ ps' = { ps1 with result := t } := by
  rw [parse_expect_result] at h
  cases h1 : parse_expect ps tok with
  | error e => simp [h1, Except.map] at h
  | ok ps1 =>
    simp only [h1, Except.map, Except.ok.injEq] at h
    exact ⟨ps1, rfl, h.symm⟩


/-! ## The identifier table -/

theorem idents_length (ps : ParseState) : ps.idents.length = ps.ident_cnt := by
  simp [ParseState.idents]

theorem get_id_loop_eq (ps : ParseState) (ch n i : Nat) :
    get_id_loop ps ch n i =
      if ch ∈ (List.range' i n).map ps.ident then
        some (i + ((List.range' i n).map ps.ident).indexOf ch)
      else none := by
  induction n generalizing i with
  | zero => simp [get_id_loop]
  | succ n ih =>
    rw [get_id_loop, List.range'_succ, List.map_cons]
    by_cases h : ps.ident i = ch
    · rw [if_pos h, if_pos (by simp [h]), List.indexOf_cons_eq _ h]
      rfl
    · rw [if_neg h, ih, List.indexOf_cons_ne _ h]
      by_cases hm : ch ∈ (List.range' (i + 1) n).map ps.ident
      · rw [if_pos hm, if_pos (List.mem_cons_of_mem _ hm)]
        congr 1
        omega
      · rw [if_neg hm, if_neg]
        intro hc
        rcases List.mem_cons.mp hc with hc | hc
        · exact h hc.symm
        · exact hm hc

theorem get_id_loop_idents (ps : ParseState) (ch : Nat) :
    get_id_loop ps ch ps.ident_cnt 0 =
      if ch ∈ ps.idents then some (ps.idents.indexOf ch) else none := by
  rw [get_id_loop_eq, ← List.range_eq_range']
  simp only [Nat.zero_add]
  rfl

/-- A call on a character already stored returns its index and leaves the
state as it is. -/
theorem get_id_stored (ps : ParseState) (ch : Nat) (h : ch ∈ ps.idents) :
    get_id ps ch = .ok (ps.idents.indexOf ch, ps) := by
  unfold get_id
  rw [get_id_loop_idents, if_pos h]

/-- A call on a new character, with room left, returns the old count and
appends the character. -/
theorem get_id_new (ps : ParseState) (ch : Nat) (h : ch ∉ ps.idents)
    (hroom : ps.ident_cnt < MAXIDENT) :
    ∃ ps1, get_id ps ch = .ok (ps.ident_cnt, ps1) ∧ ps1.idents = ps.idents ++ [ch] ∧
      ps1.ident_cnt = ps.ident_cnt + 1 ∧ ps1.token = ps.token ∧ ps1.inputf = ps.inputf ∧
      ps1.result = ps.result := by
  unfold get_id
  rw [get_id_loop_idents, if_neg h]
  dsimp only
  rw [if_pos hroom]
  refine ⟨_, rfl, ?_, rfl, rfl, rfl, rfl⟩
  unfold ParseState.idents
  dsimp only
  rw [List.range_succ, List.map_append]
  congr 1
  · apply List.map_congr_left
    intro j hj
    have : j ≠ ps.ident_cnt := Nat.ne_of_lt (List.mem_range.mp hj)
    simp [this]
  · simp

/-- A call on a new character with the table full fails the assertion. -/
theorem get_id_full (ps : ParseState) (ch : Nat) (h : ch ∉ ps.idents)
    (hfull : ¬ ps.ident_cnt < MAXIDENT) : get_id ps ch = .error .assertIdent := by
  unfold get_id
  rw [get_id_loop_idents, if_neg h]
  dsimp only
  rw [if_neg hfull]

/-- Distinct uppercase letters are at most 26. -/
theorem upper_nodup_length (l : List Nat) (hn : l.Nodup) (hu : ∀ c ∈ l, is_upper c) :
    l.length ≤ MAXIDENT := by
  have hsub : l ⊆ List.range' 65 26 := by
    intro c hc
    have := hu c hc
    unfold is_upper at this
    simp only [List.mem_range'_1]
    omega
  have := (hn.subperm hsub).length_le
  simpa [MAXIDENT] using this


/-! ## What one call of `next_token` does -/

theorem next_token_from_nil (ps : ParseState) :
    next_token_from ps [] =
      .ok { ps with token := MAXIDENT, inputf := { buf := [], eof := true } } := rfl

theorem next_token_from_space (ps : ParseState) (ch : Nat) (rest : List Nat)
    (h : is_space ch) : next_token_from ps (ch :: rest) = next_token_from ps rest := by
  rw [next_token_from, if_pos (show ch = 32 ∨ ch = 9 ∨ ch = 13 ∨ ch = 10 from h)]

theorem next_token_from_upper (ps : ParseState) (ch : Nat) (rest : List Nat)
    (h : is_upper ch) :
    next_token_from ps (ch :: rest) =
      match get_id { ps with inputf := { buf := rest, eof := ps.inputf.eof } } ch with
      | .error e => .error e
      | .ok (i, ps2) => .ok { ps2 with token := i } := by
  have hns : ¬ (ch = 32 ∨ ch = 9 ∨ ch = 13 ∨ ch = 10) := by
    unfold is_upper at h; omega
  rw [next_token_from, if_neg hns]
  dsimp only
  rw [if_pos (show 65 ≤ ch ∧ ch ≤ 90 from h)]

theorem next_token_from_other (ps : ParseState) (ch : Nat) (rest : List Nat)
    (hs : ¬ is_space ch) (hu : ¬ is_upper ch) :
    next_token_from ps (ch :: rest) =
      .ok { ps with inputf := { buf := rest, eof := ps.inputf.eof }, token := char_token ch } := by
  rw [next_token_from, if_neg (show ¬ (ch = 32 ∨ ch = 9 ∨ ch = 13 ∨ ch = 10) from hs)]
  dsimp only
  rw [if_neg (show ¬ (65 ≤ ch ∧ ch ≤ 90) from hu)]
  unfold char_token
  repeat' split <;> try rfl

/-- The result of `get_id`: an index already in use with the state unchanged,
or the next free index with the character appended. -/
theorem get_id_ok (ps : ParseState) (ch i : Nat) (ps' : ParseState)
    (h : get_id ps ch = .ok (i, ps')) :
    (ch ∈ ps.idents ∧ i = ps.idents.indexOf ch ∧ i < ps.ident_cnt ∧ ps' = ps) ∨
    (ch ∉ ps.idents ∧ i = ps.ident_cnt ∧ ps.ident_cnt < MAXIDENT ∧
      ps'.idents = ps.idents ++ [ch] ∧ ps'.ident_cnt = ps.ident_cnt + 1 ∧
      ps'.token = ps.token ∧ ps'.inputf = ps.inputf ∧ ps'.result = ps.result) := by
  by_cases hmem : ch ∈ ps.idents
  · rw [get_id_stored ps ch hmem] at h
    simp only [Except.ok.injEq, Prod.mk.injEq] at h
    refine Or.inl ⟨hmem, h.1.symm, ?_, h.2.symm⟩
    rw [← h.1, ← idents_length]
    exact List.indexOf_lt_length.mpr hmem
  · by_cases hroom : ps.ident_cnt < MAXIDENT
    · obtain ⟨ps1, hget, h1, h2, h3, h4, h5⟩ := get_id_new ps ch hmem hroom
      rw [hget] at h
      simp only [Except.ok.injEq, Prod.mk.injEq] at h
      obtain ⟨rfl, rfl⟩ := h
      exact Or.inr ⟨hmem, rfl, hroom, h1, h2, h3, h4, h5⟩
    · rw [get_id_full ps ch hmem hroom] at h
      cases h

/-- One call of `next_token`: either the rest of the stream is skipped and its
end is met, or some characters are skipped and the next one is made a token. -/
theorem next_token_from_ok (l : List Nat) (ps ps' : ParseState)
    (h : next_token_from ps l = .ok ps') :
    ((∀ c ∈ l, is_space c) ∧
      ps' = { ps with token := MAXIDENT, inputf := { buf := [], eof := true } }) ∨
    (∃ ws ch rest, l = ws ++ ch :: rest ∧ (∀ c ∈ ws, is_space c) ∧ ¬ is_space ch ∧
      ((is_upper ch ∧ ∃ i ps2,
          get_id { ps with inputf := { buf := rest, eof := ps.inputf.eof } } ch = .ok (i, ps2) ∧
          ps' = { ps2 with token := i }) ∨
       (¬ is_upper ch ∧
          ps' = { ps with inputf := { buf := rest, eof := ps.inputf.eof },
                          token := char_token ch }))) := by
  induction l with
  | nil =>
    rw [next_token_from_nil] at h
    simp only [Except.ok.injEq] at h
    exact Or.inl ⟨by simp, h.symm⟩
  | cons ch rest ih =>
    by_cases hs : is_space ch
    · rw [next_token_from_space ps ch rest hs] at h
      rcases ih h with ⟨hall, hps⟩ | ⟨ws, c, r, hl, hws, hc, hcase⟩
      · refine Or.inl ⟨?_, hps⟩
        intro c hc
        rcases List.mem_cons.mp hc with rfl | hc
        · exact hs
        · exact hall c hc
      · refine Or.inr ⟨ch :: ws, c, r, by rw [hl]; rfl, ?_, hc, hcase⟩
        intro x hx
        rcases List.mem_cons.mp hx with rfl | hx
        · exact hs
        · exact hws x hx
    · refine Or.inr ⟨[], ch, rest, rfl, by simp, hs, ?_⟩
      by_cases hu : is_upper ch
      · rw [next_token_from_upper ps ch rest hu] at h
        cases hg : get_id { ps with inputf := { buf := rest, eof := ps.inputf.eof } } ch with
        | error e => simp [hg] at h
        | ok r =>
          obtain ⟨i, ps2⟩ := r
          simp only [hg, Except.ok.injEq] at h
          exact Or.inl ⟨hu, i, ps2, rfl, h.symm⟩
      · rw [next_token_from_other ps ch rest hs hu] at h
        simp only [Except.ok.injEq] at h
        exact Or.inr ⟨hu, h.symm⟩

theorem char_token_not_ident (ch : Nat) : MAXIDENT ≤ char_token ch := by
  unfold char_token
  repeat' split
  all_goals decide


/-! ## Invariants of the scanner along a parse -/

theorem parse_expect_ok (ps : ParseState) (tok : Nat) (ps' : ParseState)
    (h : parse_expect ps tok = .ok ps') : ps.token = tok ∧ next_token ps = .ok ps' := by
  unfold parse_expect at h
  by_cases ht : ps.token ≠ tok
  · rw [if_pos ht] at h; cases h
  · rw [if_neg ht] at h
    exact ⟨not_not.mp ht, h⟩

theorem parse_factor_nots_preserves (P : ParseState → Prop)
    (hP : ∀ ps ps', P ps → next_token ps = .ok ps' → P ps') :
    ∀ n ps c c' ps', P ps → parse_factor_nots n ps c = .ok (c', ps') → P ps' := by
  intro n
  induction n with
  | zero => intro ps c c' ps' _ h; simp [parse_factor_nots] at h
  | succ n ih =>
    intro ps c c' ps' hp h
    rw [parse_factor_nots] at h
    by_cases hn : ps.token = TOK_NOT
    · rw [if_pos hn] at h
      cases h1 : parse_expect ps TOK_NOT with
      | error e => simp [h1] at h
      | ok ps1 =>
        simp only [h1] at h
        exact ih ps1 _ c' ps' (hP ps ps1 hp (parse_expect_ok _ _ _ h1).2) h
    · rw [if_neg hn] at h
      simp only [Except.ok.injEq, Prod.mk.injEq] at h
      rw [← h.2]
      exact hp

/-- What `next_token` keeps, the parser keeps. -/
theorem parse_preserves (P : ParseState → Prop)
    (hP : ∀ ps ps', P ps → next_token ps = .ok ps' → P ps') :
    ∀ n,
      (∀ ps t ps', parse_expr n ps = .ok (t, ps') → P ps → P ps') ∧
      (∀ lhs ps t ps', parse_expr_loop n lhs ps = .ok (t, ps') → P ps → P ps') ∧
      (∀ ps t ps', parse_term n ps = .ok (t, ps') → P ps → P ps') ∧
      (∀ lhs ps t ps', parse_term_loop n lhs ps = .ok (t, ps') → P ps → P ps') ∧
      (∀ ps t ps', parse_factor n ps = .ok (t, ps') → P ps → P ps') := by
  have hE : ∀ ps tok ps', parse_expect ps tok = .ok ps' → P ps → P ps' :=
    fun ps tok ps' h hp => hP ps ps' hp (parse_expect_ok _ _ _ h).2
  refine parse_induction
    (fun _ ps _ ps' => P ps → P ps') (fun _ ps _ ps' => P ps → P ps')
    (fun _ ps _ ps' => P ps → P ps') (fun _ ps _ ps' => P ps → P ps')
    (fun _ _ ps _ ps' => P ps → P ps') (fun _ _ ps _ ps' => P ps → P ps')
    (fun _ _ ps _ ps' => P ps → P ps')
    ?_ ?_ ?_ ?_ ?_ ?_ ?_ ?_ ?_ ?_ ?_ ?_ ?_ ?_
  · intro n ps lhs ps1 t ps2 h1 h2 hp; exact h2 (h1 hp)
  · intro n lhs ps _ hp; exact hp
  · intro n lhs ps ps1 rhs ps2 t ps3 _ he h1 h2 hp; exact h2 (h1 (hE _ _ _ he hp))
  · intro n ps lhs ps1 t ps2 h1 h2 hp; exact h2 (h1 hp)
  · intro n lhs ps ps1 _ he hp; exact hE _ _ _ he hp
  · intro n lhs ps ps1 rhs ps2 _ _ he h1 hp; exact h1 (hE _ _ _ he hp)
  · intro n lhs ps _ _ hp; exact hp
  · intro n lhs ps lhs1 ps1 h1 _ hp; exact h1 hp
  · intro n lhs ps lhs1 ps1 rhs ps2 t ps3 h1 _ h2 h3 hp; exact h3 (h2 (h1 hp))
  · intro n ps t ps1 _ _ he hp; exact hE _ _ _ he hp
  · intro n ps t ps1 _ _ _ he hp; exact hE _ _ _ he hp
  · intro n ps t ps1 _ _ _ _ he hp; exact hE _ _ _ he hp
  · intro n ps ps1 t ps2 ps3 _ _ _ he1 h1 he2 hp; exact hE _ _ _ he2 (h1 (hE _ _ _ he1 hp))
  · intro n ps c ps1 t ps2 hn h1 hp
    exact h1 (parse_factor_nots_preserves P hP _ _ _ _ _ hp hn)

/-- After `next_token` from a state whose identifiers are all in use, at most
the identifier of the new lookahead token is not yet in use. -/
theorem next_token_used (ps ps' : ParseState) (m : Nat) (hc : ps.ident_cnt = m)
    (hm : m ≤ MAXIDENT) (h : next_token ps = .ok ps') : Used ps' m := by
  unfold next_token at h
  rcases next_token_from_ok _ _ _ h with ⟨-, rfl⟩ | ⟨ws, ch, rest, -, -, -, hcase⟩
  · exact ⟨by rw [← hc] at hm; exact hm, Or.inl ⟨hc, fun h => absurd h (Nat.lt_irrefl _)⟩⟩
  · rcases hcase with ⟨-, i, ps2, hg, rfl⟩ | ⟨-, rfl⟩
    · rcases get_id_ok _ _ _ _ hg with ⟨-, -, hi, rfl⟩ | ⟨-, hi, hroom, -, hcnt, -, -, -⟩
      · refine ⟨by show ps.ident_cnt ≤ MAXIDENT; omega, Or.inl ⟨hc, fun _ => ?_⟩⟩
        show i < m
        rw [← hc]; exact hi
      · refine ⟨?_, Or.inr ⟨?_, ?_⟩⟩
        · show ps2.ident_cnt ≤ MAXIDENT
          rw [hcnt]; exact hroom
        · show ps2.ident_cnt = m + 1
          rw [hcnt]; show ps.ident_cnt + 1 = m + 1; omega
        · show i = m
          rw [hi]; exact hc
    · refine ⟨by show ps.ident_cnt ≤ MAXIDENT; omega, Or.inl ⟨hc, fun h => ?_⟩⟩
      exact absurd (char_token_not_ident ch) (Nat.not_le.mpr h)

theorem expect_used (ps ps' : ParseState) (m tok : Nat) (hu : Used ps m)
    (htok : MAXIDENT ≤ tok) (h : parse_expect ps tok = .ok ps') : Used ps' m := by
  obtain ⟨ht, hn⟩ := parse_expect_ok _ _ _ h
  obtain ⟨hle, ⟨hc, -⟩ | ⟨hc, htm⟩⟩ := hu
  · exact next_token_used ps ps' m hc (by omega) hn
  · omega

theorem next_token_seen (s : List Nat) (ps ps' : ParseState) (hs : Seen s ps)
    (h : next_token ps = .ok ps') : Seen s ps' := by
  obtain ⟨pre, hpre, hnd, hmem, heof⟩ := hs
  unfold next_token at h
  rcases next_token_from_ok _ _ _ h with ⟨hall, rfl⟩ | ⟨ws, ch, rest, hl, hws, hch, hcase⟩
  · refine ⟨s, by simp, hnd, ?_, fun _ => rfl⟩
    intro c
    show c ∈ ps.idents ↔ _
    rw [hmem c, hpre]
    constructor
    · rintro ⟨h1, h2⟩; exact ⟨List.mem_append_left _ h1, h2⟩
    · rintro ⟨h1, h2⟩
      rcases List.mem_append.mp h1 with h1 | h1
      · exact ⟨h1, h2⟩
      · have := hall c h1
        unfold is_space at this
        unfold is_upper at h2
        omega
  · have hnospace : ∀ c, c ∈ ws → ¬ is_upper c := by
      intro c hc hu
      have := hws c hc
      unfold is_space at this
      unfold is_upper at hu
      omega
    have heof' : ps.inputf.eof = true → False := by
      intro he
      have := heof he
      rw [this] at hl
      simp at hl
    have hs' : s = (pre ++ ws ++ [ch]) ++ rest := by
      rw [hpre, hl]; simp
    rcases hcase with ⟨hu, i, ps2, hg, rfl⟩ | ⟨hu, rfl⟩
    · rcases get_id_ok _ _ _ _ hg with ⟨hin, -, -, rfl⟩ | ⟨hnin, -, -, hids, -, -, hinp, -⟩
      · refine ⟨pre ++ ws ++ [ch], hs', hnd, ?_, fun he => absurd he (by simpa using heof')⟩
        intro c
        show c ∈ ps.idents ↔ _
        have hin' : ch ∈ ps.idents := hin
        constructor
        · intro hc
          exact ⟨by simp [((hmem c).mp hc).1], ((hmem c).mp hc).2⟩
        · rintro ⟨h1, h2⟩
          simp only [List.mem_append, List.mem_singleton] at h1
          rcases h1 with (h1 | h1) | h1
          · exact (hmem c).mpr ⟨h1, h2⟩
          · exact absurd h2 (hnospace c h1)
          · rw [h1]; exact hin'
      · have hids' : ps2.idents = ps.idents ++ [ch] := hids
        have hnin' : ch ∉ ps.idents := hnin
        refine ⟨pre ++ ws ++ [ch], ?_, ?_, ?_, ?_⟩
        · show s = _ ++ ps2.inputf.buf
          rw [hinp]; exact hs'
        · show ps2.idents.Nodup
          rw [hids']
          exact List.Nodup.append hnd (List.nodup_singleton _) (by simpa using hnin')
        · intro c
          show c ∈ ps2.idents ↔ _
          rw [hids']
          simp only [List.mem_append, List.mem_singleton]
          constructor
          · rintro (hc | hc)
            · exact ⟨Or.inl (Or.inl ((hmem c).mp hc).1), ((hmem c).mp hc).2⟩
            · rw [hc]; exact ⟨Or.inr rfl, hu⟩
          · rintro ⟨(h1 | h1) | h1, h2⟩
            · exact Or.inl ((hmem c).mpr ⟨h1, h2⟩)
            · exact absurd h2 (hnospace c h1)
            · exact Or.inr h1
        · show ps2.inputf.eof = true → ps2.inputf.buf = []
          rw [hinp]
          intro he
          exact absurd he (by simpa using heof')
    · refine ⟨pre ++ ws ++ [ch], hs', hnd, ?_, fun he => absurd he (by simpa using heof')⟩
      intro c
      show c ∈ ps.idents ↔ _
      constructor
      · intro hc
        exact ⟨by simp [((hmem c).mp hc).1], ((hmem c).mp hc).2⟩
      · rintro ⟨h1, h2⟩
        simp only [List.mem_append, List.mem_singleton] at h1
        rcases h1 with (h1 | h1) | h1
        · exact (hmem c).mpr ⟨h1, h2⟩
        · exact absurd h2 (hnospace c h1)
        · rw [h1] at h2; exact absurd h2 hu

/-- When `next_token` leaves the end-of-file indicator set, it met the end of
the stream and registered no identifier. -/
theorem next_token_at_eof (s : List Nat) (ps ps' : ParseState) (hs : Seen s ps)
    (h : next_token ps = .ok ps') (he : ps'.inputf.eof = true) :
    (∀ c ∈ ps.inputf.buf, is_space c) ∧
      ps' = { ps with token := MAXIDENT, inputf := { buf := [], eof := true } } := by
  obtain ⟨pre, hpre, hnd, hmem, heof⟩ := hs
  unfold next_token at h
  rcases next_token_from_ok _ _ _ h with hA | ⟨ws, ch, rest, hl, hws, hch, hcase⟩
  · exact hA
  · exfalso
    have hold : ps.inputf.eof = true := by
      rcases hcase with ⟨hu, i, ps2, hg, rfl⟩ | ⟨hu, rfl⟩
      · rcases get_id_ok _ _ _ _ hg with ⟨-, -, -, rfl⟩ | ⟨-, -, -, -, -, -, hinp, -⟩
        · exact he
        · have : ps2.inputf.eof = true := he
          rw [hinp] at this
          exact this
      · exact he
    have := heof hold
    rw [this] at hl
    simp at hl

theorem seen_start (ps : ParseState) (s : List Nat) :
    Seen s { ps with ident_cnt := 0, inputf := FILE.open s } := by
  refine ⟨[], rfl, ?_, ?_, ?_⟩
  · simp [ParseState.idents]
  · intro c; simp [ParseState.idents]
  · intro h; simp [FILE.open] at h

theorem seen_result (s : List Nat) (ps : ParseState) (t : TruthTab) (h : Seen s ps) :
    Seen s { ps with result := t } := h

theorem used_result (ps : ParseState) (t : TruthTab) (m : Nat) (h : Used ps m) :
    Used { ps with result := t } m := h


/-! ## The fuel given by `parse` is enough -/

theorem next_token_pending (ps ps' : ParseState) (h : next_token ps = .ok ps') :
    pending ps' ≤ ps.inputf.buf.length := by
  unfold next_token at h
  rcases next_token_from_ok _ _ _ h with ⟨-, rfl⟩ | ⟨ws, ch, rest, hl, -, -, hcase⟩
  · simp [pending]
  · have hlen : rest.length + 1 ≤ ps.inputf.buf.length := by
      rw [hl]; simp
    have hbuf : ps'.inputf.buf = rest := by
      rcases hcase with ⟨-, i, ps2, hg, rfl⟩ | ⟨-, rfl⟩
      · rcases get_id_ok _ _ _ _ hg with ⟨-, -, -, rfl⟩ | ⟨-, -, -, -, -, -, hinp, -⟩
        · rfl
        · show ps2.inputf.buf = rest
          rw [hinp]
      · rfl
    unfold pending
    split
    · omega
    · rw [hbuf]; exact hlen

theorem expect_progress (ps ps' : ParseState) (tok : Nat) (htok : tok ≠ MAXIDENT)
    (h : parse_expect ps tok = .ok ps') : pending ps' < pending ps := by
  obtain ⟨ht, hn⟩ := parse_expect_ok _ _ _ h
  have := next_token_pending _ _ hn
  have hp : pending ps = ps.inputf.buf.length + 1 := by
    unfold pending
    rw [if_neg (by rw [ht]; exact htok)]
  omega

theorem nots_progress :
    ∀ n ps c c' ps', parse_factor_nots n ps c = .ok (c', ps') → pending ps' ≤ pending ps := by
  intro n
  induction n with
  | zero => intro ps c c' ps' h; simp [parse_factor_nots] at h
  | succ n ih =>
    intro ps c c' ps' h
    rw [parse_factor_nots] at h
    by_cases hn : ps.token = TOK_NOT
    · rw [if_pos hn] at h
      cases h1 : parse_expect ps TOK_NOT with
      | error e => simp [h1] at h
      | ok ps1 =>
        simp only [h1] at h
        have := ih ps1 _ c' ps' h
        have := expect_progress _ _ _ (by decide) h1
        omega
    · rw [if_neg hn] at h
      simp only [Except.ok.injEq, Prod.mk.injEq] at h
      rw [← h.2]

/-- Every successful call of `parse_expr`, `parse_term` and `parse_factor`
consumes a token; the loops consume none or more. -/
theorem parse_progress :
    ∀ n,
      (∀ ps t ps', parse_expr n ps = .ok (t, ps') → pending ps' < pending ps) ∧
      (∀ lhs ps t ps', parse_expr_loop n lhs ps = .ok (t, ps') → pending ps' ≤ pending ps) ∧
      (∀ ps t ps', parse_term n ps = .ok (t, ps') → pending ps' < pending ps) ∧
      (∀ lhs ps t ps', parse_term_loop n lhs ps = .ok (t, ps') → pending ps' ≤ pending ps) ∧
      (∀ ps t ps', parse_factor n ps = .ok (t, ps') → pending ps' < pending ps) := by
  refine parse_induction
    (fun _ ps _ ps' => pending ps' < pending ps) (fun _ ps _ ps' => pending ps' < pending ps)
    (fun _ ps _ ps' => pending ps' < pending ps) (fun _ ps _ ps' => pending ps' < pending ps)
    (fun _ _ ps _ ps' => pending ps' ≤ pending ps) (fun _ _ ps _ ps' => pending ps' ≤ pending ps)
    (fun _ _ ps _ ps' => pending ps' ≤ pending ps)
    ?_ ?_ ?_ ?_ ?_ ?_ ?_ ?_ ?_ ?_ ?_ ?_ ?_ ?_
  · intro n ps lhs ps1 t ps2 h1 h2; omega
  · intro n lhs ps _; exact Nat.le_refl _
  · intro n lhs ps ps1 rhs ps2 t ps3 _ he h1 h2
    have := expect_progress _ _ _ (by decide) he
    omega
  · intro n ps lhs ps1 t ps2 h1 h2; omega
  · intro n lhs ps ps1 _ he
    exact Nat.le_of_lt (expect_progress _ _ _ (by decide) he)
  · intro n lhs ps ps1 rhs ps2 _ _ he h1
    have := expect_progress _ _ _ (by decide) he
    omega
  · intro n lhs ps _ _; exact Nat.le_refl _
  · intro n lhs ps lhs1 ps1 h1 _; exact h1
  · intro n lhs ps lhs1 ps1 rhs ps2 t ps3 h1 _ h2 h3; omega
  · intro n ps t ps1 hid _ he
    have hid' : ps.token < MAXIDENT := by simpa [isident] using hid
    exact expect_progress _ _ _ (Nat.ne_of_lt hid') he
  · intro n ps t ps1 _ _ _ he; exact expect_progress _ _ _ (by decide) he
  · intro n ps t ps1 _ _ _ _ he; exact expect_progress _ _ _ (by decide) he
  · intro n ps ps1 t ps2 ps3 _ _ _ he1 h1 he2
    have := expect_progress _ _ _ (by decide) he1
    have := expect_progress _ _ _ (by decide) he2
    omega
  · intro n ps c ps1 t ps2 hn h1
    have := nots_progress _ _ _ _ _ hn
    omega

theorem next_token_no_fuel_error (ps : ParseState) : next_token ps ≠ .error .outOfFuel := by
  unfold next_token
  generalize ps.inputf.buf = l
  induction l with
  | nil => rw [next_token_from_nil]; exact fun h => by cases h
  | cons ch rest ih =>
    by_cases hs : is_space ch
    · rw [next_token_from_space ps ch rest hs]; exact ih
    · by_cases hu : is_upper ch
      · rw [next_token_from_upper ps ch rest hu]
        intro h
        cases hg : get_id { ps with inputf := { buf := rest, eof := ps.inputf.eof } } ch with
        | error e =>
          rw [hg] at h
          simp only [Except.error.injEq] at h
          subst h
          unfold get_id at hg
          split at hg
          · cases hg
          · split at hg <;> cases hg
        | ok r =>
          rw [hg] at h
          cases h
      · rw [next_token_from_other ps ch rest hs hu]
        exact fun h => by cases h

theorem expect_no_fuel_error (ps : ParseState) (tok : Nat) :
    parse_expect ps tok ≠ .error .outOfFuel := by
  unfold parse_expect
  split
  · exact fun h => by cases h
  · exact next_token_no_fuel_error ps

theorem nots_no_fuel_error :
    ∀ n ps c, pending ps + 1 ≤ n → parse_factor_nots n ps c ≠ .error .outOfFuel := by
  intro n
  induction n with
  | zero => intro ps c h; omega
  | succ n ih =>
    intro ps c hn
    rw [parse_factor_nots]
    by_cases hnot : ps.token = TOK_NOT
    · rw [if_pos hnot]
      cases h1 : parse_expect ps TOK_NOT with
      | error e =>
        intro h
        simp only [Except.error.injEq] at h
        exact expect_no_fuel_error ps TOK_NOT (by rw [h1, h])
      | ok ps1 =>
        have := expect_progress _ _ _ (by decide) h1
        exact ih ps1 _ (by omega)
    · rw [if_neg hnot]
      exact fun h => by cases h


/-! ## Truth table operations: basic facts -/

theorem binary_op_loop_length (op : Nat) (rhs : List Nat) (m : Nat) (i : Nat) (xs : List Nat) :
    (binary_op_loop op rhs m i xs).length = xs.length := by
  induction xs generalizing i with
  | nil => rfl
  | cons x xs ih => simp [binary_op_loop, ih]

theorem binary_op_loop_getElem? (op : Nat) (rhs : List Nat) (m : Nat) (i j : Nat)
    (xs : List Nat) :
    (binary_op_loop op rhs m i xs)[j]? =
      (xs[j]?).map (fun x => apply_op op x (rhs.getD ((i + j) &&& m) 0)) := by
  induction xs generalizing i j with
  | nil => simp [binary_op_loop]
  | cons x xs ih =>
    cases j with
    | zero => simp [binary_op_loop]
    | succ j =>
      simp only [binary_op_loop, List.getElem?_cons_succ, ih]
      have : i + 1 + j = i + (j + 1) := by omega
      rw [this]

theorem binary_op_eq (op : Nat) (lhs rhs : TruthTab) :
    binary_op op lhs rhs =
      { vector := binary_op_loop op (narrow lhs rhs).vector ((narrow lhs rhs).len - 1) 0
          (wide lhs rhs).vector } := by
  unfold binary_op wide narrow
  by_cases h : lhs.len < rhs.len <;> simp [h]

theorem binary_op_len (op : Nat) (lhs rhs : TruthTab) :
    (binary_op op lhs rhs).len = max lhs.len rhs.len := by
  rw [binary_op_eq]
  unfold wide TruthTab.len
  simp only [binary_op_loop_length]
  by_cases h : lhs.vector.length < rhs.vector.length
  · rw [if_pos h]; omega
  · rw [if_neg h]; omega

theorem binary_op_getElem? (op : Nat) (lhs rhs : TruthTab) (r : Nat) :
    (binary_op op lhs rhs).vector[r]? =
      ((wide lhs rhs).vector[r]?).map
        (fun x => apply_op op x ((narrow lhs rhs).vector.getD (r &&& ((narrow lhs rhs).len - 1)) 0)) := by
  rw [binary_op_eq]
  simp only [binary_op_loop_getElem?, Nat.zero_add]

theorem apply_op_and (x y : Bool) : apply_op TOK_AND x.toNat y.toNat = (x && y).toNat := by
  cases x <;> cases y <;> decide

theorem apply_op_or (x y : Bool) : apply_op TOK_OR x.toNat y.toNat = (x || y).toNat := by
  cases x <;> cases y <;> decide

theorem apply_op_xor (x y : Bool) : apply_op TOK_XOR x.toNat y.toNat = (xor x y).toNat := by
  cases x <;> cases y <;> decide

theorem inverse_len (t : TruthTab) : (inverse t).len = t.len := by
  simp [inverse, TruthTab.len]

theorem toNat_xor_one (x : Bool) : x.toNat ^^^ 1 = (!x).toNat := by
  cases x <;> decide


/-! ## Tables as row functions -/

theorem single_var_eq (i : Nat) (h : i + 1 < MAXIDENT) :
    single_var i =
      .ok { vector := List.replicate (2 ^ i) 0 ++ List.replicate (2 ^ i) 1 } := by
  have hlt : 2 ^ (i + 1) < 2 ^ MAXIDENT := Nat.pow_lt_pow_right (by decide) h
  unfold single_var new_truth_tab MAX_TRUTHTAB_LEN
  simp only [Nat.one_shiftLeft, if_pos hlt, memset]
  have h2 : 2 ^ (i + 1) = 2 ^ i + 2 ^ i := by rw [Nat.pow_succ]; omega
  simp [h2, List.take_replicate, List.drop_replicate]

theorem single_var_error (i : Nat) (h : MAXIDENT ≤ i + 1) :
    single_var i = .error .assertLen := by
  have hle : 2 ^ MAXIDENT ≤ 2 ^ (i + 1) := Nat.pow_le_pow_right (by decide) h
  unfold single_var new_truth_tab MAX_TRUTHTAB_LEN
  simp only [Nat.one_shiftLeft, if_neg (Nat.not_lt.mpr hle)]

theorem constant_eq (k : Nat) : constant k = .ok { vector := [k] } := by
  unfold constant new_truth_tab MAX_TRUTHTAB_LEN MAXIDENT
  simp

theorem single_var_entry (i r : Nat) (hr : r < 2 ^ (i + 1)) :
    (List.replicate (2 ^ i) 0 ++ List.replicate (2 ^ i) 1)[r]? = some (r.testBit i).toNat := by
  have h2 : 2 ^ (i + 1) = 2 ^ i + 2 ^ i := by rw [Nat.pow_succ]; omega
  by_cases hlt : r < 2 ^ i
  · rw [List.getElem?_append_left (by simpa using hlt)]
    simp [hlt, Nat.testBit_lt_two_pow hlt]
  · have hge : 2 ^ i ≤ r := Nat.le_of_not_lt hlt
    rw [List.getElem?_append_right (by simpa using hge)]
    have hx : r - 2 ^ i < 2 ^ i := by omega
    have hb : r.testBit i = true := by
      have : r = 2 ^ i + (r - 2 ^ i) := by omega
      rw [this, Nat.testBit_two_pow_add_eq, Nat.testBit_lt_two_pow hx]; rfl
    simp [hx, hb]

theorem Tab_single_var (i : Nat) (t : TruthTab) (h : single_var i = .ok t) :
    Tab t (fun r => r.testBit i) ∧ t.len = 2 ^ (i + 1) := by
  by_cases hi : i + 1 < MAXIDENT
  · rw [single_var_eq i hi] at h
    simp only [Except.ok.injEq] at h
    subst h
    have h2 : 2 ^ (i + 1) = 2 ^ i + 2 ^ i := by rw [Nat.pow_succ]; omega
    refine ⟨⟨i + 1, by simp [h2], ?_⟩, by simp [TruthTab.len, h2]⟩
    intro r
    have hr : r % 2 ^ (i + 1) < 2 ^ (i + 1) := Nat.mod_lt _ (by positivity)
    show (List.replicate (2 ^ i) 0 ++ List.replicate (2 ^ i) 1)[r % 2 ^ (i + 1)]? = _
    rw [single_var_entry i _ hr, Nat.testBit_mod_two_pow]
    simp
  · rw [single_var_error i (Nat.le_of_not_lt hi)] at h
    cases h

theorem Tab_constant (k : Bool) (t : TruthTab) (h : constant k.toNat = .ok t) :
    Tab t (fun _ => k) ∧ t.len = 2 ^ 0 := by
  rw [constant_eq] at h
  simp only [Except.ok.injEq] at h
  subst h
  refine ⟨⟨0, by simp, ?_⟩, by simp [TruthTab.len]⟩
  intro r
  simp [Nat.mod_one]

theorem Tab_inverse (t : TruthTab) (g : Nat → Bool) (h : Tab t g) :
    Tab (inverse t) (fun r => !g r) := by
  obtain ⟨w, hl, hg⟩ := h
  refine ⟨w, by simp [inverse, hl], ?_⟩
  intro r
  simp [inverse, List.getElem?_map, hg r, toNat_xor_one]

theorem Tab_binary_op (op : Nat) (bop : Bool → Bool → Bool)
    (hop : ∀ x y : Bool, apply_op op x.toNat y.toNat = (bop x y).toNat)
    (hcomm : ∀ x y, bop x y = bop y x)
    (a b : TruthTab) (g h : Nat → Bool) (ha : Tab a g) (hb : Tab b h) :
    Tab (binary_op op a b) (fun r => bop (g r) (h r)) := by
  obtain ⟨wa, hla, hga⟩ := ha
  obtain ⟨wb, hlb, hgb⟩ := hb
  have key : ∀ (W N : TruthTab) (gW gN : Nat → Bool) (wW wN : Nat),
      W.vector.length = 2 ^ wW → (∀ r, W.vector[r % 2 ^ wW]? = some (gW r).toNat) →
      N.vector.length = 2 ^ wN → (∀ r, N.vector[r % 2 ^ wN]? = some (gN r).toNat) →
      wN ≤ wW → ∀ r,
      ((W.vector[r % 2 ^ wW]?).map
        (fun x => apply_op op x (N.vector.getD ((r % 2 ^ wW) &&& (N.len - 1)) 0))) =
        some (bop (gW r) (gN r)).toNat := by
    intro W N gW gN wW wN hW hgW hN hgN hle r
    have hmask : (r % 2 ^ wW) &&& (N.len - 1) = r % 2 ^ wN := by
      unfold TruthTab.len
      rw [hN, Nat.and_pow_two_sub_one_eq_mod, Nat.mod_mod_of_dvd _ (Nat.pow_dvd_pow 2 hle)]
    rw [hgW r, hmask, List.getD_eq_getElem?_getD, hgN r]
    simp [hop]
  by_cases hlt : a.len < b.len
  · have hw : wa ≤ wb := by
      unfold TruthTab.len at hlt
      rw [hla, hlb] at hlt
      exact Nat.le_of_lt ((Nat.pow_lt_pow_iff_right (by decide)).mp hlt)
    refine ⟨wb, ?_, ?_⟩
    · have := binary_op_len op a b
      unfold TruthTab.len at this hlt
      rw [this, hlb]
      have : a.vector.length ≤ b.vector.length := Nat.le_of_lt hlt
      rw [← hlb]; omega
    · intro r
      rw [binary_op_getElem?]
      have hW : wide a b = b := by simp [wide, hlt]
      have hN : narrow a b = a := by simp [narrow, hlt]
      rw [hW, hN, key b a h g wb wa hlb hgb hla hga hw r, hcomm]
  · have hw : wb ≤ wa := by
      unfold TruthTab.len at hlt
      rw [hla, hlb] at hlt
      exact (Nat.pow_le_pow_iff_right (by decide)).mp (Nat.le_of_not_lt hlt)
    refine ⟨wa, ?_, ?_⟩
    · have := binary_op_len op a b
      unfold TruthTab.len at this hlt
      rw [this, ← hla]; omega
    · intro r
      rw [binary_op_getElem?]
      have hW : wide a b = a := by simp [wide, hlt]
      have hN : narrow a b = b := by simp [narrow, hlt]
      rw [hW, hN, key a b g h wa wb hla hga hlb hgb hw r]


/-! ## The parser never runs out of the fuel `parse` gives it -/

theorem single_var_no_fuel_error (i : Nat) : single_var i ≠ .error .outOfFuel := by
  by_cases h : i + 1 < MAXIDENT
  · rw [single_var_eq i h]; exact fun h => by cases h
  · rw [single_var_error i (Nat.le_of_not_lt h)]; exact fun h => by cases h

theorem ne_of_error_eq {α : Type} (x : Except Failure α) (e : Failure)
    (hx : x ≠ .error .outOfFuel) (h : x = .error e) :
    (Except.error e : Except Failure (TruthTab × ParseState)) ≠ .error .outOfFuel := by
  intro h'
  simp only [Except.error.injEq] at h'
  subst h'
  exact hx h

theorem primary_no_fuel_error (expr : ParseState → Except Failure (TruthTab × ParseState))
    (ps : ParseState)
    (hexpr : ∀ ps1, parse_expect ps TOK_LPAREN = .ok ps1 → expr ps1 ≠ .error .outOfFuel) :
    primary expr ps ≠ .error .outOfFuel := by
  unfold primary
  by_cases hid : isident ps.token = true
  · rw [if_pos hid]
    cases h1 : single_var ps.token with
    | error e => exact ne_of_error_eq _ e (single_var_no_fuel_error _) h1
    | ok t =>
      dsimp only
      cases h2 : parse_expect ps ps.token with
      | error e => exact ne_of_error_eq _ e (expect_no_fuel_error _ _) h2
      | ok ps1 => exact fun h => by cases h
  · rw [if_neg hid]
    by_cases hF : ps.token = TOK_FALSE
    · rw [if_pos hF, constant_eq]
      dsimp only
      cases h2 : parse_expect ps TOK_FALSE with
      | error e => exact ne_of_error_eq _ e (expect_no_fuel_error _ _) h2
      | ok ps1 => exact fun h => by cases h
    · rw [if_neg hF]
      by_cases hT : ps.token = TOK_TRUE
      · rw [if_pos hT, constant_eq]
        dsimp only
        cases h2 : parse_expect ps TOK_TRUE with
        | error e => exact ne_of_error_eq _ e (expect_no_fuel_error _ _) h2
        | ok ps1 => exact fun h => by cases h
      · rw [if_neg hT]
        cases h1 : parse_expect ps TOK_LPAREN with
        | error e => exact ne_of_error_eq _ e (expect_no_fuel_error _ _) h1
        | ok ps1 =>
          dsimp only
          cases h2 : expr ps1 with
          | error e => exact ne_of_error_eq _ e (hexpr ps1 h1) h2
          | ok r =>
            obtain ⟨t, ps2⟩ := r
            dsimp only
            cases h3 : parse_expect ps2 TOK_RPAREN with
            | error e => exact ne_of_error_eq _ e (expect_no_fuel_error _ _) h3
            | ok ps3 => exact fun h => by cases h

theorem term_op_ok (n : Nat) (lhs : TruthTab) (ps : ParseState) (lhs1 : TruthTab)
    (ps1 : ParseState) (h : term_op (parse_factor n) lhs ps = .ok (lhs1, ps1)) :
    pending ps1 ≤ pending ps := by
  unfold term_op at h
  by_cases hand : ps.token = TOK_AND
  · rw [if_pos hand] at h
    cases h1 : parse_expect ps TOK_AND with
    | error e => simp [h1] at h
    | ok q =>
      simp only [h1, Except.ok.injEq, Prod.mk.injEq] at h
      rw [← h.2]
      exact Nat.le_of_lt (expect_progress _ _ _ (by decide) h1)
  · rw [if_neg hand] at h
    by_cases hxor : ps.token = TOK_XOR
    · rw [if_pos hxor] at h
      cases h1 : parse_expect ps TOK_XOR with
      | error e => simp [h1] at h
      | ok q =>
        simp only [h1] at h
        cases h2 : parse_factor n q with
        | error e => simp [h2] at h
        | ok r =>
          obtain ⟨rhs, q2⟩ := r
          simp only [h2, Except.ok.injEq, Prod.mk.injEq] at h
          rw [← h.2]
          have := expect_progress _ _ _ (by decide) h1
          have := (parse_progress n).2.2.2.2 _ _ _ h2
          omega
    · rw [if_neg hxor] at h
      simp only [Except.ok.injEq, Prod.mk.injEq] at h
      rw [← h.2]

theorem term_op_no_fuel_error (n : Nat) (lhs : TruthTab) (ps : ParseState)
    (hf : ∀ q, pending q < pending ps → parse_factor n q ≠ .error .outOfFuel) :
    term_op (parse_factor n) lhs ps ≠ .error .outOfFuel := by
  unfold term_op
  by_cases hand : ps.token = TOK_AND
  · rw [if_pos hand]
    cases h1 : parse_expect ps TOK_AND with
    | error e => exact ne_of_error_eq _ e (expect_no_fuel_error _ _) h1
    | ok q => exact fun h => by cases h
  · rw [if_neg hand]
    by_cases hxor : ps.token = TOK_XOR
    · rw [if_pos hxor]
      cases h1 : parse_expect ps TOK_XOR with
      | error e => exact ne_of_error_eq _ e (expect_no_fuel_error _ _) h1
      | ok q =>
        dsimp only
        cases h2 : parse_factor n q with
        | error e =>
          exact ne_of_error_eq _ e (hf q (expect_progress _ _ _ (by decide) h1)) h2
        | ok r => exact fun h => by cases h
    · rw [if_neg hxor]
      exact fun h => by cases h

/-- With fuel linear in the tokens still to be consumed no function of the
parser runs out of fuel. -/
theorem parse_no_fuel_error :
    ∀ n,
      (∀ ps, 4 * pending ps + 5 ≤ n → parse_expr n ps ≠ .error .outOfFuel) ∧
      (∀ lhs ps, 4 * pending ps + 1 ≤ n → parse_expr_loop n lhs ps ≠ .error .outOfFuel) ∧
      (∀ ps, 4 * pending ps + 4 ≤ n → parse_term n ps ≠ .error .outOfFuel) ∧
      (∀ lhs ps, 4 * pending ps + 4 ≤ n → parse_term_loop n lhs ps ≠ .error .outOfFuel) ∧
      (∀ ps, 4 * pending ps + 3 ≤ n → parse_factor n ps ≠ .error .outOfFuel) := by
  intro n
  induction n with
  | zero =>
    refine ⟨?_, ?_, ?_, ?_, ?_⟩ <;> intros <;> omega
  | succ n ih =>
    obtain ⟨ihe, ihel, iht, ihtl, ihf⟩ := ih
    refine ⟨?_, ?_, ?_, ?_, ?_⟩
    · intro ps hn
      rw [parse_expr]
      cases h1 : parse_term n ps with
      | error e => exact ne_of_error_eq _ e (iht ps (by omega)) h1
      | ok r =>
        obtain ⟨lhs, ps1⟩ := r
        have := (parse_progress n).2.2.1 _ _ _ h1
        exact ihel lhs ps1 (by omega)
    · intro lhs ps hn
      rw [parse_expr_loop]
      by_cases hor : ps.token = TOK_OR
      · rw [if_pos hor]
        cases h1 : parse_expect ps TOK_OR with
        | error e => exact ne_of_error_eq _ e (expect_no_fuel_error _ _) h1
        | ok ps1 =>
          have hp1 := expect_progress _ _ _ (by decide) h1
          dsimp only
          cases h2 : parse_term n ps1 with
          | error e => exact ne_of_error_eq _ e (iht ps1 (by omega)) h2
          | ok r =>
            obtain ⟨rhs, ps2⟩ := r
            have := (parse_progress n).2.2.1 _ _ _ h2
            exact ihel _ ps2 (by omega)
      · rw [if_neg hor]
        exact fun h => by cases h
    · intro ps hn
      rw [parse_term]
      cases h1 : parse_factor n ps with
      | error e => exact ne_of_error_eq _ e (ihf ps (by omega)) h1
      | ok r =>
        obtain ⟨lhs, ps1⟩ := r
        have := (parse_progress n).2.2.2.2 _ _ _ h1
        exact ihtl lhs ps1 (by omega)
    · intro lhs ps hn
      rw [parse_term_loop_succ]
      cases h1 : term_op (parse_factor n) lhs ps with
      | error e =>
        exact ne_of_error_eq _ e
          (term_op_no_fuel_error n lhs ps (fun q hq => ihf q (by omega))) h1
      | ok r =>
        obtain ⟨lhs1, ps1⟩ := r
        have hp1 := term_op_ok n lhs ps lhs1 ps1 h1
        dsimp only
        by_cases hs : starts_factor ps1.token = true
        · rw [if_pos hs]
          cases h2 : parse_factor n ps1 with
          | error e => exact ne_of_error_eq _ e (ihf ps1 (by omega)) h2
          | ok r =>
            obtain ⟨rhs, ps2⟩ := r
            have := (parse_progress n).2.2.2.2 _ _ _ h2
            exact ihtl _ ps2 (by omega)
        · rw [if_neg hs]
          exact fun h => by cases h
    · intro ps hn
      rw [parse_factor_succ]
      cases h1 : parse_factor_nots (n + 1) ps 0 with
      | error e => exact ne_of_error_eq _ e (nots_no_fuel_error _ ps 0 (by omega)) h1
      | ok r =>
        obtain ⟨c, ps1⟩ := r
        have hp1 := nots_progress _ _ _ _ _ h1
        dsimp only
        cases h2 : primary (parse_expr n) ps1 with
        | error e =>
          refine ne_of_error_eq _ e (primary_no_fuel_error _ ps1 ?_) h2
          intro ps2 he
          have := expect_progress _ _ _ (by decide) he
          exact ihe ps2 (by omega)
        | ok r => exact fun h => by cases h

/-- The function `parse` of the embedding never stops for lack of fuel: its
results are those of the program. -/
theorem parse_fuel_enough (ps : ParseState) (inputf : FILE) :
    parse ps inputf ≠ .error .outOfFuel := by
  unfold parse
  dsimp only
  cases h1 : next_token { ps with ident_cnt := 0, inputf := inputf } with
  | error e =>
    intro h
    simp only [Except.error.injEq] at h
    exact next_token_no_fuel_error _ (by rw [h1, h])
  | ok ps1 =>
    have hp := next_token_pending _ _ h1
    dsimp only
    cases h2 : parse_expr (parse_fuel inputf.buf.length) ps1 with
    | error e =>
      intro h
      simp only [Except.error.injEq] at h
      refine (parse_no_fuel_error _).1 ps1 ?_ (by rw [h2, h])
      unfold parse_fuel
      have : pending ps1 ≤ inputf.buf.length := hp
      omega
    | ok r =>
      obtain ⟨t, ps2⟩ := r
      dsimp only
      cases h3 : parse_expect { ps2 with result := t } MAXIDENT with
      | error e =>
        intro h
        simp only [Except.error.injEq] at h
        exact expect_no_fuel_error _ _ (by rw [h3, h])
      | ok ps3 =>
        dsimp only
        split <;> exact fun h => by cases h


/-! ## Which texts get past the scanner -/

theorem char_token_symbol (ch : Nat) (hs : ¬ is_space ch) (hu : ¬ is_upper ch) :
    char_token ch = MAXIDENT ↔ ¬ recognised ch := by
  unfold recognised
  have : char_token ch = MAXIDENT ↔ ¬ is_symbol ch := by
    unfold char_token is_symbol
    simp only [List.mem_cons, List.mem_singleton, List.not_mem_nil, or_false]
    constructor
    · intro h
      repeat' split at h
      all_goals first
        | (exfalso; revert h; decide)
        | omega
    · intro h
      repeat' split
      all_goals first
        | rfl
        | (exfalso; omega)
  rw [this]
  constructor
  · intro h; rintro (h1 | h1 | h1)
    · exact hs h1
    · exact hu h1
    · exact h h1
  · intro h h1; exact h (Or.inr (Or.inr h1))

/-- What the parser keeps when `P` is kept by every `parse_expect` of a token
other than the sentinel. -/
theorem parse_preserves_expect (P : ParseState → Prop)
    (hE : ∀ ps tok ps', tok ≠ MAXIDENT → parse_expect ps tok = .ok ps' → P ps → P ps') :
    ∀ n,
      (∀ ps t ps', parse_expr n ps = .ok (t, ps') → P ps → P ps') ∧
      (∀ lhs ps t ps', parse_expr_loop n lhs ps = .ok (t, ps') → P ps → P ps') ∧
      (∀ ps t ps', parse_term n ps = .ok (t, ps') → P ps → P ps') ∧
      (∀ lhs ps t ps', parse_term_loop n lhs ps = .ok (t, ps') → P ps → P ps') ∧
      (∀ ps t ps', parse_factor n ps = .ok (t, ps') → P ps → P ps') := by
  have hnots : ∀ n ps c c' ps', P ps → parse_factor_nots n ps c = .ok (c', ps') → P ps' := by
    intro n
    induction n with
    | zero => intro ps c c' ps' _ h; simp [parse_factor_nots] at h
    | succ n ih =>
      intro ps c c' ps' hp h
      rw [parse_factor_nots] at h
      by_cases hn : ps.token = TOK_NOT
      · rw [if_pos hn] at h
        cases h1 : parse_expect ps TOK_NOT with
        | error e => simp [h1] at h
        | ok ps1 =>
          simp only [h1] at h
          exact ih ps1 _ c' ps' (hE ps _ ps1 (by decide) h1 hp) h
      · rw [if_neg hn] at h
        simp only [Except.ok.injEq, Prod.mk.injEq] at h
        rw [← h.2]
        exact hp
  refine parse_induction
    (fun _ ps _ ps' => P ps → P ps') (fun _ ps _ ps' => P ps → P ps')
    (fun _ ps _ ps' => P ps → P ps') (fun _ ps _ ps' => P ps → P ps')
    (fun _ _ ps _ ps' => P ps → P ps') (fun _ _ ps _ ps' => P ps → P ps')
    (fun _ _ ps _ ps' => P ps → P ps')
    ?_ ?_ ?_ ?_ ?_ ?_ ?_ ?_ ?_ ?_ ?_ ?_ ?_ ?_
  · intro n ps lhs ps1 t ps2 h1 h2 hp; exact h2 (h1 hp)
  · intro n lhs ps _ hp; exact hp
  · intro n lhs ps ps1 rhs ps2 t ps3 _ he h1 h2 hp
    exact h2 (h1 (hE _ _ _ (by decide) he hp))
  · intro n ps lhs ps1 t ps2 h1 h2 hp; exact h2 (h1 hp)
  · intro n lhs ps ps1 _ he hp; exact hE _ _ _ (by decide) he hp
  · intro n lhs ps ps1 rhs ps2 _ _ he h1 hp; exact h1 (hE _ _ _ (by decide) he hp)
  · intro n lhs ps _ _ hp; exact hp
  · intro n lhs ps lhs1 ps1 h1 _ hp; exact h1 hp
  · intro n lhs ps lhs1 ps1 rhs ps2 t ps3 h1 _ h2 h3 hp; exact h3 (h2 (h1 hp))
  · intro n ps t ps1 hid _ he hp
    have hid' : ps.token < MAXIDENT := by simpa [isident] using hid
    exact hE _ _ _ (Nat.ne_of_lt hid') he hp
  · intro n ps t ps1 _ _ _ he hp; exact hE _ _ _ (by decide) he hp
  · intro n ps t ps1 _ _ _ _ he hp; exact hE _ _ _ (by decide) he hp
  · intro n ps ps1 t ps2 ps3 _ _ _ he1 h1 he2 hp
    exact hE _ _ _ (by decide) he2 (h1 (hE _ _ _ (by decide) he1 hp))
  · intro n ps c ps1 t ps2 hn h1 hp
    exact h1 (hnots _ _ _ _ _ hp hn)

theorem next_token_clean (s : List Nat) (ps ps' : ParseState)
    (hc : Clean s ps) (htok : ps.token ≠ MAXIDENT)
    (h : next_token ps = .ok ps') : Clean s ps' := by
  obtain ⟨pre, hpre, hcase⟩ := hc
  have hgood : ∀ c ∈ pre, recognised c := by
    rcases hcase with h1 | ⟨h1, -⟩
    · exact h1
    · exact absurd h1 htok
  unfold next_token at h
  rcases next_token_from_ok _ _ _ h with ⟨hall, rfl⟩ | ⟨ws, ch, rest, hl, hws, hch, hcase'⟩
  · refine ⟨s, by simp, Or.inl ?_⟩
    intro c hc
    rw [hpre] at hc
    rcases List.mem_append.mp hc with hc | hc
    · exact hgood c hc
    · exact Or.inl (hall c hc)
  · have hs' : s = (pre ++ ws ++ [ch]) ++ rest := by rw [hpre, hl]; simp
    have hpw : ∀ c ∈ pre ++ ws, recognised c := by
      intro c hc
      rcases List.mem_append.mp hc with hc | hc
      · exact hgood c hc
      · exact Or.inl (hws c hc)
    have hall : recognised ch → ∀ c ∈ pre ++ ws ++ [ch], recognised c := by
      intro hr c hc
      rcases List.mem_append.mp hc with hc | hc
      · exact hpw c hc
      · rw [List.mem_singleton.mp hc]; exact hr
    rcases hcase' with ⟨hu, i, ps2, hg, rfl⟩ | ⟨hu, rfl⟩
    · have hbuf : ps2.inputf.buf = rest := by
        rcases get_id_ok _ _ _ _ hg with ⟨-, -, -, rfl⟩ | ⟨-, -, -, -, -, -, hinp, -⟩
        · rfl
        · rw [hinp]
      refine ⟨pre ++ ws ++ [ch], ?_, Or.inl (hall (Or.inr (Or.inl hu)))⟩
      show s = _ ++ ps2.inputf.buf
      rw [hbuf]; exact hs'
    · by_cases hr : recognised ch
      · exact ⟨pre ++ ws ++ [ch], hs', Or.inl (hall hr)⟩
      · exact ⟨pre ++ ws ++ [ch], hs',
          Or.inr ⟨(char_token_symbol ch hch hu).mpr hr, pre ++ ws, ch, rfl, hpw, hr⟩⟩

theorem seen_clean_expect (s : List Nat) (ps : ParseState) (tok : Nat) (ps' : ParseState)
    (htok : tok ≠ MAXIDENT) (he : parse_expect ps tok = .ok ps')
    (h : Seen s ps ∧ Clean s ps) : Seen s ps' ∧ Clean s ps' := by
  obtain ⟨ht, hn⟩ := parse_expect_ok _ _ _ he
  exact ⟨next_token_seen s _ _ h.1 hn,
    next_token_clean s _ _ h.2 (by rw [ht]; exact htok) hn⟩

/-- The texts `parse` accepts: recognised characters only, or recognised
characters, then one unrecognised character, then whitespace only. -/
theorem parse_ok_text (ps : ParseState) (s : List Nat) (ps' : ParseState)
    (h : parse ps (FILE.open s) = .ok ps') :
    (∀ c ∈ s, recognised c) ∨
    (∃ good c ws, s = good ++ c :: ws ∧ (∀ x ∈ good, recognised x) ∧ ¬ recognised c ∧
      ∀ w ∈ ws, is_space w) := by
  obtain ⟨ps1, t, ps2, h1, h2, h3, hf⟩ := parse_ok_inv _ _ _ h
  have hs0 : Seen s { ps with ident_cnt := 0, inputf := FILE.open s } := seen_start ps s
  have hs1 : Seen s ps1 := next_token_seen s _ _ hs0 h1
  have hc1 : Clean s ps1 := by
    -- the first read: nothing is read before it
    unfold next_token at h1
    rcases next_token_from_ok _ _ _ h1 with ⟨hall, rfl⟩ | ⟨ws, ch, rest, hl, hws, hch, hcase⟩
    · exact ⟨s, by simp, Or.inl (fun c hc => Or.inl (hall c hc))⟩
    · have hl' : s = ws ++ ch :: rest := hl
      have hs' : s = (ws ++ [ch]) ++ rest := by rw [hl']; simp
      have hw : ∀ c ∈ ws, recognised c := fun c hc => Or.inl (hws c hc)
      rcases hcase with ⟨hu, i, ps2', hg, rfl⟩ | ⟨hu, rfl⟩
      · have hbuf : ps2'.inputf.buf = rest := by
          rcases get_id_ok _ _ _ _ hg with ⟨-, -, -, rfl⟩ | ⟨-, -, -, -, -, -, hinp, -⟩
          · rfl
          · rw [hinp]
        refine ⟨ws ++ [ch], ?_, Or.inl ?_⟩
        · show s = _ ++ ps2'.inputf.buf
          rw [hbuf]; exact hs'
        · intro c hc
          rcases List.mem_append.mp hc with hc | hc
          · exact hw c hc
          · rw [List.mem_singleton.mp hc]; exact Or.inr (Or.inl hu)
      · by_cases hr : recognised ch
        · refine ⟨ws ++ [ch], hs', Or.inl ?_⟩
          intro c hc
          rcases List.mem_append.mp hc with hc | hc
          · exact hw c hc
          · rw [List.mem_singleton.mp hc]; exact hr
        · exact ⟨ws ++ [ch], hs',
            Or.inr ⟨(char_token_symbol ch hch hu).mpr hr, ws, ch, rfl, hw, hr⟩⟩
  obtain ⟨hs2, hc2⟩ := (parse_preserves_expect (fun q => Seen s q ∧ Clean s q)
    (seen_clean_expect s) _).1 _ _ _ h2 ⟨hs1, hc1⟩
  obtain ⟨-, hn⟩ := parse_expect_ok _ _ _ h3
  obtain ⟨hspaces, -⟩ := next_token_at_eof s _ _ (seen_result s ps2 t hs2) hn hf
  have hspaces' : ∀ c ∈ ps2.inputf.buf, is_space c := hspaces
  obtain ⟨pre, hpre, hcase⟩ := hc2
  rcases hcase with hall | ⟨-, good, c, hgc, hgood, hbad⟩
  · refine Or.inl ?_
    intro c hc
    rw [hpre] at hc
    rcases List.mem_append.mp hc with hc | hc
    · exact hall c hc
    · exact Or.inl (hspaces' c hc)
  · exact Or.inr ⟨good, c, ps2.inputf.buf, by rw [hpre, hgc]; simp, hgood, hbad, hspaces'⟩


/-! ## The assertion of `get_id` holds along a scan -/

theorem seen_idents_upper (s : List Nat) (ps : ParseState) (h : Seen s ps) :
    ps.idents.Nodup ∧ ∀ c ∈ ps.idents, is_upper c := by
  obtain ⟨pre, -, hnd, hmem, -⟩ := h
  exact ⟨hnd, fun c hc => ((hmem c).mp hc).2⟩

theorem get_id_upper_ok (ps : ParseState) (ch : Nat) (hnd : ps.idents.Nodup)
    (hup : ∀ c ∈ ps.idents, is_upper c) (hch : is_upper ch) :
    ∃ i ps', get_id ps ch = .ok (i, ps') := by
  by_cases hmem : ch ∈ ps.idents
  · exact ⟨_, _, get_id_stored ps ch hmem⟩
  · have hroom : ps.ident_cnt < MAXIDENT := by
      have hnd' : (ch :: ps.idents).Nodup := List.nodup_cons.mpr ⟨hmem, hnd⟩
      have hall : ∀ c ∈ ch :: ps.idents, is_upper c := by
        intro c hc
        rcases List.mem_cons.mp hc with rfl | hc
        · exact hch
        · exact hup c hc
      have := upper_nodup_length _ hnd' hall
      rw [List.length_cons, idents_length] at this
      omega
    obtain ⟨ps1, hget, -⟩ := get_id_new ps ch hmem hroom
    exact ⟨_, ps1, hget⟩

theorem next_token_from_succeeds (l : List Nat) (ps : ParseState) (hnd : ps.idents.Nodup)
    (hup : ∀ c ∈ ps.idents, is_upper c) : ∃ ps', next_token_from ps l = .ok ps' := by
  induction l with
  | nil => exact ⟨_, next_token_from_nil ps⟩
  | cons ch rest ih =>
    by_cases hs : is_space ch
    · rw [next_token_from_space ps ch rest hs]; exact ih
    · by_cases hu : is_upper ch
      · rw [next_token_from_upper ps ch rest hu]
        obtain ⟨i, ps2, hg⟩ := get_id_upper_ok
          { ps with inputf := { buf := rest, eof := ps.inputf.eof } } ch hnd hup hu
        rw [hg]
        exact ⟨_, rfl⟩
      · rw [next_token_from_other ps ch rest hs hu]
        exact ⟨_, rfl⟩

/-- Along a parse `next_token` always returns: the assertion of `get_id`
cannot fail, the letters being at most 26. -/
theorem next_token_succeeds (s : List Nat) (ps : ParseState) (h : Seen s ps) :
    ∃ ps', next_token ps = .ok ps' := by
  obtain ⟨hnd, hup⟩ := seen_idents_upper s ps h
  exact next_token_from_succeeds _ ps hnd hup


/-! ## The table built by the parser lists the reference value of every row -/

theorem and_one_ne_zero_iff (k : Nat) : k &&& 1 ≠ 0 ↔ k % 2 = 1 := by
  rw [Nat.and_one_is_mod]; omega

theorem take_of_expect (ps : ParseState) (tok : Nat) (ps' : ParseState)
    (h : parse_expect ps tok = .ok ps') : eval_take ps tok = .ok ps' := by
  obtain ⟨ht, hn⟩ := parse_expect_ok _ _ _ h
  unfold eval_take
  rw [if_pos ht]
  exact hn

/-- The loop of `parse_factor` over the NOT tokens adds to its counter the
number of NOT tokens the reference evaluator counts, and ends in the same
state. -/
theorem nots_count :
    ∀ n ps c c' ps', parse_factor_nots n ps c = .ok (c', ps') →
      ∃ k, eval_nots n ps = .ok (k, ps') ∧ c' = c + k := by
  intro n
  induction n with
  | zero => intro ps c c' ps' h; simp [parse_factor_nots] at h
  | succ n ih =>
    intro ps c c' ps' h
    rw [parse_factor_nots] at h
    rw [eval_nots]
    by_cases hn : ps.token = TOK_NOT
    · rw [if_pos hn] at h ⊢
      cases h1 : parse_expect ps TOK_NOT with
      | error e => simp [h1] at h
      | ok ps1 =>
        simp only [h1] at h
        rw [take_of_expect _ _ _ h1]
        obtain ⟨k, hk, hc⟩ := ih ps1 _ c' ps' h
        refine ⟨k + 1, by simp only [hk], by omega⟩
    · rw [if_neg hn] at h ⊢
      simp only [Except.ok.injEq, Prod.mk.injEq] at h
      obtain ⟨rfl, rfl⟩ := h
      exact ⟨0, rfl, rfl⟩

theorem parse_sim :
    ∀ n,
      (∀ ps t ps', parse_expr n ps = .ok (t, ps') →
        ∃ g, Tab t g ∧ ∀ r, eval_expr (row_env r) n ps = .ok (g r, ps')) ∧
      (∀ lhs ps t ps', parse_expr_loop n lhs ps = .ok (t, ps') →
        ∀ g0, Tab lhs g0 →
          ∃ g, Tab t g ∧ ∀ r, eval_expr_loop (row_env r) n (g0 r) ps = .ok (g r, ps')) ∧
      (∀ ps t ps', parse_term n ps = .ok (t, ps') →
        ∃ g, Tab t g ∧ ∀ r, eval_term (row_env r) n ps = .ok (g r, ps')) ∧
      (∀ lhs ps t ps', parse_term_loop n lhs ps = .ok (t, ps') →
        ∀ g0, Tab lhs g0 →
          ∃ g, Tab t g ∧ ∀ r, eval_term_loop (row_env r) n (g0 r) ps = .ok (g r, ps')) ∧
      (∀ ps t ps', parse_factor n ps = .ok (t, ps') →
        ∃ g, Tab t g ∧ ∀ r, eval_factor (row_env r) n ps = .ok (g r, ps')) := by
  refine parse_induction
    (fun n ps t ps' => ∃ g, Tab t g ∧ ∀ r, eval_expr (row_env r) n ps = .ok (g r, ps'))
    (fun n ps t ps' => ∃ g, Tab t g ∧ ∀ r, eval_term (row_env r) n ps = .ok (g r, ps'))
    (fun n ps t ps' => ∃ g, Tab t g ∧ ∀ r, eval_factor (row_env r) n ps = .ok (g r, ps'))
    (fun n ps t ps' => ∃ g, Tab t g ∧
      ∀ r, eval_primary (row_env r) (eval_expr (row_env r) n) ps = .ok (g r, ps'))
    (fun n lhs ps t ps' => ∀ g0, Tab lhs g0 →
      ∃ g, Tab t g ∧ ∀ r, eval_expr_loop (row_env r) n (g0 r) ps = .ok (g r, ps'))
    (fun n lhs ps t ps' => ∀ g0, Tab lhs g0 →
      ∃ g, Tab t g ∧ ∀ r, eval_term_loop (row_env r) n (g0 r) ps = .ok (g r, ps'))
    (fun n lhs ps t ps' => ∀ g0, Tab lhs g0 →
      ∃ g, Tab t g ∧
        ∀ r, eval_term_op (eval_factor (row_env r) n) (g0 r) ps = .ok (g r, ps'))
    ?_ ?_ ?_ ?_ ?_ ?_ ?_ ?_ ?_ ?_ ?_ ?_ ?_ ?_
  · -- expr
    rintro n ps lhs ps1 t ps2 ⟨g1, hg1, he1⟩ hl
    obtain ⟨g, hg, he⟩ := hl g1 hg1
    exact ⟨g, hg, fun r => by rw [eval_expr, he1 r]; exact he r⟩
  · -- no OR
    intro n lhs ps hor g0 hg0
    exact ⟨g0, hg0, fun r => by rw [eval_expr_loop, if_neg hor]⟩
  · -- OR
    rintro n lhs ps ps1 rhs ps2 t ps3 hor hex0 ⟨g1, hg1, he1⟩ hl g0 hg0
    have hex := take_of_expect _ _ _ hex0
    obtain ⟨g, hg, he⟩ := hl (fun r => g0 r || g1 r)
      (Tab_binary_op TOK_OR or apply_op_or Bool.or_comm lhs rhs g0 g1 hg0 hg1)
    exact ⟨g, hg, fun r => by rw [eval_expr_loop, if_pos hor, hex]; simp only [he1 r]; exact he r⟩
  · -- term
    rintro n ps lhs ps1 t ps2 ⟨g1, hg1, he1⟩ hl
    obtain ⟨g, hg, he⟩ := hl g1 hg1
    exact ⟨g, hg, fun r => by rw [eval_term, he1 r]; exact he r⟩
  · -- written AND
    intro n lhs ps ps1 hand hex0 g0 hg0
    have hex := take_of_expect _ _ _ hex0
    exact ⟨g0, hg0, fun r => by
      unfold eval_term_op
      rw [if_pos hand, hex]⟩
  · -- XOR
    rintro n lhs ps ps1 rhs ps2 hand hxor hex0 ⟨g1, hg1, he1⟩ g0 hg0
    have hex := take_of_expect _ _ _ hex0
    refine ⟨fun r => xor (g0 r) (g1 r),
      Tab_binary_op TOK_XOR xor apply_op_xor Bool.xor_comm lhs rhs g0 g1 hg0 hg1, fun r => ?_⟩
    unfold eval_term_op
    rw [if_neg hand, if_pos hxor, hex]
    simp [he1 r]
  · -- no operator
    intro n lhs ps hand hxor g0 hg0
    exact ⟨g0, hg0, fun r => by
      unfold eval_term_op
      rw [if_neg hand, if_neg hxor]⟩
  · -- end of the term
    intro n lhs ps lhs1 ps1 ho hs g0 hg0
    obtain ⟨g1, hg1, he1⟩ := ho g0 hg0
    exact ⟨g1, hg1, fun r => by rw [eval_term_loop, he1 r]; simp [hs]⟩
  · -- one more factor
    rintro n lhs ps lhs1 ps1 rhs ps2 t ps3 ho hs ⟨g2, hg2, he2⟩ hl g0 hg0
    obtain ⟨g1, hg1, he1⟩ := ho g0 hg0
    obtain ⟨g, hg, he⟩ := hl (fun r => g1 r && g2 r)
      (Tab_binary_op TOK_AND and apply_op_and Bool.and_comm lhs1 rhs g1 g2 hg1 hg2)
    exact ⟨g, hg, fun r => by rw [eval_term_loop, he1 r]; simp only [hs, if_true, he2 r]; exact he r⟩
  · -- variable
    intro n ps t ps1 hid hsv hex0
    have hex := take_of_expect _ _ _ hex0
    exact ⟨fun r => r.testBit ps.token, (Tab_single_var _ _ hsv).1,
      fun r => by
        unfold eval_primary
        rw [if_pos hid, hex]
        rfl⟩
  · -- 0
    intro n ps t ps1 hid hF hc hex0
    have hex := take_of_expect _ _ _ hex0
    exact ⟨fun _ => false, (Tab_constant false t hc).1,
      fun r => by
        unfold eval_primary
        rw [if_neg (by simp [hid]), if_pos hF, hex]⟩
  · -- 1
    intro n ps t ps1 hid hF hT hc hex0
    have hex := take_of_expect _ _ _ hex0
    exact ⟨fun _ => true, (Tab_constant true t hc).1,
      fun r => by
        unfold eval_primary
        rw [if_neg (by simp [hid]), if_neg hF, if_pos hT, hex]⟩
  · -- parenthesis
    rintro n ps ps1 t ps2 ps3 hid hF hT hex10 ⟨g, hg, he⟩ hex20
    have hex1 := take_of_expect _ _ _ hex10
    have hex2 := take_of_expect _ _ _ hex20
    exact ⟨g, hg, fun r => by
      unfold eval_primary
      rw [if_neg (by simp [hid]), if_neg hF, if_neg hT, hex1]
      simp [he r, hex2]⟩
  · -- factor
    rintro n ps not_cnt ps1 t ps2 hn ⟨g, hg, he⟩
    obtain ⟨k, hk, hcnt⟩ := nots_count _ _ _ _ _ hn
    rw [Nat.zero_add] at hcnt
    rw [hcnt]
    by_cases hodd : k % 2 = 1
    · rw [if_pos ((and_one_ne_zero_iff _).mpr hodd)]
      exact ⟨fun r => !g r, Tab_inverse t g hg,
        fun r => by rw [eval_factor, hk]; simp [he r, hodd]⟩
    · rw [if_neg (fun h => hodd ((and_one_ne_zero_iff _).mp h))]
      exact ⟨g, hg, fun r => by rw [eval_factor, hk]; simp [he r, hodd]⟩


/-! ## C1: the result table is the truth table of the expression -/

/-- The reference values of `A ^ B C` for the rows 0 to 7: (A XOR B) AND C. -/
theorem eval_input_sample :
    (List.range 8).map
        (fun r => eval_input (row_env r) ParseState.fresh (FILE.open (bytes "A ^ B C"))) =
      [.ok false, .ok false, .ok false, .ok false, .ok false, .ok true, .ok true, .ok false] := by
  decide!

/-- C1. For every input that `parse` accepts, the entry of the result table at
every row `r` below its length is the value of the input expression under the
assignment that gives the variable with identifier index `i` bit `i` of `r`:
the reference evaluator `eval_input` (terms OR-ed left to right, factors folded
left to right with AND and XOR, a factor negated for an odd number of NOT
tokens, which it counts itself, `0` and `1` constants, parentheses primaries)
returns a value `v` on that input and the entry is `v` as 0 or 1. -/
theorem parse_table_is_expression_value (ps : ParseState) (s : List Nat) (ids tab : List Nat)
    (h : outcome (parse ps (FILE.open s)) = .ok (ids, tab)) :
    ∀ r, r < tab.length →
      ∃ v, eval_input (row_env r) ps (FILE.open s) = .ok v ∧ tab[r]? = some v.toNat := by
  obtain ⟨ps', hp, -, htab⟩ := outcome_ok_inv _ _ _ h
  obtain ⟨ps1, t, ps2, h1, h2, h3, hf⟩ := parse_ok_inv _ _ _ hp
  obtain ⟨ps3, h3', rfl⟩ := parse_expect_result_ok _ _ _ _ h3
  obtain ⟨g, ⟨w, hlen, hg⟩, he⟩ := (parse_sim _).1 _ _ _ h2
  intro r hr
  have htab' : t.vector = tab := htab
  refine ⟨g r, ?_, ?_⟩
  · unfold eval_input
    dsimp only
    rw [h1]
    dsimp only
    rw [he r]
    dsimp only
    rw [take_of_expect _ _ _ h3']
    dsimp only
    rw [if_pos hf]
  · have hr' : r < 2 ^ w := by rw [← hlen, htab']; exact hr
    have := hg r
    rw [Nat.mod_eq_of_lt hr', htab'] at this
    exact this

/-- C1 at the input `A + B`: row 2 (A = 0, B = 1) holds the value 1. -/
theorem parse_table_is_expression_value_witness :
    outcome (parse ParseState.fresh (FILE.open (bytes "A + B"))) = .ok ([65, 66], [0, 1, 1, 1]) ∧
    ∃ v, eval_input (row_env 2) ParseState.fresh (FILE.open (bytes "A + B")) = .ok v ∧
      [0, 1, 1, 1][2]? = some v.toNat :=
  ⟨by decide!,
    parse_table_is_expression_value ParseState.fresh (bytes "A + B") [65, 66] [0, 1, 1, 1]
      (by decide!) 2 (by decide)⟩


/-! ## C2: `binary_op` row by row -/

theorem apply_op_bool (op : Nat) (hop : op = TOK_AND ∨ op = TOK_OR ∨ op = TOK_XOR)
    (x y : Nat) (hx : x = 0 ∨ x = 1) (hy : y = 0 ∨ y = 1) :
    apply_op op x y = (bool_op op (decide (x = 1)) (decide (y = 1))).toNat := by
  rcases hop with rfl | rfl | rfl <;> rcases hx with rfl | rfl <;> rcases hy with rfl | rfl <;>
    decide

theorem wide_len (a b : TruthTab) : (wide a b).len = max a.len b.len := by
  unfold wide
  by_cases h : a.len < b.len
  · rw [if_pos h]; omega
  · rw [if_neg h]; omega

theorem narrow_len_le (a b : TruthTab) : (narrow a b).len ≤ (wide a b).len := by
  unfold wide narrow
  by_cases h : a.len < b.len
  · rw [if_pos h, if_pos h]; omega
  · rw [if_neg h, if_neg h]; omega

theorem narrow_cases (a b : TruthTab) : narrow a b = a ∨ narrow a b = b := by
  unfold narrow
  by_cases h : a.len < b.len
  · rw [if_pos h]; exact Or.inl rfl
  · rw [if_neg h]; exact Or.inr rfl

theorem wide_cases (a b : TruthTab) : wide a b = a ∨ wide a b = b := by
  unfold wide
  by_cases h : a.len < b.len
  · rw [if_pos h]; exact Or.inr rfl
  · rw [if_neg h]; exact Or.inl rfl

theorem binary_op_row (op : Nat) (a b : TruthTab) (wa wb : Nat)
    (hop : op = TOK_AND ∨ op = TOK_OR ∨ op = TOK_XOR)
    (ha : a.len = 2 ^ wa) (hb : b.len = 2 ^ wb) (ha01 : a.binary) (hb01 : b.binary)
    (r : Nat) (hr : r < max a.len b.len) :
    (binary_op op a b).vector[r]? =
      some (bool_op op ((wide a b).bit r) ((narrow a b).bit (r % (narrow a b).len))).toNat := by
  have hN : ∃ w, (narrow a b).len = 2 ^ w := by
    rcases narrow_cases a b with h | h <;> rw [h]
    · exact ⟨wa, ha⟩
    · exact ⟨wb, hb⟩
  have hN01 : (narrow a b).binary := by
    rcases narrow_cases a b with h | h <;> rw [h] <;> assumption
  have hW01 : (wide a b).binary := by
    rcases wide_cases a b with h | h <;> rw [h] <;> assumption
  obtain ⟨w, hw⟩ := hN
  have hrW : r < (wide a b).vector.length := by
    have := wide_len a b
    unfold TruthTab.len at this hr
    omega
  have hpos : 0 < (narrow a b).len := by rw [hw]; positivity
  have hrN : r % (narrow a b).len < (narrow a b).vector.length := Nat.mod_lt _ hpos
  rw [binary_op_getElem?, List.getElem?_eq_getElem hrW]
  have hmask : r &&& ((narrow a b).len - 1) = r % (narrow a b).len := by
    rw [hw, Nat.and_pow_two_sub_one_eq_mod]
  rw [hmask, List.getD_eq_getElem?_getD, List.getElem?_eq_getElem hrN]
  simp only [Option.map_some', Option.getD_some, Option.some.injEq]
  rw [apply_op_bool op hop _ _ (hW01 _ (List.getElem_mem _)) (hN01 _ (List.getElem_mem _))]
  unfold TruthTab.bit
  rw [List.getElem?_eq_getElem hrW, List.getElem?_eq_getElem hrN]
  simp

/-- C2. For `op` one of AND, OR, XOR and tables `a`, `b` whose lengths are
powers of two and whose entries are 0 or 1, `binary_op op a b` has length
`max (len a) (len b)` and, with `W = wide a b` the longer operand (`a` on a
tie) and `N = narrow a b` the other, its entry at every row `r` is
`W[r] op N[r mod len N]`; for equal lengths this is `a[r] op b[r]`, and in
general the narrow table is repeated over every block of `len N` rows. -/
theorem binary_op_rows (op : Nat) (a b : TruthTab) (wa wb : Nat)
    (hop : op = TOK_AND ∨ op = TOK_OR ∨ op = TOK_XOR)
    (ha : a.len = 2 ^ wa) (hb : b.len = 2 ^ wb) (ha01 : a.binary) (hb01 : b.binary) :
    (binary_op op a b).len = max a.len b.len ∧
    (∀ r, r < max a.len b.len →
      (binary_op op a b).vector[r]? =
        some (bool_op op ((wide a b).bit r) ((narrow a b).bit (r % (narrow a b).len))).toNat) ∧
    (a.len = b.len → ∀ r, r < a.len →
      (binary_op op a b).vector[r]? = some (bool_op op (a.bit r) (b.bit r)).toNat) ∧
    (∀ k j, j < (narrow a b).len → k * (narrow a b).len + j < (wide a b).len →
      (binary_op op a b).vector[k * (narrow a b).len + j]? =
        some (bool_op op ((wide a b).bit (k * (narrow a b).len + j)) ((narrow a b).bit j)).toNat) := by
  refine ⟨binary_op_len op a b, binary_op_row op a b wa wb hop ha hb ha01 hb01, ?_, ?_⟩
  · intro heq r hr
    have h := binary_op_row op a b wa wb hop ha hb ha01 hb01 r (by omega)
    have hW : wide a b = a := by simp [wide, heq]
    have hN : narrow a b = b := by simp [narrow, heq]
    rw [hW, hN, Nat.mod_eq_of_lt (by omega)] at h
    exact h
  · intro k j hj hkj
    have h := binary_op_row op a b wa wb hop ha hb ha01 hb01 (k * (narrow a b).len + j)
      (by rw [← wide_len]; exact hkj)
    rw [Nat.mul_add_mod_of_lt hj] at h
    exact h

/-- C2 at `[0,1] AND [0,0,1,1]`: the result is `[0,0,0,1]`. -/
theorem binary_op_rows_witness :
    (binary_op TOK_AND { vector := [0, 1] } { vector := [0, 0, 1, 1] }).len = 4 ∧
    (binary_op TOK_AND { vector := [0, 1] } { vector := [0, 0, 1, 1] }).vector[3]? = some 1 := by
  have h := binary_op_rows TOK_AND { vector := [0, 1] } { vector := [0, 0, 1, 1] } 1 2
    (Or.inl rfl) (by decide) (by decide)
    (by simp [TruthTab.binary]) (by simp [TruthTab.binary])
  exact ⟨h.1, h.2.1 3 (by decide)⟩


/-! ## C8: De Morgan's law -/

theorem inverse_getElem? (t : TruthTab) (i : Nat) :
    (inverse t).vector[i]? = (t.vector[i]?).map (fun x => x ^^^ 1) := by
  simp [inverse, List.getElem?_map]

theorem de_morgan_entry (x y : Nat) (hx : x = 0 ∨ x = 1) (hy : y = 0 ∨ y = 1) :
    apply_op TOK_AND x y ^^^ 1 = apply_op TOK_OR (x ^^^ 1) (y ^^^ 1) := by
  rcases hx with rfl | rfl <;> rcases hy with rfl | rfl <;> decide

/-- C8. De Morgan's law: for tables `a` and `b` of the same length with entries
0 or 1 (whether or not the length is a power of two),
`inverse (binary_op AND a b)` is the same table as
`binary_op OR (inverse a) (inverse b)`. -/
theorem de_morgan (a b : TruthTab) (hlen : a.len = b.len)
    (ha01 : a.binary) (hb01 : b.binary) :
    inverse (binary_op TOK_AND a b) = binary_op TOK_OR (inverse a) (inverse b) := by
  have hW : wide a b = a := by simp [wide, hlen]
  have hN : narrow a b = b := by simp [narrow, hlen]
  have hW' : wide (inverse a) (inverse b) = inverse a := by simp [wide, inverse_len, hlen]
  have hN' : narrow (inverse a) (inverse b) = inverse b := by simp [narrow, inverse_len, hlen]
  have hvec : (inverse (binary_op TOK_AND a b)).vector =
      (binary_op TOK_OR (inverse a) (inverse b)).vector := by
    apply List.ext_getElem?
    intro i
    rw [inverse_getElem?, binary_op_getElem?, binary_op_getElem?, hW, hN, hW', hN',
      inverse_getElem?, inverse_len]
    by_cases hi : i < a.vector.length
    · have hb : 0 < b.len := by unfold TruthTab.len at hlen ⊢; omega
      have hj : i &&& (b.len - 1) < b.vector.length := by
        have := @Nat.and_le_right i (b.len - 1)
        unfold TruthTab.len at hb this ⊢
        omega
      rw [List.getElem?_eq_getElem hi, List.getD_eq_getElem?_getD, List.getD_eq_getElem?_getD,
        inverse_getElem?, List.getElem?_eq_getElem hj]
      simp only [Option.map_some', Option.getD_some, Option.some.injEq]
      exact de_morgan_entry _ _ (ha01 _ (List.getElem_mem _)) (hb01 _ (List.getElem_mem _))
    · rw [List.getElem?_eq_none (Nat.le_of_not_lt hi)]
      rfl
  calc inverse (binary_op TOK_AND a b)
      = { vector := (inverse (binary_op TOK_AND a b)).vector } := rfl
    _ = { vector := (binary_op TOK_OR (inverse a) (inverse b)).vector } := by rw [hvec]

/-- C8 at the tables `[0,0,1,1]` and `[0,1,0,1]`: both sides are `[1,1,1,0]`. -/
theorem de_morgan_witness :
    inverse (binary_op TOK_AND { vector := [0, 0, 1, 1] } { vector := [0, 1, 0, 1] }) =
      binary_op TOK_OR (inverse { vector := [0, 0, 1, 1] }) (inverse { vector := [0, 1, 0, 1] }) ∧
    inverse (binary_op TOK_AND { vector := [0, 0, 1, 1] } { vector := [0, 1, 0, 1] }) =
      { vector := [1, 1, 1, 0] } :=
  ⟨de_morgan { vector := [0, 0, 1, 1] } { vector := [0, 1, 0, 1] } (by decide)
      (by simp [TruthTab.binary]) (by simp [TruthTab.binary]),
    by decide⟩


/-! ## C9: identifiers in order of first occurrence -/

theorem indexOf_cons_lt (ch : Nat) (chs : List Nat) (a b : Nat) (ha : a ≠ ch) (hb : b ≠ ch)
    (h : chs.indexOf a < chs.indexOf b) :
    (ch :: chs).indexOf a < (ch :: chs).indexOf b := by
  rw [List.indexOf_cons_ne _ (Ne.symm ha), List.indexOf_cons_ne _ (Ne.symm hb)]
  omega

theorem get_id_calls_spec (chs : List Nat) :
    ∀ ps : ParseState, ps.idents.Nodup → (∀ c ∈ ps.idents, is_upper c) →
      (∀ c ∈ chs, is_upper c) →
      ∃ rets ps' ext, get_id_calls ps chs = .ok (rets, ps') ∧
        ps'.idents = ps.idents ++ ext ∧ ps'.idents.Nodup ∧
        (∀ c, c ∈ ext ↔ c ∈ chs ∧ c ∉ ps.idents) ∧
        ext.Pairwise (fun a b => chs.indexOf a < chs.indexOf b) ∧
        rets = chs.map (fun c => ps'.idents.indexOf c) := by
  induction chs with
  | nil =>
    intro ps hn _ _
    exact ⟨[], ps, [], rfl, by simp, hn, by simp, List.Pairwise.nil, rfl⟩
  | cons ch chs ih =>
    intro ps hn hup hu
    have hu' : ∀ c ∈ chs, is_upper c := fun c hc => hu c (List.mem_cons_of_mem _ hc)
    have huch : is_upper ch := hu ch (List.mem_cons_self _ _)
    by_cases hmem : ch ∈ ps.idents
    · obtain ⟨rets, ps', ext, hcalls, hids, hnd, hext, hpw, hrets⟩ := ih ps hn hup hu'
      refine ⟨ps.idents.indexOf ch :: rets, ps', ext, ?_, hids, hnd, ?_, ?_, ?_⟩
      · rw [get_id_calls, get_id_stored ps ch hmem]
        simp only [hcalls]
      · intro c
        rw [hext c]
        constructor
        · rintro ⟨h1, h2⟩
          exact ⟨List.mem_cons_of_mem _ h1, h2⟩
        · rintro ⟨h1, h2⟩
          rcases List.mem_cons.mp h1 with rfl | h1
          · exact absurd hmem h2
          · exact ⟨h1, h2⟩
      · refine hpw.imp_of_mem ?_
        intro a b ha hb hab
        have ha' : a ≠ ch := fun e => ((hext a).mp ha).2 (e ▸ hmem)
        have hb' : b ≠ ch := fun e => ((hext b).mp hb).2 (e ▸ hmem)
        exact indexOf_cons_lt ch chs a b ha' hb' hab
      · rw [List.map_cons, hrets, hids, List.indexOf_append_of_mem hmem]
    · have hroom : ps.ident_cnt < MAXIDENT := by
        have hnd : (ch :: ps.idents).Nodup := List.nodup_cons.mpr ⟨hmem, hn⟩
        have hall : ∀ c ∈ ch :: ps.idents, is_upper c := by
          intro c hc
          rcases List.mem_cons.mp hc with rfl | hc
          · exact huch
          · exact hup c hc
        have := upper_nodup_length _ hnd hall
        rw [List.length_cons, idents_length] at this
        omega
      obtain ⟨ps1, hget, hids1, -, -, -, -⟩ := get_id_new ps ch hmem hroom
      have hn1 : ps1.idents.Nodup := by
        rw [hids1]
        exact List.Nodup.append hn (List.nodup_singleton _) (by simpa using hmem)
      have hup1 : ∀ c ∈ ps1.idents, is_upper c := by
        intro c hc
        rw [hids1] at hc
        rcases List.mem_append.mp hc with hc | hc
        · exact hup c hc
        · rw [List.mem_singleton.mp hc]; exact huch
      obtain ⟨rets, ps', ext, hcalls, hids, hnd, hext, hpw, hrets⟩ := ih ps1 hn1 hup1 hu'
      have hids' : ps'.idents = ps.idents ++ (ch :: ext) := by
        rw [hids, hids1, List.append_assoc]; rfl
      have hne : ∀ a ∈ ext, a ≠ ch := by
        intro a ha e
        have := ((hext a).mp ha).2
        rw [hids1] at this
        exact this (by simp [e])
      refine ⟨ps.ident_cnt :: rets, ps', ch :: ext, ?_, hids', hnd, ?_, ?_, ?_⟩
      · rw [get_id_calls, hget]
        simp only [hcalls]
      · intro c
        constructor
        · intro hc
          rcases List.mem_cons.mp hc with rfl | hc
          · exact ⟨List.mem_cons_self _ _, hmem⟩
          · have := (hext c).mp hc
            rw [hids1] at this
            exact ⟨List.mem_cons_of_mem _ this.1, fun h => this.2 (List.mem_append_left _ h)⟩
        · rintro ⟨h1, h2⟩
          by_cases hc : c = ch
          · rw [hc]; exact List.mem_cons_self _ _
          · rcases List.mem_cons.mp h1 with h1 | h1
            · exact absurd h1 hc
            · refine List.mem_cons_of_mem _ ((hext c).mpr ⟨h1, ?_⟩)
              rw [hids1]
              simp [h2, hc]
      · refine List.Pairwise.cons ?_ ?_
        · intro b hb
          rw [List.indexOf_cons_self, List.indexOf_cons_ne _ (Ne.symm (hne b hb))]
          omega
        · refine hpw.imp_of_mem ?_
          intro a b ha hb hab
          exact indexOf_cons_lt ch chs a b (hne a ha) (hne b hb) hab
      · rw [List.map_cons, hrets, hids', List.indexOf_append_of_not_mem hmem,
          List.indexOf_cons_self, idents_length]
        rfl

theorem idents_nil_of_cnt (ps : ParseState) (h0 : ps.ident_cnt = 0) : ps.idents = [] := by
  simp [ParseState.idents, h0]

/-- C9. Starting from an empty identifier table, a sequence of `get_id` calls
on uppercase letters succeeds; afterwards `ident[0 .. ident_cnt)` holds exactly
the letters seen, pairwise different and in order of first occurrence, and each
call returned the position of its letter in that list.  After any such
sequence, one more call on a letter already stored returns its index and
leaves the state unchanged, and a call on a new letter returns the old
`ident_cnt` and appends the letter. -/
theorem get_id_first_occurrence (ps : ParseState) (chs : List Nat)
    (h0 : ps.ident_cnt = 0) (hu : ∀ c ∈ chs, is_upper c) :
    ∃ rets ps', get_id_calls ps chs = .ok (rets, ps') ∧
      ps'.idents.Nodup ∧ (∀ c, c ∈ ps'.idents ↔ c ∈ chs) ∧
      ps'.idents.Pairwise (fun a b => chs.indexOf a < chs.indexOf b) ∧
      rets = chs.map (fun c => ps'.idents.indexOf c) ∧
      ∀ ch, is_upper ch →
        (ch ∈ ps'.idents → get_id ps' ch = .ok (ps'.idents.indexOf ch, ps')) ∧
        (ch ∉ ps'.idents → ∃ ps1, get_id ps' ch = .ok (ps'.ident_cnt, ps1) ∧
          ps1.idents = ps'.idents ++ [ch] ∧ ps1.ident_cnt = ps'.ident_cnt + 1) := by
  have hnil := idents_nil_of_cnt ps h0
  obtain ⟨rets, ps', ext, hcalls, hids, hnd, hext, hpw, hrets⟩ :=
    get_id_calls_spec chs ps (by rw [hnil]; exact List.nodup_nil) (by rw [hnil]; simp) hu
  rw [hnil, List.nil_append] at hids
  have hmem : ∀ c, c ∈ ps'.idents ↔ c ∈ chs := by
    intro c
    rw [hids, hext c, hnil]
    simp
  refine ⟨rets, ps', hcalls, hnd, hmem, by rw [hids]; exact hpw, hrets, ?_⟩
  intro ch hch
  refine ⟨get_id_stored ps' ch, ?_⟩
  intro hnew
  have hroom : ps'.ident_cnt < MAXIDENT := by
    have hnd' : (ch :: ps'.idents).Nodup := List.nodup_cons.mpr ⟨hnew, hnd⟩
    have hall : ∀ c ∈ ch :: ps'.idents, is_upper c := by
      intro c hc
      rcases List.mem_cons.mp hc with rfl | hc
      · exact hch
      · exact hu c ((hmem c).mp hc)
    have := upper_nodup_length _ hnd' hall
    rw [List.length_cons, idents_length] at this
    omega
  obtain ⟨ps1, hget, hids1, hcnt, -, -, -⟩ := get_id_new ps' ch hnew hroom
  exact ⟨ps1, hget, hids1, hcnt⟩

/-- C9 on the calls `B`, `A`, `B`, `C`. -/
theorem get_id_first_occurrence_witness :
    ParseState.fresh.ident_cnt = 0 ∧ (∀ c ∈ [66, 65, 66, 67], is_upper c) ∧
    ∃ rets ps', get_id_calls ParseState.fresh [66, 65, 66, 67] = .ok (rets, ps') ∧
      ps'.idents.Nodup ∧ (∀ c, c ∈ ps'.idents ↔ c ∈ [66, 65, 66, 67]) ∧
      ps'.idents.Pairwise
        (fun a b => [66, 65, 66, 67].indexOf a < [66, 65, 66, 67].indexOf b) ∧
      rets = [66, 65, 66, 67].map (fun c => ps'.idents.indexOf c) ∧
      ∀ ch, is_upper ch →
        (ch ∈ ps'.idents → get_id ps' ch = .ok (ps'.idents.indexOf ch, ps')) ∧
        (ch ∉ ps'.idents → ∃ ps1, get_id ps' ch = .ok (ps'.ident_cnt, ps1) ∧
          ps1.idents = ps'.idents ++ [ch] ∧ ps1.ident_cnt = ps'.ident_cnt + 1) :=
  ⟨rfl, by simp [is_upper],
    get_id_first_occurrence ParseState.fresh [66, 65, 66, 67] rfl (by simp [is_upper])⟩


/-! ## C3: the result table has `2 ^ ident_cnt` rows -/

theorem pow_max (a b : Nat) : max (2 ^ a) (2 ^ b) = 2 ^ max a b := by
  rcases Nat.le_total a b with h | h
  · rw [Nat.max_eq_right h, Nat.max_eq_right (Nat.pow_le_pow_right (by decide) h)]
  · rw [Nat.max_eq_left h, Nat.max_eq_left (Nat.pow_le_pow_right (by decide) h)]

theorem binary_op_len_pow (op : Nat) (a b : TruthTab) (wa wb : Nat)
    (ha : a.len = 2 ^ wa) (hb : b.len = 2 ^ wb) :
    (binary_op op a b).len = 2 ^ max wa wb := by
  rw [binary_op_len, ha, hb, pow_max]

theorem parse_used :
    ∀ n,
      (∀ ps t ps', parse_expr n ps = .ok (t, ps') →
        ∀ m, Used ps m → ∃ w, t.len = 2 ^ w ∧ Used ps' (max m w)) ∧
      (∀ lhs ps t ps', parse_expr_loop n lhs ps = .ok (t, ps') →
        ∀ m w0, lhs.len = 2 ^ w0 → w0 ≤ m → Used ps m →
          ∃ w, t.len = 2 ^ w ∧ w0 ≤ w ∧ Used ps' (max m w)) ∧
      (∀ ps t ps', parse_term n ps = .ok (t, ps') →
        ∀ m, Used ps m → ∃ w, t.len = 2 ^ w ∧ Used ps' (max m w)) ∧
      (∀ lhs ps t ps', parse_term_loop n lhs ps = .ok (t, ps') →
        ∀ m w0, lhs.len = 2 ^ w0 → w0 ≤ m → Used ps m →
          ∃ w, t.len = 2 ^ w ∧ w0 ≤ w ∧ Used ps' (max m w)) ∧
      (∀ ps t ps', parse_factor n ps = .ok (t, ps') →
        ∀ m, Used ps m → ∃ w, t.len = 2 ^ w ∧ Used ps' (max m w)) := by
  refine parse_induction
    (fun _ ps t ps' => ∀ m, Used ps m → ∃ w, t.len = 2 ^ w ∧ Used ps' (max m w))
    (fun _ ps t ps' => ∀ m, Used ps m → ∃ w, t.len = 2 ^ w ∧ Used ps' (max m w))
    (fun _ ps t ps' => ∀ m, Used ps m → ∃ w, t.len = 2 ^ w ∧ Used ps' (max m w))
    (fun _ ps t ps' => ∀ m, Used ps m → ∃ w, t.len = 2 ^ w ∧ Used ps' (max m w))
    (fun _ lhs ps t ps' => ∀ m w0, lhs.len = 2 ^ w0 → w0 ≤ m → Used ps m →
      ∃ w, t.len = 2 ^ w ∧ w0 ≤ w ∧ Used ps' (max m w))
    (fun _ lhs ps t ps' => ∀ m w0, lhs.len = 2 ^ w0 → w0 ≤ m → Used ps m →
      ∃ w, t.len = 2 ^ w ∧ w0 ≤ w ∧ Used ps' (max m w))
    (fun _ lhs ps t ps' => ∀ m w0, lhs.len = 2 ^ w0 → w0 ≤ m → Used ps m →
      ∃ w, t.len = 2 ^ w ∧ w0 ≤ w ∧ Used ps' (max m w))
    ?_ ?_ ?_ ?_ ?_ ?_ ?_ ?_ ?_ ?_ ?_ ?_ ?_ ?_
  · -- expr
    intro n ps lhs ps1 t ps2 h1 h2 m hu
    obtain ⟨w1, hw1, hu1⟩ := h1 m hu
    obtain ⟨w, hw, hle, hu2⟩ := h2 (max m w1) w1 hw1 (Nat.le_max_right _ _) hu1
    refine ⟨w, hw, ?_⟩
    have : max (max m w1) w = max m w := by omega
    rw [← this]; exact hu2
  · -- no OR
    intro n lhs ps _ m w0 hl hle hu
    refine ⟨w0, hl, Nat.le_refl _, ?_⟩
    rw [Nat.max_eq_left hle]; exact hu
  · -- OR
    intro n lhs ps ps1 rhs ps2 t ps3 _ he h1 h2 m w0 hl hle hu
    obtain ⟨wr, hwr, hu2⟩ := h1 m (expect_used _ _ _ _ hu (by decide) he)
    obtain ⟨w, hw, hle', hu3⟩ := h2 (max m wr) (max w0 wr)
      (binary_op_len_pow _ _ _ _ _ hl hwr) (by omega) hu2
    refine ⟨w, hw, by omega, ?_⟩
    have : max (max m wr) w = max m w := by omega
    rw [← this]; exact hu3
  · -- term
    intro n ps lhs ps1 t ps2 h1 h2 m hu
    obtain ⟨w1, hw1, hu1⟩ := h1 m hu
    obtain ⟨w, hw, hle, hu2⟩ := h2 (max m w1) w1 hw1 (Nat.le_max_right _ _) hu1
    refine ⟨w, hw, ?_⟩
    have : max (max m w1) w = max m w := by omega
    rw [← this]; exact hu2
  · -- written AND
    intro n lhs ps ps1 _ he m w0 hl hle hu
    refine ⟨w0, hl, Nat.le_refl _, ?_⟩
    rw [Nat.max_eq_left hle]
    exact expect_used _ _ _ _ hu (by decide) he
  · -- XOR
    intro n lhs ps ps1 rhs ps2 _ _ he h1 m w0 hl hle hu
    obtain ⟨wr, hwr, hu2⟩ := h1 m (expect_used _ _ _ _ hu (by decide) he)
    refine ⟨max w0 wr, binary_op_len_pow _ _ _ _ _ hl hwr, Nat.le_max_left _ _, ?_⟩
    have : max m (max w0 wr) = max m wr := by omega
    rw [this]; exact hu2
  · -- no operator
    intro n lhs ps _ _ m w0 hl hle hu
    refine ⟨w0, hl, Nat.le_refl _, ?_⟩
    rw [Nat.max_eq_left hle]; exact hu
  · -- end of the term
    intro n lhs ps lhs1 ps1 h1 _ m w0 hl hle hu
    exact h1 m w0 hl hle hu
  · -- one more factor
    intro n lhs ps lhs1 ps1 rhs ps2 t ps3 h1 _ h2 h3 m w0 hl hle hu
    obtain ⟨w1, hw1, hle1, hu1⟩ := h1 m w0 hl hle hu
    obtain ⟨w2, hw2, hu2⟩ := h2 (max m w1) hu1
    obtain ⟨w, hw, hle3, hu3⟩ := h3 (max (max m w1) w2) (max w1 w2)
      (binary_op_len_pow _ _ _ _ _ hw1 hw2) (by omega) hu2
    refine ⟨w, hw, by omega, ?_⟩
    have : max (max (max m w1) w2) w = max m w := by omega
    rw [← this]; exact hu3
  · -- variable
    intro n ps t ps1 hid hsv he m hu
    refine ⟨ps.token + 1, (Tab_single_var _ _ hsv).2, ?_⟩
    obtain ⟨-, hn⟩ := parse_expect_ok _ _ _ he
    have hid' : ps.token < MAXIDENT := by simpa [isident] using hid
    obtain ⟨hle, ⟨hc, ht⟩ | ⟨hc, ht⟩⟩ := hu
    · have := ht hid'
      rw [Nat.max_eq_left (by omega)]
      exact next_token_used ps ps1 m hc (by omega) hn
    · rw [ht, Nat.max_eq_right (by omega)]
      exact next_token_used ps ps1 (m + 1) hc (by omega) hn
  · -- 0
    intro n ps t ps1 _ _ hc he m hu
    exact ⟨0, (Tab_constant false t hc).2, by
      rw [Nat.max_eq_left (Nat.zero_le _)]; exact expect_used _ _ _ _ hu (by decide) he⟩
  · -- 1
    intro n ps t ps1 _ _ _ hc he m hu
    exact ⟨0, (Tab_constant true t hc).2, by
      rw [Nat.max_eq_left (Nat.zero_le _)]; exact expect_used _ _ _ _ hu (by decide) he⟩
  · -- parenthesis
    intro n ps ps1 t ps2 ps3 _ _ _ he1 h1 he2 m hu
    obtain ⟨w, hw, hu2⟩ := h1 m (expect_used _ _ _ _ hu (by decide) he1)
    exact ⟨w, hw, expect_used _ _ _ _ hu2 (by decide) he2⟩
  · -- factor
    intro n ps c ps1 t ps2 hn h1 m hu
    have hu1 : Used ps1 m := by
      have key : ∀ k q c c' q', Used q m → parse_factor_nots k q c = .ok (c', q') →
          Used q' m := by
        intro k
        induction k with
        | zero => intro q c c' q' _ h; simp [parse_factor_nots] at h
        | succ k ih =>
          intro q c c' q' hq h
          rw [parse_factor_nots] at h
          by_cases hnot : q.token = TOK_NOT
          · rw [if_pos hnot] at h
            cases h1 : parse_expect q TOK_NOT with
            | error e => simp [h1] at h
            | ok q1 =>
              simp only [h1] at h
              exact ih q1 _ c' q' (expect_used _ _ _ _ hq (by decide) h1) h
          · rw [if_neg hnot] at h
            simp only [Except.ok.injEq, Prod.mk.injEq] at h
            rw [← h.2]; exact hq
      exact key _ _ _ _ _ hu hn
    obtain ⟨w, hw, hu2⟩ := h1 m hu1
    refine ⟨w, ?_, hu2⟩
    by_cases hodd : c &&& 1 ≠ 0
    · rw [if_pos hodd, inverse_len]; exact hw
    · rw [if_neg hodd]; exact hw

/-- The distinct letters of the text read so far, when all of it is read. -/
theorem seen_all_length (s : List Nat) (ps : ParseState) (h : Seen s ps)
    (he : ps.inputf.eof = true) : ps.idents.length = (distinct_letters s).length := by
  obtain ⟨pre, hpre, hnd, hmem, heof⟩ := h
  rw [heof he, List.append_nil] at hpre
  subst hpre
  have hperm : ps.idents.Perm (distinct_letters s) := by
    refine (List.perm_ext_iff_of_nodup hnd
      (by unfold distinct_letters; exact List.nodup_dedup _)).mpr ?_
    intro c
    rw [hmem c]
    simp [distinct_letters]
  exact hperm.length_eq

/-- The state a successful `parse` returns. -/
theorem parse_ok_state (ps : ParseState) (s : List Nat) (ps' : ParseState)
    (h : parse ps (FILE.open s) = .ok ps') :
    ps'.result.len = 2 ^ ps'.ident_cnt ∧ ps'.ident_cnt = (distinct_letters s).length := by
  obtain ⟨ps1, t, ps2, h1, h2, h3, hf⟩ := parse_ok_inv _ _ _ h
  have hs1 : Seen s ps1 := next_token_seen s _ _ (seen_start ps s) h1
  have hu1 : Used ps1 0 := next_token_used _ _ 0 rfl (Nat.zero_le _) h1
  have hs2 : Seen s ps2 :=
    (parse_preserves (Seen s) (next_token_seen s) _).1 _ _ _ h2 hs1
  obtain ⟨w, hw, hu2⟩ := (parse_used _).1 _ _ _ h2 0 hu1
  rw [Nat.max_eq_right (Nat.zero_le _)] at hu2
  obtain ⟨htok, hn⟩ := parse_expect_ok _ _ _ h3
  have hs3 : Seen s ps' := next_token_seen s _ _ (seen_result s ps2 t hs2) hn
  obtain ⟨-, hps'⟩ := next_token_at_eof s _ _ (seen_result s ps2 t hs2) hn hf
  have hcnt : ps2.ident_cnt = w := by
    obtain ⟨hle, ⟨hc, -⟩ | ⟨hc, ht⟩⟩ := hu2
    · exact hc
    · have : ps2.token = MAXIDENT := htok
      omega
  have hcnt' : ps'.ident_cnt = w := by rw [hps']; exact hcnt
  have hres : ps'.result = t := by rw [hps']
  refine ⟨by rw [hres, hcnt']; exact hw, ?_⟩
  rw [← idents_length]
  exact seen_all_length s ps' hs3 hf

/-- C3. For every input that `parse` accepts, the result table has exactly
`2 ^ k` rows, where `k` is the number of distinct variable letters of the
input; `k` is the length of the identifier list, which is the identifier count
`ident_cnt` of the state `parse` returns. -/
theorem table_rows_pow_idents (ps : ParseState) (s : List Nat) (ids tab : List Nat)
    (h : outcome (parse ps (FILE.open s)) = .ok (ids, tab)) :
    tab.length = 2 ^ (distinct_letters s).length ∧
    ids.length = (distinct_letters s).length ∧
    ∃ ps', parse ps (FILE.open s) = .ok ps' ∧ ps'.ident_cnt = (distinct_letters s).length ∧
      ps'.result.len = 2 ^ ps'.ident_cnt := by
  obtain ⟨ps', hp, hids, htab⟩ := outcome_ok_inv _ _ _ h
  obtain ⟨hlen, hcnt⟩ := parse_ok_state ps s ps' hp
  refine ⟨?_, ?_, ps', hp, hcnt, hlen⟩
  · rw [← htab, ← hcnt]; exact hlen
  · rw [← hids, idents_length]; exact hcnt

/-- C3 at the input `B A + B`: two distinct letters, four rows. -/
theorem table_rows_pow_idents_witness :
    outcome (parse ParseState.fresh (FILE.open (bytes "B A + B"))) =
      .ok ([66, 65], [0, 1, 0, 1]) ∧
    [0, 1, 0, 1].length = 2 ^ (distinct_letters (bytes "B A + B")).length ∧
    [66, 65].length = (distinct_letters (bytes "B A + B")).length :=
  ⟨by decide!,
    (table_rows_pow_idents ParseState.fresh (bytes "B A + B") [66, 65] [0, 1, 0, 1]
      (by decide!)).1,
    (table_rows_pow_idents ParseState.fresh (bytes "B A + B") [66, 65] [0, 1, 0, 1]
      (by decide!)).2.1⟩


/-! ## C10: NOT prefixes of a factor -/

theorem Tab_binary (t : TruthTab) (g : Nat → Bool) (h : Tab t g) : t.binary := by
  obtain ⟨w, hl, hg⟩ := h
  intro x hx
  obtain ⟨i, hi, rfl⟩ := List.getElem_of_mem hx
  have h1 := hg i
  rw [Nat.mod_eq_of_lt (by rw [← hl]; exact hi), List.getElem?_eq_getElem hi] at h1
  simp only [Option.some.injEq] at h1
  rw [h1]
  cases g i
  · exact Or.inl rfl
  · exact Or.inr rfl

theorem inverse_flip (t : TruthTab) (h : t.binary) :
    (inverse t).vector = t.vector.map (fun x => 1 - x) := by
  unfold inverse
  apply List.map_congr_left
  intro x hx
  rcases h x hx with rfl | rfl <;> rfl

theorem not_char_token (ch : Nat) (h : is_not_char ch) :
    ¬ is_space ch ∧ ¬ is_upper ch ∧ char_token ch = TOK_NOT := by
  unfold is_not_char at h
  rcases h with rfl | rfl <;> refine ⟨by decide, by decide, by decide⟩

theorem not_count_space (c : Nat) (cs : List Nat) (h : is_space c) :
    not_count (c :: cs) = not_count cs := by
  unfold not_count
  rw [List.countP_cons_of_neg]
  simp only [decide_eq_true_eq]
  unfold is_space at h
  unfold is_not_char
  omega

theorem not_count_not (c : Nat) (cs : List Nat) (h : is_not_char c) :
    not_count (c :: cs) = not_count cs + 1 := by
  unfold not_count
  rw [List.countP_cons_of_pos]
  simpa using h

/-- The scanner does not look at the bytes recorded in the state it is given,
only at the bytes it is called on. -/
theorem next_token_from_buf (p : ParseState) (b : List Nat) (l : List Nat) :
    next_token_from { p with inputf := { buf := b, eof := p.inputf.eof } } l =
      next_token_from p l := by
  induction l with
  | nil => rfl
  | cons ch rest ih =>
    by_cases hs : is_space ch
    · rw [next_token_from_space _ ch rest hs, next_token_from_space p ch rest hs]
      exact ih
    · by_cases hu : is_upper ch
      · rw [next_token_from_upper _ ch rest hu, next_token_from_upper p ch rest hu]
      · rw [next_token_from_other _ ch rest hs hu, next_token_from_other p ch rest hs hu]

/-- The loop over the NOT tokens: with the lookahead a NOT token, and NOT
characters and whitespace `cs` before the text `rest`, it counts the lookahead
and every NOT character of `cs` and ends on the first token of `rest`. -/
theorem parse_factor_nots_run (ps ps1 : ParseState) (rest : List Nat)
    (h1 : scan_first ps rest = .ok ps1) (hprim : ps1.token ≠ TOK_NOT) :
    ∀ cs : List Nat, (∀ c ∈ cs, is_not_char c ∨ is_space c) →
      ∀ c0 k, not_count cs + 2 ≤ k →
      parse_factor_nots k
        { ps with inputf := { buf := cs ++ rest, eof := false }, token := TOK_NOT } c0 =
        .ok (c0 + not_count cs + 1, ps1) := by
  intro cs
  induction cs with
  | nil =>
    intro _ c0 k hk
    obtain ⟨k', rfl⟩ : ∃ k', k = k' + 1 := ⟨k - 1, by omega⟩
    obtain ⟨k'', rfl⟩ : ∃ k'', k' = k'' + 1 := ⟨k' - 1, by omega⟩
    rw [parse_factor_nots, if_pos rfl]
    have hn : parse_expect
        { ps with inputf := { buf := [] ++ rest, eof := false }, token := TOK_NOT } TOK_NOT =
        .ok ps1 := by
      unfold parse_expect
      rw [if_neg (by simp)]
      unfold scan_first next_token FILE.open at h1
      unfold next_token
      rw [← h1]
      exact next_token_from_token { ps with inputf := { buf := rest, eof := false } } TOK_NOT rest
    rw [hn]
    dsimp only
    rw [parse_factor_nots, if_neg hprim]
    rfl
  | cons c cs ih =>
    intro hcs c0 k hk
    have hcs' : ∀ x ∈ cs, is_not_char x ∨ is_space x :=
      fun x hx => hcs x (List.mem_cons_of_mem _ hx)
    rcases hcs c (List.mem_cons_self _ _) with hc | hc
    · obtain ⟨k', rfl⟩ : ∃ k', k = k' + 1 := ⟨k - 1, by omega⟩
      obtain ⟨hs, hu, htok⟩ := not_char_token c hc
      rw [not_count_not c cs hc] at hk ⊢
      rw [parse_factor_nots, if_pos rfl]
      have hn : parse_expect
          { ps with inputf := { buf := (c :: cs) ++ rest, eof := false }, token := TOK_NOT }
            TOK_NOT =
          .ok { ps with inputf := { buf := cs ++ rest, eof := false }, token := TOK_NOT } := by
        unfold parse_expect
        rw [if_neg (by simp)]
        unfold next_token
        show next_token_from _ (c :: (cs ++ rest)) = _
        rw [next_token_from_other _ c _ hs hu, htok]
      rw [hn]
      dsimp only
      rw [ih hcs' (c0 + 1) k' (by omega)]
      congr 2
      omega
    · obtain ⟨k', rfl⟩ : ∃ k', k = k' + 1 := ⟨k - 1, by omega⟩
      rw [not_count_space c cs hc] at hk ⊢
      have hstep := ih hcs' c0 (k' + 1) hk
      rw [parse_factor_nots, if_pos rfl] at hstep ⊢
      have hn : parse_expect
          { ps with inputf := { buf := (c :: cs) ++ rest, eof := false }, token := TOK_NOT }
            TOK_NOT =
          parse_expect
            { ps with inputf := { buf := cs ++ rest, eof := false }, token := TOK_NOT }
            TOK_NOT := by
        unfold parse_expect
        rw [if_neg (by simp), if_neg (by simp)]
        unfold next_token
        show next_token_from _ (c :: (cs ++ rest)) = next_token_from _ (cs ++ rest)
        rw [next_token_from_space _ c _ hc]
        exact (next_token_from_buf
          { ps with inputf := { buf := cs ++ rest, eof := false }, token := TOK_NOT }
          (c :: cs ++ rest) (cs ++ rest))
      rw [hn]
      exact hstep

/-- The first token of a text that starts with NOT characters and whitespace:
the first token of what follows them when no NOT character is among them,
else a NOT token, with what stands after the first NOT character still to be
read. -/
theorem scan_first_nots (ps : ParseState) (rest : List Nat) :
    ∀ nots : List Nat, (∀ c ∈ nots, is_not_char c ∨ is_space c) →
      (not_count nots = 0 ∧ scan_first ps (nots ++ rest) = scan_first ps rest) ∨
      (∃ cs, (∀ c ∈ cs, is_not_char c ∨ is_space c) ∧ not_count nots = not_count cs + 1 ∧
        scan_first ps (nots ++ rest) =
          .ok { ps with inputf := { buf := cs ++ rest, eof := false }, token := TOK_NOT }) := by
  intro nots
  induction nots with
  | nil => intro _; exact Or.inl ⟨rfl, rfl⟩
  | cons c cs ih =>
    intro h
    have hcs : ∀ x ∈ cs, is_not_char x ∨ is_space x :=
      fun x hx => h x (List.mem_cons_of_mem _ hx)
    rcases h c (List.mem_cons_self _ _) with hc | hc
    · refine Or.inr ⟨cs, hcs, not_count_not c cs hc, ?_⟩
      obtain ⟨hs, hu, htok⟩ := not_char_token c hc
      unfold scan_first next_token FILE.open
      show next_token_from _ (c :: (cs ++ rest)) = _
      rw [next_token_from_other _ c _ hs hu, htok]
    · have hskip : scan_first ps (c :: cs ++ rest) = scan_first ps (cs ++ rest) := by
        unfold scan_first next_token FILE.open
        show next_token_from _ (c :: (cs ++ rest)) = next_token_from _ (cs ++ rest)
        rw [next_token_from_space _ c _ hc]
        exact next_token_from_buf { ps with inputf := { buf := cs ++ rest, eof := false } }
          (c :: cs ++ rest) (cs ++ rest)
      rw [not_count_space c cs hc, hskip]
      exact ih hcs

/-- C4. The text `A ^ B ^ C` has the token sequence `A XOR B XOR C`, which the
grammar derives as an expression (a term of three factors joined by XOR), and
`parse` stops on it with the syntax error: after the factor that follows an
XOR the loop of `parse_term` returns on a second XOR, and `parse` then expects
the end of the input. -/
theorem xor_chain_rejected :
    tokens (bytes "A ^ B ^ C") = [0, TOK_XOR, 1, TOK_XOR, 2] ∧
    Derives .expression [0, TOK_XOR, 1, TOK_XOR, 2] ∧
    run (bytes "A ^ B ^ C") = .error .syntaxErr := by
  refine ⟨by decide!, ?_, by decide!⟩
  have hA : Derives .factor [0] := .of_primary _ (.variable 0 (by decide))
  have hB : Derives .factor [1] := .of_primary _ (.variable 1 (by decide))
  have hC : Derives .factor [2] := .of_primary _ (.variable 2 (by decide))
  exact .of_term _ (.xor [0, TOK_XOR, 1] [2] (.xor [0] [1] (.of_factor _ hA) hB) hC)

/-- C5. The text `A$` holds the character `$`, which is neither whitespace nor
a character of any token, and `parse` accepts it with the table of `A`: the
`$` is taken for the sentinel, and the read that follows meets the end of the
stream, so the assertion on `feof` holds. -/
theorem stray_character_accepted :
    36 ∈ bytes "A$" ∧ ¬ is_space 36 ∧ ¬ is_upper 36 ∧ ¬ is_symbol 36 ∧
    run (bytes "A$") = .ok ([65], [0, 1]) := by
  refine ⟨by decide, by decide, by decide, by decide, by decide!⟩

/-- C6. On the text `A $ B` `parse` stops at the assertion on `feof`, not with
the syntax error of `parse_expect`: the `$` is taken for the sentinel that
`parse_expect` expects, and the token read after it is `B`. -/
theorem stray_character_assertion :
    run (bytes "A $ B") = .error .assertFeof ∧
    run (bytes "A $ B") ≠ .error .syntaxErr := by
  refine ⟨by decide!, by decide!⟩

/-- C7. The index 25 is an identifier (`isident`), `get_id` gives it to the
26th distinct letter, and `single_var 25` fails the assertion of
`new_truth_tab`, since its length `1 << 26` is not below `MAX_TRUTHTAB_LEN`;
so does `parse` on a text with 26 distinct letters. -/
theorem single_var_25_fails :
    isident 25 = true ∧
    single_var 25 = .error .assertLen ∧
    tokens (bytes "ABCDEFGHIJKLMNOPQRSTUVWXYZ") = List.range 26 ∧
    run (bytes "ABCDEFGHIJKLMNOPQRSTUVWXYZ") = .error .assertLen := by
  refine ⟨by decide, by decide, by decide!, by decide!⟩

/-- For the indices up to 24 `single_var` returns the table of the variable:
`2 ^ (i + 1)` rows, row `r` holding bit `i` of `r`. -/
theorem single_var_rows (i : Nat) (h : i + 1 < MAXIDENT) :
    ∃ t, single_var i = .ok t ∧ t.len = 2 ^ (i + 1) ∧
      ∀ r, r < 2 ^ (i + 1) → t.vector[r]? = some (r.testBit i).toNat := by
  refine ⟨_, single_var_eq i h, ?_, ?_⟩
  · have h2 : 2 ^ (i + 1) = 2 ^ i + 2 ^ i := by rw [Nat.pow_succ]; omega
    simp [TruthTab.len, h2]
  · intro r hr
    exact single_var_entry i r hr


/-! ## Text after an unrecognised character -/

/-- A text with an unrecognised character followed by more than whitespace
never gets a table; when the expression before that character is complete,
`parse` stops at the assertion on `feof` and not with the syntax error. -/
theorem stray_text_fails (ps : ParseState) (pre post : List Nat) (c : Nat)
    (hc : ¬ recognised c) (hpost : ∃ x ∈ post, ¬ is_space x) :
    (∀ ps', parse ps (FILE.open (pre ++ c :: post)) ≠ .ok ps') ∧
    (∀ ps1 t ps2,
      next_token { ps with ident_cnt := 0, inputf := FILE.open (pre ++ c :: post) } = .ok ps1 →
      parse_expr (parse_fuel (pre ++ c :: post).length) ps1 = .ok (t, ps2) →
      ps2.token = MAXIDENT →
      parse ps (FILE.open (pre ++ c :: post)) = .error .assertFeof) := by
  obtain ⟨x, hx, hxs⟩ := hpost
  have hno : ∀ ps', parse ps (FILE.open (pre ++ c :: post)) ≠ .ok ps' := by
    intro ps' h
    rcases parse_ok_text ps _ ps' h with hall | ⟨good, c', ws, hs, hgood, hbad, hws⟩
    · exact hc (hall c (by simp))
    · rcases List.append_eq_append_iff.mp hs with ⟨a, h1, h2⟩ | ⟨a, h1, h2⟩
      · -- `good = pre ++ a`
        cases a with
        | nil =>
          simp only [List.nil_append, List.cons.injEq] at h2
          exact hxs (hws x (by rw [← h2.2]; exact hx))
        | cons a0 a =>
          simp only [List.cons_append, List.cons.injEq] at h2
          exact hc (hgood c (by rw [h1, h2.1]; simp))
      · -- `pre = good ++ a`
        cases a with
        | nil =>
          simp only [List.nil_append, List.cons.injEq] at h2
          exact hxs (hws x (by rw [h2.2]; exact hx))
        | cons a0 a =>
          simp only [List.cons_append, List.cons.injEq] at h2
          exact hxs (hws x (by rw [h2.2]; simp [hx]))
  refine ⟨hno, ?_⟩
  intro ps1 t ps2 h1 h2 htok
  have hs1 : Seen (pre ++ c :: post) ps1 := next_token_seen _ _ _ (seen_start ps _) h1
  have hs2 : Seen (pre ++ c :: post) ps2 :=
    (parse_preserves (Seen _) (next_token_seen _) _).1 _ _ _ h2 hs1
  obtain ⟨ps3, h3⟩ := next_token_succeeds _ _ (seen_result _ ps2 t hs2)
  have hexp : parse_expect { ps2 with result := t } MAXIDENT = .ok ps3 := by
    unfold parse_expect
    rw [if_neg (by simpa using htok)]
    exact h3
  have hparse : parse ps (FILE.open (pre ++ c :: post)) =
      if feof ps3.inputf then .ok ps3 else .error .assertFeof := by
    unfold parse
    dsimp only
    rw [h1]
    dsimp only
    have : (FILE.open (pre ++ c :: post)).buf.length = (pre ++ c :: post).length := rfl
    rw [this, h2]
    dsimp only
    rw [hexp]
  by_cases hf : feof ps3.inputf = true
  · rw [if_pos hf] at hparse
    exact absurd hparse (hno ps3)
  · rw [if_neg hf] at hparse
    exact hparse

/-- The lemma at the text `A $ B`. -/
theorem stray_text_fails_example :
    ¬ recognised 36 ∧ (∃ x ∈ bytes " B", ¬ is_space x) ∧
    ∀ ps', parse ParseState.fresh (FILE.open (bytes "A " ++ 36 :: bytes " B")) ≠ .ok ps' :=
  ⟨by decide, ⟨66, by decide, by decide⟩,
    (stray_text_fails ParseState.fresh (bytes "A ") (bytes " B") 36 (by decide)
      ⟨66, by decide, by decide⟩).1⟩


/-! ## C14, C19, C12: constants, operand order, the table invariant -/

/-- C14. The call `constant(0)` returns a table of length 1 whose single entry
is 0, and `constant(1)` one of length 1 whose single entry is 1. -/
theorem constant_tables :
    constant 0 = .ok { vector := [0] } ∧ constant 1 = .ok { vector := [1] } ∧
    (TruthTab.len { vector := [0] } = 1) ∧ (TruthTab.len { vector := [1] } = 1) :=
  ⟨constant_eq 0, constant_eq 1, rfl, rfl⟩

theorem bool_op_comm (op : Nat) (x y : Bool) : bool_op op x y = bool_op op y x := by
  unfold bool_op
  cases x <;> cases y <;> rfl

theorem len_eq_of_not_lt (a b : TruthTab) (h1 : ¬ a.len < b.len) (h2 : ¬ b.len < a.len) :
    a.len = b.len := by omega

/-- C19. For `op` one of AND, OR, XOR and tables `a`, `b` whose lengths are
powers of two and whose entries are 0 or 1, of equal or of different lengths,
`binary_op op a b` and `binary_op op b a` are the same table: the same length
and the same entries. -/
theorem binary_op_comm (op : Nat) (a b : TruthTab) (wa wb : Nat)
    (hop : op = TOK_AND ∨ op = TOK_OR ∨ op = TOK_XOR)
    (ha : a.len = 2 ^ wa) (hb : b.len = 2 ^ wb) (ha01 : a.binary) (hb01 : b.binary) :
    binary_op op a b = binary_op op b a ∧
    (binary_op op a b).len = (binary_op op b a).len := by
  have hvec : (binary_op op a b).vector = (binary_op op b a).vector := by
    apply List.ext_getElem?
    intro r
    by_cases hr : r < max a.len b.len
    · rw [binary_op_row op a b wa wb hop ha hb ha01 hb01 r hr,
        binary_op_row op b a wb wa hop hb ha hb01 ha01 r (by rw [Nat.max_comm]; exact hr)]
      by_cases hab : a.len < b.len
      · have h1 : wide a b = b := by simp [wide, hab]
        have h2 : narrow a b = a := by simp [narrow, hab]
        have h3 : wide b a = b := by simp [wide, Nat.lt_asymm hab]
        have h4 : narrow b a = a := by simp [narrow, Nat.lt_asymm hab]
        rw [h1, h2, h3, h4]
      · by_cases hba : b.len < a.len
        · have h1 : wide a b = a := by simp [wide, hab]
          have h2 : narrow a b = b := by simp [narrow, hab]
          have h3 : wide b a = a := by simp [wide, hba]
          have h4 : narrow b a = b := by simp [narrow, hba]
          rw [h1, h2, h3, h4]
        · have heq := len_eq_of_not_lt a b hab hba
          have h1 : wide a b = a := by simp [wide, hab]
          have h2 : narrow a b = b := by simp [narrow, hab]
          have h3 : wide b a = b := by simp [wide, hba]
          have h4 : narrow b a = a := by simp [narrow, hba]
          have hra : r < a.len := by omega
          rw [h1, h2, h3, h4, Nat.mod_eq_of_lt (by omega), Nat.mod_eq_of_lt hra, bool_op_comm]
    · have hl1 := binary_op_len op a b
      have hl2 := binary_op_len op b a
      unfold TruthTab.len at hl1 hl2 hr
      rw [List.getElem?_eq_none (by omega), List.getElem?_eq_none (by omega)]
  have heq : binary_op op a b = binary_op op b a := by
    calc binary_op op a b = { vector := (binary_op op a b).vector } := rfl
      _ = { vector := (binary_op op b a).vector } := by rw [hvec]
  exact ⟨heq, by rw [heq]⟩

/-- C19 at `[0,1] XOR [0,0,1,1]` in both orders: `[0,1,1,0]`. -/
theorem binary_op_comm_witness :
    binary_op TOK_XOR { vector := [0, 1] } { vector := [0, 0, 1, 1] } =
      binary_op TOK_XOR { vector := [0, 0, 1, 1] } { vector := [0, 1] } ∧
    binary_op TOK_XOR { vector := [0, 1] } { vector := [0, 0, 1, 1] } =
      { vector := [0, 1, 1, 0] } :=
  ⟨(binary_op_comm TOK_XOR { vector := [0, 1] } { vector := [0, 0, 1, 1] } 1 2
      (Or.inr (Or.inr rfl)) (by decide) (by decide)
      (by simp [TruthTab.binary]) (by simp [TruthTab.binary])).1,
    by decide⟩

/-! ### The table invariant -/

theorem valid_of_Tab (t : TruthTab) (g : Nat → Bool) (h : Tab t g) : t.valid := by
  refine ⟨?_, Tab_binary t g h⟩
  obtain ⟨w, hl, -⟩ := h
  exact ⟨w, hl⟩

theorem valid_constant (k : Nat) (hk : k = 0 ∨ k = 1) (t : TruthTab)
    (h : constant k = .ok t) : t.valid := by
  rw [constant_eq] at h
  simp only [Except.ok.injEq] at h
  subst h
  refine ⟨⟨0, rfl⟩, ?_⟩
  intro x hx
  simp only [List.mem_singleton] at hx
  rw [hx]
  exact hk

theorem valid_single_var (i : Nat) (t : TruthTab) (h : single_var i = .ok t) : t.valid :=
  valid_of_Tab t _ (Tab_single_var i t h).1

theorem valid_inverse (t : TruthTab) (h : t.valid) : (inverse t).valid := by
  obtain ⟨⟨w, hw⟩, hb⟩ := h
  refine ⟨⟨w, by rw [inverse_len]; exact hw⟩, ?_⟩
  intro x hx
  unfold inverse at hx
  simp only [List.mem_map] at hx
  obtain ⟨y, hy, rfl⟩ := hx
  rcases hb y hy with h0 | h1
  · rw [h0]; exact Or.inr rfl
  · rw [h1]; exact Or.inl rfl

theorem apply_op_binary (op x y : Nat) (hx : x = 0 ∨ x = 1) (hy : y = 0 ∨ y = 1) :
    apply_op op x y = 0 ∨ apply_op op x y = 1 := by
  unfold apply_op
  rcases hx with rfl | rfl <;> rcases hy with rfl | rfl <;>
    (split_ifs <;> simp)

theorem getD_binary (l : List Nat) (h : ∀ x ∈ l, x = 0 ∨ x = 1) (i : Nat) :
    l.getD i 0 = 0 ∨ l.getD i 0 = 1 := by
  rw [List.getD_eq_getElem?_getD]
  cases hi : l[i]? with
  | none => exact Or.inl rfl
  | some y => exact h y (List.getElem?_mem hi)

theorem valid_binary_op (op : Nat) (a b : TruthTab) (ha : a.valid) (hb : b.valid) :
    (binary_op op a b).valid := by
  obtain ⟨⟨wa, hwa⟩, ha01⟩ := ha
  obtain ⟨⟨wb, hwb⟩, hb01⟩ := hb
  refine ⟨⟨max wa wb, binary_op_len_pow op a b wa wb hwa hwb⟩, ?_⟩
  intro x hx
  obtain ⟨r, hr, rfl⟩ := List.getElem_of_mem hx
  have h1 := binary_op_getElem? op a b r
  rw [List.getElem?_eq_getElem hr] at h1
  cases hw : (wide a b).vector[r]? with
  | none => rw [hw] at h1; simp at h1
  | some y =>
    rw [hw] at h1
    simp only [Option.map_some', Option.some.injEq] at h1
    rw [h1]
    have hy : y = 0 ∨ y = 1 := by
      rcases wide_cases a b with hc | hc
      · rw [hc] at hw; exact ha01 y (List.getElem?_mem hw)
      · rw [hc] at hw; exact hb01 y (List.getElem?_mem hw)
    have hz : (narrow a b).vector.getD (r &&& ((narrow a b).len - 1)) 0 = 0 ∨
        (narrow a b).vector.getD (r &&& ((narrow a b).len - 1)) 0 = 1 := by
      rcases narrow_cases a b with hc | hc
      · rw [hc]; exact getD_binary _ ha01 _
      · rw [hc]; exact getD_binary _ hb01 _
    exact apply_op_binary op y _ hy hz

theorem valid_parse (ps : ParseState) (inputf : FILE) (ps' : ParseState)
    (h : parse ps inputf = .ok ps') : ps'.result.valid := by
  obtain ⟨ps1, t, ps2, -, h2, h3, -⟩ := parse_ok_inv _ _ _ h
  obtain ⟨g, hg, -⟩ := (parse_sim _).1 _ _ _ h2
  obtain ⟨ps3, -, rfl⟩ := parse_expect_result_ok _ _ _ _ h3
  exact valid_of_Tab t g hg

/-- C12. The truth-table invariant: every table returned by `constant(k)` with
`k` in {0, 1}, by `single_var(i)`, by `inverse` and by `binary_op` (for any
operator, given operands that satisfy the invariant) has a length that is a
power of two, so at least 1, and entries that are exactly 0 or 1; and so does
the table of every state that `parse` returns. -/
theorem truth_table_invariant :
    (∀ (k : Nat) (t : TruthTab), (k = 0 ∨ k = 1) → constant k = .ok t → t.valid) ∧
    (∀ (i : Nat) (t : TruthTab), single_var i = .ok t → t.valid) ∧
    (∀ t : TruthTab, t.valid → (inverse t).valid) ∧
    (∀ (op : Nat) (a b : TruthTab), a.valid → b.valid → (binary_op op a b).valid) ∧
    (∀ ps inputf ps', parse ps inputf = .ok ps' → ps'.result.valid) ∧
    (∀ t : TruthTab, t.valid →
      1 ≤ t.len ∧ ∀ r, r < t.len → t.vector[r]? = some 0 ∨ t.vector[r]? = some 1) := by
  refine ⟨fun k t hk h => valid_constant k hk t h, valid_single_var, valid_inverse,
    valid_binary_op, valid_parse, ?_⟩
  intro t ht
  obtain ⟨⟨w, hw⟩, hb⟩ := ht
  refine ⟨by rw [hw]; exact Nat.one_le_two_pow, ?_⟩
  intro r hr
  unfold TruthTab.len at hr
  rw [List.getElem?_eq_getElem hr]
  rcases hb _ (List.getElem_mem hr) with h0 | h1
  · exact Or.inl (by rw [h0])
  · exact Or.inr (by rw [h1])

/-- C12 at the tables of `A`, of `~A` and of `A ^ ~A`: `[0,1]`, `[1,0]` and
`[1,1]` all satisfy the invariant. -/
theorem truth_table_invariant_witness :
    single_var 0 = .ok { vector := [0, 1] } ∧
    TruthTab.valid { vector := [0, 1] } ∧
    binary_op TOK_XOR { vector := [0, 1] } (inverse { vector := [0, 1] }) =
      { vector := [1, 1] } ∧
    (binary_op TOK_XOR { vector := [0, 1] } (inverse { vector := [0, 1] })).valid :=
  ⟨by decide!,
    truth_table_invariant.2.1 0 { vector := [0, 1] } (by decide!),
    by decide!,
    truth_table_invariant.2.2.2.1 TOK_XOR { vector := [0, 1] } (inverse { vector := [0, 1] })
      (truth_table_invariant.2.1 0 { vector := [0, 1] } (by decide!))
      (truth_table_invariant.2.2.1 { vector := [0, 1] }
        (truth_table_invariant.2.1 0 { vector := [0, 1] } (by decide!)))⟩


/-! ## Rule induction with the sub-runs at hand -/

/-- Rule induction over the successful runs of the parser, where every case
also has the equations of its sub-runs. -/
theorem parse_runs
    (Qe Qt Qf Qp : Nat → ParseState → TruthTab → ParseState → Prop)
    (Qel Qtl Qo : Nat → TruthTab → ParseState → TruthTab → ParseState → Prop)
    (h_expr : ∀ n ps lhs ps1 t ps2, parse_term n ps = .ok (lhs, ps1) → Qt n ps lhs ps1 →
      parse_expr_loop n lhs ps1 = .ok (t, ps2) → Qel n lhs ps1 t ps2 → Qe (n + 1) ps t ps2)
    (h_expr_exit : ∀ n lhs ps, ps.token ≠ TOK_OR → Qel (n + 1) lhs ps lhs ps)
    (h_expr_or : ∀ n lhs ps ps1 rhs ps2 t ps3, ps.token = TOK_OR →
      parse_expect ps TOK_OR = .ok ps1 → parse_term n ps1 = .ok (rhs, ps2) →
      Qt n ps1 rhs ps2 → parse_expr_loop n (binary_op TOK_OR lhs rhs) ps2 = .ok (t, ps3) →
      Qel n (binary_op TOK_OR lhs rhs) ps2 t ps3 → Qel (n + 1) lhs ps t ps3)
    (h_term : ∀ n ps lhs ps1 t ps2, parse_factor n ps = .ok (lhs, ps1) → Qf n ps lhs ps1 →
      parse_term_loop n lhs ps1 = .ok (t, ps2) → Qtl n lhs ps1 t ps2 → Qt (n + 1) ps t ps2)
    (h_op_and : ∀ n lhs ps ps1, ps.token = TOK_AND →
      parse_expect ps TOK_AND = .ok ps1 → Qo n lhs ps lhs ps1)
    (h_op_xor : ∀ n lhs ps ps1 rhs ps2, ps.token ≠ TOK_AND → ps.token = TOK_XOR →
      parse_expect ps TOK_XOR = .ok ps1 → parse_factor n ps1 = .ok (rhs, ps2) →
      Qf n ps1 rhs ps2 → Qo n lhs ps (binary_op TOK_XOR lhs rhs) ps2)
    (h_op_none : ∀ n lhs ps, ps.token ≠ TOK_AND → ps.token ≠ TOK_XOR → Qo n lhs ps lhs ps)
    (h_term_exit : ∀ n lhs ps lhs1 ps1, term_op (parse_factor n) lhs ps = .ok (lhs1, ps1) →
      Qo n lhs ps lhs1 ps1 → starts_factor ps1.token = false → Qtl (n + 1) lhs ps lhs1 ps1)
    (h_term_and : ∀ n lhs ps lhs1 ps1 rhs ps2 t ps3,
      term_op (parse_factor n) lhs ps = .ok (lhs1, ps1) → Qo n lhs ps lhs1 ps1 →
      starts_factor ps1.token = true → parse_factor n ps1 = .ok (rhs, ps2) →
      Qf n ps1 rhs ps2 → parse_term_loop n (binary_op TOK_AND lhs1 rhs) ps2 = .ok (t, ps3) →
      Qtl n (binary_op TOK_AND lhs1 rhs) ps2 t ps3 → Qtl (n + 1) lhs ps t ps3)
    (h_prim_var : ∀ n ps t ps1, isident ps.token = true → single_var ps.token = .ok t →
      parse_expect ps ps.token = .ok ps1 → Qp n ps t ps1)
    (h_prim_false : ∀ n ps t ps1, isident ps.token = false → ps.token = TOK_FALSE →
      constant 0 = .ok t → parse_expect ps TOK_FALSE = .ok ps1 → Qp n ps t ps1)
    (h_prim_true : ∀ n ps t ps1, isident ps.token = false → ps.token ≠ TOK_FALSE →
      ps.token = TOK_TRUE → constant 1 = .ok t → parse_expect ps TOK_TRUE = .ok ps1 →
      Qp n ps t ps1)
    (h_prim_paren : ∀ n ps ps1 t ps2 ps3, isident ps.token = false →
      ps.token ≠ TOK_FALSE → ps.token ≠ TOK_TRUE → parse_expect ps TOK_LPAREN = .ok ps1 →
      parse_expr n ps1 = .ok (t, ps2) → Qe n ps1 t ps2 →
      parse_expect ps2 TOK_RPAREN = .ok ps3 → Qp n ps t ps3)
    (h_factor : ∀ n ps not_cnt ps1 t ps2,
      parse_factor_nots (n + 1) ps 0 = .ok (not_cnt, ps1) →
      primary (parse_expr n) ps1 = .ok (t, ps2) → Qp n ps1 t ps2 →
      Qf (n + 1) ps (if not_cnt &&& 1 ≠ 0 then inverse t else t) ps2) :
    ∀ n,
      (∀ ps t ps', parse_expr n ps = .ok (t, ps') → Qe n ps t ps') ∧
      (∀ lhs ps t ps', parse_expr_loop n lhs ps = .ok (t, ps') → Qel n lhs ps t ps') ∧
      (∀ ps t ps', parse_term n ps = .ok (t, ps') → Qt n ps t ps') ∧
      (∀ lhs ps t ps', parse_term_loop n lhs ps = .ok (t, ps') → Qtl n lhs ps t ps') ∧
      (∀ ps t ps', parse_factor n ps = .ok (t, ps') → Qf n ps t ps') := by
  have key := parse_induction
    (fun n ps t ps' => parse_expr n ps = .ok (t, ps') ∧ Qe n ps t ps')
    (fun n ps t ps' => parse_term n ps = .ok (t, ps') ∧ Qt n ps t ps')
    (fun n ps t ps' => parse_factor n ps = .ok (t, ps') ∧ Qf n ps t ps')
    (fun n ps t ps' => primary (parse_expr n) ps = .ok (t, ps') ∧ Qp n ps t ps')
    (fun n lhs ps t ps' => parse_expr_loop n lhs ps = .ok (t, ps') ∧ Qel n lhs ps t ps')
    (fun n lhs ps t ps' => parse_term_loop n lhs ps = .ok (t, ps') ∧ Qtl n lhs ps t ps')
    (fun n lhs ps t ps' => term_op (parse_factor n) lhs ps = .ok (t, ps') ∧ Qo n lhs ps t ps')
    ?_ ?_ ?_ ?_ ?_ ?_ ?_ ?_ ?_ ?_ ?_ ?_ ?_ ?_
  · intro n
    obtain ⟨h1, h2, h3, h4, h5⟩ := key n
    exact ⟨fun ps t ps' h => (h1 ps t ps' h).2, fun lhs ps t ps' h => (h2 lhs ps t ps' h).2,
      fun ps t ps' h => (h3 ps t ps' h).2, fun lhs ps t ps' h => (h4 lhs ps t ps' h).2,
      fun ps t ps' h => (h5 ps t ps' h).2⟩
  · rintro n ps lhs ps1 t ps2 ⟨e1, q1⟩ ⟨e2, q2⟩
    refine ⟨?_, h_expr n ps lhs ps1 t ps2 e1 q1 e2 q2⟩
    rw [parse_expr, e1]
    exact e2
  · intro n lhs ps hor
    refine ⟨?_, h_expr_exit n lhs ps hor⟩
    rw [parse_expr_loop, if_neg hor]
  · rintro n lhs ps ps1 rhs ps2 t ps3 hor he ⟨e1, q1⟩ ⟨e2, q2⟩
    refine ⟨?_, h_expr_or n lhs ps ps1 rhs ps2 t ps3 hor he e1 q1 e2 q2⟩
    rw [parse_expr_loop, if_pos hor, he]
    simp only [e1]
    exact e2
  · rintro n ps lhs ps1 t ps2 ⟨e1, q1⟩ ⟨e2, q2⟩
    refine ⟨?_, h_term n ps lhs ps1 t ps2 e1 q1 e2 q2⟩
    rw [parse_term, e1]
    exact e2
  · intro n lhs ps ps1 hand he
    refine ⟨?_, h_op_and n lhs ps ps1 hand he⟩
    unfold term_op
    rw [if_pos hand, he]
  · rintro n lhs ps ps1 rhs ps2 hand hxor he ⟨e1, q1⟩
    refine ⟨?_, h_op_xor n lhs ps ps1 rhs ps2 hand hxor he e1 q1⟩
    unfold term_op
    rw [if_neg hand, if_pos hxor, he]
    simp only [e1]
  · intro n lhs ps hand hxor
    refine ⟨?_, h_op_none n lhs ps hand hxor⟩
    unfold term_op
    rw [if_neg hand, if_neg hxor]
  · rintro n lhs ps lhs1 ps1 ⟨e1, q1⟩ hs
    refine ⟨?_, h_term_exit n lhs ps lhs1 ps1 e1 q1 hs⟩
    rw [parse_term_loop_succ, e1]
    simp [hs]
  · rintro n lhs ps lhs1 ps1 rhs ps2 t ps3 ⟨e1, q1⟩ hs ⟨e2, q2⟩ ⟨e3, q3⟩
    refine ⟨?_, h_term_and n lhs ps lhs1 ps1 rhs ps2 t ps3 e1 q1 hs e2 q2 e3 q3⟩
    rw [parse_term_loop_succ, e1]
    simp only [hs, if_true, e2]
    exact e3
  · intro n ps t ps1 hid hsv he
    refine ⟨?_, h_prim_var n ps t ps1 hid hsv he⟩
    unfold primary
    rw [if_pos hid, hsv]
    simp only [he]
  · intro n ps t ps1 hid hF hc he
    refine ⟨?_, h_prim_false n ps t ps1 hid hF hc he⟩
    unfold primary
    rw [if_neg (by simp [hid]), if_pos hF, hc]
    simp only [he]
  · intro n ps t ps1 hid hF hT hc he
    refine ⟨?_, h_prim_true n ps t ps1 hid hF hT hc he⟩
    unfold primary
    rw [if_neg (by simp [hid]), if_neg hF, if_pos hT, hc]
    simp only [he]
  · rintro n ps ps1 t ps2 ps3 hid hF hT he1 ⟨e1, q1⟩ he2
    refine ⟨?_, h_prim_paren n ps ps1 t ps2 ps3 hid hF hT he1 e1 q1 he2⟩
    unfold primary
    rw [if_neg (by simp [hid]), if_neg hF, if_neg hT, he1]
    simp only [e1, he2]
  · rintro n ps c ps1 t ps2 hn ⟨e1, q1⟩
    refine ⟨?_, h_factor n ps c ps1 t ps2 hn e1 q1⟩
    rw [parse_factor_succ, hn]
    simp only [e1]


/-! ## C17: the lookahead with which `parse_term` returns -/

theorem ok_of_isSome {α : Type} (x : Except Failure α) (h : x.toOption.isSome = true) :
    ∃ a, x = .ok a := by
  cases x with
  | error e => simp [Except.toOption] at h
  | ok a => exact ⟨a, rfl⟩

/-- C17, counterexample. On `A ^ B ^ C` the function `parse_term` returns the
table of `A ^ B` with the second XOR as the lookahead, and on `A & & B` it
returns the table of `A` with the second AND as the lookahead. -/
theorem parse_term_returns_at_operator :
    term_return (bytes "A ^ B ^ C") = .ok ([0, 1, 1, 0], TOK_XOR) ∧
    term_return (bytes "A & & B") = .ok ([0, 1], TOK_AND) := by
  refine ⟨by decide!, by decide!⟩

/-- The ghost flag changes nothing: without it the flagged loop is the loop of
`parse_term`. -/
theorem parse_term_loop_flag_erase :
    ∀ n lhs ps, parse_term_loop n lhs ps =
      (parse_term_loop_flag n lhs ps).map (fun r => (r.1, r.2.1)) := by
  intro n
  induction n with
  | zero => intro lhs ps; rw [parse_term_loop, parse_term_loop_flag]; rfl
  | succ n ih =>
    intro lhs ps
    rw [parse_term_loop_succ, parse_term_loop_flag]
    cases h1 : term_op (parse_factor n) lhs ps with
    | error e => rfl
    | ok r =>
      obtain ⟨lhs1, ps1⟩ := r
      dsimp only
      by_cases hs : starts_factor ps1.token = true
      · rw [if_pos hs, if_pos hs]
        cases h2 : parse_factor n ps1 with
        | error e => rfl
        | ok r =>
          obtain ⟨rhs, ps2⟩ := r
          exact ih _ ps2
      · rw [if_neg hs, if_neg hs]
        rfl

theorem parse_term_flag_erase (n : Nat) (ps : ParseState) :
    parse_term n ps = (parse_term_flag n ps).map (fun r => (r.1, r.2.1)) := by
  cases n with
  | zero => rw [parse_term, parse_term_flag]; rfl
  | succ n =>
    rw [parse_term, parse_term_flag]
    cases h1 : parse_factor n ps with
    | error e => rfl
    | ok r =>
      obtain ⟨lhs, ps1⟩ := r
      exact parse_term_loop_flag_erase n lhs ps1

theorem parse_term_loop_return :
    ∀ n lhs ps t ps', parse_term_loop n lhs ps = .ok (t, ps') →
      starts_factor ps'.token = false ∧
      ∃ b, parse_term_loop_flag n lhs ps = .ok (t, ps', b) ∧
        (b = false → ps'.token ≠ TOK_AND ∧ ps'.token ≠ TOK_XOR) := by
  intro n
  induction n with
  | zero => intro lhs ps t ps' h; simp [parse_term_loop] at h
  | succ n ih =>
    intro lhs ps t ps' h
    rw [parse_term_loop_succ] at h
    rw [parse_term_loop_flag]
    cases h1 : term_op (parse_factor n) lhs ps with
    | error e => rw [h1] at h; cases h
    | ok r =>
      obtain ⟨lhs1, ps1⟩ := r
      rw [h1] at h
      dsimp only at h ⊢
      by_cases hs : starts_factor ps1.token = true
      · rw [if_pos hs] at h ⊢
        cases h2 : parse_factor n ps1 with
        | error e => rw [h2] at h; cases h
        | ok r =>
          obtain ⟨rhs, ps2⟩ := r
          rw [h2] at h
          exact ih _ ps2 t ps' h
      · rw [if_neg hs] at h ⊢
        simp only [Except.ok.injEq, Prod.mk.injEq] at h
        obtain ⟨rfl, rfl⟩ := h
        refine ⟨by simpa using hs, _, rfl, ?_⟩
        intro hb
        have hno : ¬ (ps.token = TOK_AND ∨ ps.token = TOK_XOR) := by simpa using hb
        have hand : ps.token ≠ TOK_AND := fun hc => hno (Or.inl hc)
        have hxor : ps.token ≠ TOK_XOR := fun hc => hno (Or.inr hc)
        unfold term_op at h1
        rw [if_neg hand, if_neg hxor] at h1
        simp only [Except.ok.injEq, Prod.mk.injEq] at h1
        rw [← h1.2]
        exact ⟨hand, hxor⟩

/-- C17, amended. Whenever `parse_term` returns, the lookahead token is not a
token that can start a factor; and it is neither AND nor XOR unless the round
of the loop that returns consumed an AND or XOR token (the ghost flag of
`parse_term_flag`, which is `parse_term` with that flag beside its result). -/
theorem parse_term_return_lookahead (n : Nat) (ps : ParseState) (t : TruthTab)
    (ps' : ParseState) (h : parse_term n ps = .ok (t, ps')) :
    starts_factor ps'.token = false ∧
    ∃ b, parse_term_flag n ps = .ok (t, ps', b) ∧
      (b = false → ps'.token ≠ TOK_AND ∧ ps'.token ≠ TOK_XOR) := by
  cases n with
  | zero => simp [parse_term] at h
  | succ n =>
    rw [parse_term] at h
    rw [parse_term_flag]
    cases h1 : parse_factor n ps with
    | error e => rw [h1] at h; cases h
    | ok r =>
      obtain ⟨lhs, ps1⟩ := r
      rw [h1] at h
      exact parse_term_loop_return n lhs ps1 t ps' h

/-- C17, amended, at the inputs `A & & B` and `A B + C`: on the first
`parse_term` returns with the second AND as the lookahead, after a round that
consumed the first AND; on the second it returns at the OR, after a round that
consumed no operator. -/
theorem parse_term_return_lookahead_witness :
    (∃ ps t ps', scan_first ParseState.fresh (bytes "A & & B") = .ok ps ∧
      parse_term 4 ps = .ok (t, ps') ∧ ps'.token = TOK_AND ∧
      starts_factor ps'.token = false ∧
      ∃ b, parse_term_flag 4 ps = .ok (t, ps', b) ∧
        (b = false → ps'.token ≠ TOK_AND ∧ ps'.token ≠ TOK_XOR)) ∧
    term_return (bytes "A B + C") = .ok ([0, 0, 0, 1], TOK_OR) := by
  refine ⟨?_, by decide!⟩
  obtain ⟨ps, h1⟩ := ok_of_isSome (scan_first ParseState.fresh (bytes "A & & B")) (by decide!)
  have h2 : ((scan_first ParseState.fresh (bytes "A & & B")).toOption.bind
      (fun q => (parse_term 4 q).toOption)).map (fun r => r.2.token) = some TOK_AND := by
    decide!
  rw [h1] at h2
  cases hp : parse_term 4 ps with
  | error e => simp [Except.toOption, hp] at h2
  | ok r =>
    obtain ⟨t, ps'⟩ := r
    have htok : ps'.token = TOK_AND := by simpa [Except.toOption, hp] using h2
    exact ⟨ps, t, ps', h1, hp, htok, parse_term_return_lookahead 4 ps t ps' hp⟩


/-! ## An XOR followed by a juxtaposed factor -/

/-- The function `parse_factor` returns only from a token that can start a
factor. -/
theorem parse_factor_starts (n : Nat) (ps : ParseState) (t : TruthTab) (ps' : ParseState)
    (h : parse_factor n ps = .ok (t, ps')) : starts_factor ps.token = true := by
  refine (parse_runs
    (fun _ _ _ _ => True) (fun _ _ _ _ => True)
    (fun _ ps _ _ => starts_factor ps.token = true)
    (fun _ ps _ _ => starts_factor ps.token = true)
    (fun _ _ _ _ _ => True) (fun _ _ _ _ _ => True) (fun _ _ _ _ _ => True)
    ?_ ?_ ?_ ?_ ?_ ?_ ?_ ?_ ?_ ?_ ?_ ?_ ?_ ?_ n).2.2.2.2 ps t ps' h
  · intros; trivial
  · intros; trivial
  · intros; trivial
  · intros; trivial
  · intros; trivial
  · intros; trivial
  · intros; trivial
  · intros; trivial
  · intros; trivial
  · intro n ps t ps1 hid _ _
    simp [starts_factor, hid]
  · intro n ps t ps1 _ hF _ _
    simp [starts_factor, hF]
  · intro n ps t ps1 _ _ hT _ _
    simp [starts_factor, hT]
  · intro n ps ps1 t ps2 ps3 _ _ _ he _ _ _
    have := (parse_expect_ok _ _ _ he).1
    simp [starts_factor, this]
  · intro n ps c ps1 t ps2 hn _ hp
    rw [parse_factor_nots] at hn
    by_cases hnot : ps.token = TOK_NOT
    · simp [starts_factor, hnot]
    · rw [if_neg hnot] at hn
      simp only [Except.ok.injEq, Prod.mk.injEq] at hn
      rw [hn.2]
      exact hp

/-- The loop of `parse_term` on an XOR, a factor and a juxtaposed factor: one
round takes the XOR and both factors and goes on with the AND of the XOR. -/
theorem parse_term_loop_xor_factor_factor (n : Nat) (lhs : TruthTab)
    (ps1 ps2 ps3 ps4 : ParseState) (t2 t3 : TruthTab)
    (hx : ps1.token = TOK_XOR) (he : parse_expect ps1 TOK_XOR = .ok ps2)
    (h2 : parse_factor n ps2 = .ok (t2, ps3)) (h3 : parse_factor n ps3 = .ok (t3, ps4)) :
    parse_term_loop (n + 1) lhs ps1 =
      parse_term_loop n (binary_op TOK_AND (binary_op TOK_XOR lhs t2) t3) ps4 := by
  have hs := parse_factor_starts n ps3 t3 ps4 h3
  rw [parse_term_loop_succ]
  unfold term_op
  rw [if_neg (by rw [hx]; decide), if_pos hx, he]
  simp only [h2, hs, if_true, h3]

/-- The loop of `parse_term` returns at a token that is no AND, no XOR and no
start of a factor. -/
theorem parse_term_loop_stop (n : Nat) (lhs : TruthTab) (ps : ParseState)
    (ha : ps.token ≠ TOK_AND) (hx : ps.token ≠ TOK_XOR) (hs : starts_factor ps.token = false) :
    parse_term_loop (n + 1) lhs ps = .ok (lhs, ps) := by
  rw [parse_term_loop_succ]
  unfold term_op
  rw [if_neg ha, if_neg hx]
  simp [hs]

/-- For any three factors that `parse_factor` reads one after the other, with
an XOR token between the first two and nothing between the last two,
`parse_term` takes all three: its loop goes on after `f3` with the table
`(f1 XOR f2) AND f3`, which is what it returns when the token after `f3` ends
the term; in rows, the table holds `(g1 XOR g2) AND g3` of the values of the
three factors. -/
theorem xor_then_juxtaposition (n : Nat) (ps0 ps1 ps2 ps3 ps4 : ParseState)
    (t1 t2 t3 : TruthTab)
    (h1 : parse_factor n ps0 = .ok (t1, ps1))
    (hx : ps1.token = TOK_XOR) (he : parse_expect ps1 TOK_XOR = .ok ps2)
    (h2 : parse_factor n ps2 = .ok (t2, ps3))
    (h3 : parse_factor n ps3 = .ok (t3, ps4)) :
    (∀ k, n ≤ k → parse_term (k + 2) ps0 =
      parse_term_loop k (binary_op TOK_AND (binary_op TOK_XOR t1 t2) t3) ps4) ∧
    (ps4.token ≠ TOK_AND → ps4.token ≠ TOK_XOR → starts_factor ps4.token = false →
      ∀ k, n + 3 ≤ k →
        parse_term k ps0 = .ok (binary_op TOK_AND (binary_op TOK_XOR t1 t2) t3, ps4)) ∧
    (∀ g1 g2 g3, Tab t1 g1 → Tab t2 g2 → Tab t3 g3 →
      Tab (binary_op TOK_AND (binary_op TOK_XOR t1 t2) t3)
        (fun r => (xor (g1 r) (g2 r)) && g3 r)) ∧
    run (bytes "A ^ B C") = .ok ([65, 66, 67], [0, 0, 0, 0, 0, 1, 1, 0]) ∧
    (∀ r, r < 8 → [0, 0, 0, 0, 0, 1, 1, 0][r]? =
      some ((xor (r.testBit 0) (r.testBit 1)) && r.testBit 2).toNat) := by
  have hgen : ∀ k, n ≤ k → parse_term (k + 2) ps0 =
      parse_term_loop k (binary_op TOK_AND (binary_op TOK_XOR t1 t2) t3) ps4 := by
    intro k hk
    have e1 := (parse_mono n).2.2.2.2 _ _ _ h1 (k + 1) (by omega)
    have e2 := (parse_mono n).2.2.2.2 _ _ _ h2 k hk
    have e3 := (parse_mono n).2.2.2.2 _ _ _ h3 k hk
    rw [parse_term, e1]
    exact parse_term_loop_xor_factor_factor k t1 ps1 ps2 ps3 ps4 t2 t3 hx he e2 e3
  refine ⟨hgen, ?_, ?_, by decide!, by decide⟩
  · intro ha hxx hs k hk
    obtain ⟨k', rfl⟩ : ∃ k', k = k' + 3 := ⟨k - 3, by omega⟩
    rw [hgen (k' + 1) (by omega)]
    exact parse_term_loop_stop k' _ ps4 ha hxx hs
  · intro g1 g2 g3 hg1 hg2 hg3
    exact Tab_binary_op TOK_AND (fun x y => x && y) apply_op_and Bool.and_comm _ _ _ _
      (Tab_binary_op TOK_XOR xor apply_op_xor Bool.xor_comm _ _ _ _ hg1 hg2) hg3

theorem toOption_bind_ok {α β : Type} (x : Except Failure α) (a : α) (f : α → Option β)
    (h : x = .ok a) : x.toOption.bind f = f a := by
  subst h; rfl

theorem ok_of_toOption_map {α β : Type} (x : Except Failure α) (f : α → β) (b : β)
    (h : x.toOption.map f = some b) : ∃ a, x = .ok a ∧ f a = b := by
  cases x with
  | error e => simp [Except.toOption] at h
  | ok a => exact ⟨a, rfl, by simpa [Except.toOption] using h⟩

/-- The input `A ^ B C`: the three factors are `A`, `B` and `C`, and
`parse_term` returns the table `[0,0,0,0,0,1,1,0]`. -/
theorem xor_then_juxtaposition_example :
    ∃ ps0 ps1 ps2 ps3 ps4 t1 t2 t3,
      scan_first ParseState.fresh (bytes "A ^ B C") = .ok ps0 ∧
      parse_factor 2 ps0 = .ok (t1, ps1) ∧ ps1.token = TOK_XOR ∧
      parse_expect ps1 TOK_XOR = .ok ps2 ∧ parse_factor 2 ps2 = .ok (t2, ps3) ∧
      parse_factor 2 ps3 = .ok (t3, ps4) ∧ ps4.token = MAXIDENT ∧
      t1.vector = [0, 1] ∧ t2.vector = [0, 0, 1, 1] ∧
      t3.vector = [0, 0, 0, 0, 1, 1, 1, 1] ∧
      parse_term 5 ps0 = .ok (binary_op TOK_AND (binary_op TOK_XOR t1 t2) t3, ps4) := by
  obtain ⟨ps0, e0⟩ := ok_of_isSome (scan_first ParseState.fresh (bytes "A ^ B C")) (by decide!)
  have c1 : (scan_first ParseState.fresh (bytes "A ^ B C")).toOption.bind
      (fun q => (parse_factor 2 q).toOption.map (fun r => (r.1.vector, r.2.token))) =
      some ([0, 1], TOK_XOR) := by decide!
  rw [toOption_bind_ok _ ps0 _ e0] at c1
  obtain ⟨⟨t1, ps1⟩, h1, hr1⟩ := ok_of_toOption_map _ _ _ c1
  simp only [Prod.mk.injEq] at hr1
  obtain ⟨hv1, hx⟩ := hr1
  have c2 : (scan_first ParseState.fresh (bytes "A ^ B C")).toOption.bind
      (fun q => (parse_factor 2 q).toOption.bind
        (fun r => (parse_expect r.2 TOK_XOR).toOption.map (fun _ => 0))) = some 0 := by
    decide!
  rw [toOption_bind_ok _ ps0 _ e0, toOption_bind_ok _ (t1, ps1) _ h1] at c2
  obtain ⟨ps2, he, -⟩ := ok_of_toOption_map _ _ _ c2
  have c3 : (scan_first ParseState.fresh (bytes "A ^ B C")).toOption.bind
      (fun q => (parse_factor 2 q).toOption.bind
        (fun r => (parse_expect r.2 TOK_XOR).toOption.bind
          (fun q2 => (parse_factor 2 q2).toOption.map (fun r2 => r2.1.vector)))) =
      some [0, 0, 1, 1] := by decide!
  rw [toOption_bind_ok _ ps0 _ e0, toOption_bind_ok _ (t1, ps1) _ h1,
    toOption_bind_ok _ ps2 _ he] at c3
  obtain ⟨⟨t2, ps3⟩, h2, hv2⟩ := ok_of_toOption_map _ _ _ c3
  have c4 : (scan_first ParseState.fresh (bytes "A ^ B C")).toOption.bind
      (fun q => (parse_factor 2 q).toOption.bind
        (fun r => (parse_expect r.2 TOK_XOR).toOption.bind
          (fun q2 => (parse_factor 2 q2).toOption.bind
            (fun r2 => (parse_factor 2 r2.2).toOption.map
              (fun r3 => (r3.1.vector, r3.2.token)))))) =
      some ([0, 0, 0, 0, 1, 1, 1, 1], MAXIDENT) := by decide!
  rw [toOption_bind_ok _ ps0 _ e0, toOption_bind_ok _ (t1, ps1) _ h1,
    toOption_bind_ok _ ps2 _ he, toOption_bind_ok _ (t2, ps3) _ h2] at c4
  obtain ⟨⟨t3, ps4⟩, h3, hr3⟩ := ok_of_toOption_map _ _ _ c4
  simp only [Prod.mk.injEq] at hr3
  obtain ⟨hv3, hend⟩ := hr3
  exact ⟨ps0, ps1, ps2, ps3, ps4, t1, t2, t3, e0, h1, hx, he, h2, h3, hend, hv1, hv2, hv3,
    (xor_then_juxtaposition 2 ps0 ps1 ps2 ps3 ps4 t1 t2 t3 h1 hx he h2 h3).2.1
      (by rw [hend]; decide) (by rw [hend]; decide) (by rw [hend]; decide) 5 (by decide)⟩

/-! ## C11: `f1 ^ f2 f3` for any three factors -/

/-- C11. On `A ^ B C` the program returns the identifiers `A`, `B`, `C` and a
table of 8 rows whose row `r` is `(bit0 r XOR bit1 r) AND bit2 r`.  The general
statement fails on the program: `(A ^ B ^ C)`, `D` and `E` are factors of the
grammar, `(A ^ B ^ C) ^ D E` is the term `f1 ^ f2 f3` made of them, and the
program stops on it with the syntax error, as it does on the factor
`(A ^ B ^ C)` alone. -/
theorem xor_juxtaposition_of_factors :
    run (bytes "A ^ B C") = .ok ([65, 66, 67], [0, 0, 0, 0, 0, 1, 1, 0]) ∧
    (∀ r, r < 8 → [0, 0, 0, 0, 0, 1, 1, 0][r]? =
      some ((xor (r.testBit 0) (r.testBit 1)) && r.testBit 2).toNat) ∧
    tokens (bytes "(A ^ B ^ C) ^ D E") =
      [TOK_LPAREN, 0, TOK_XOR, 1, TOK_XOR, 2, TOK_RPAREN] ++ TOK_XOR :: [3] ++ [4] ∧
    Derives .factor [TOK_LPAREN, 0, TOK_XOR, 1, TOK_XOR, 2, TOK_RPAREN] ∧
    Derives .factor [3] ∧ Derives .factor [4] ∧
    Derives .term ([TOK_LPAREN, 0, TOK_XOR, 1, TOK_XOR, 2, TOK_RPAREN] ++ TOK_XOR :: [3] ++ [4]) ∧
    run (bytes "(A ^ B ^ C) ^ D E") = .error .syntaxErr ∧
    run (bytes "(A ^ B ^ C)") = .error .syntaxErr := by
  have hA : Derives .factor [0] := .of_primary _ (.variable 0 (by decide))
  have hB : Derives .factor [1] := .of_primary _ (.variable 1 (by decide))
  have hC : Derives .factor [2] := .of_primary _ (.variable 2 (by decide))
  have hD : Derives .factor [3] := .of_primary _ (.variable 3 (by decide))
  have hE : Derives .factor [4] := .of_primary _ (.variable 4 (by decide))
  have hP : Derives .factor [TOK_LPAREN, 0, TOK_XOR, 1, TOK_XOR, 2, TOK_RPAREN] :=
    .of_primary _ (.paren [0, TOK_XOR, 1, TOK_XOR, 2]
      (.of_term _ (.xor [0, TOK_XOR, 1] [2] (.xor [0] [1] (.of_factor _ hA) hB) hC)))
  refine ⟨by decide!, by decide, by decide!, hP, hD, hE, ?_, by decide!, by decide!⟩
  exact .juxtaposition _ [4] (.xor _ [3] (.of_factor _ hP) hD) hE


/-! ## C15: an explicit AND in the place of a juxtaposition -/

/-- At the head of the loop of `parse_term` an AND token before the start of a
factor changes nothing: the round goes on as from the state after the AND. -/
theorem parse_term_loop_and (n : Nat) (lhs : TruthTab) (ps ps1 : ParseState)
    (ha : ps.token = TOK_AND) (he : parse_expect ps TOK_AND = .ok ps1)
    (hs : starts_factor ps1.token = true) :
    parse_term_loop (n + 1) lhs ps = parse_term_loop (n + 1) lhs ps1 := by
  have h1 : ps1.token ≠ TOK_AND := by
    intro h
    rw [h] at hs
    exact absurd hs (by decide)
  have h2 : ps1.token ≠ TOK_XOR := by
    intro h
    rw [h] at hs
    exact absurd hs (by decide)
  rw [parse_term_loop_succ, parse_term_loop_succ]
  unfold term_op
  rw [if_pos ha, he, if_neg h1, if_neg h2]

/-- C15. The texts `A B` and `A & B` have the same outcome, and so have `A B C`
and `A & B C`; but directly after the factor that follows an XOR the explicit
AND is not taken: `A ^ B C` is accepted with the table of `(A XOR B) AND C`,
and `A ^ B & C`, a term of the grammar as well, stops with the syntax error. -/
theorem explicit_and_after_xor :
    run (bytes "A B") = run (bytes "A & B") ∧
    run (bytes "A B C") = run (bytes "A & B C") ∧
    run (bytes "A ^ B C") = .ok ([65, 66, 67], [0, 0, 0, 0, 0, 1, 1, 0]) ∧
    tokens (bytes "A ^ B & C") = [0, TOK_XOR, 1, TOK_AND, 2] ∧
    Derives .term [0, TOK_XOR, 1, TOK_AND, 2] ∧
    run (bytes "A ^ B & C") = .error .syntaxErr := by
  refine ⟨by decide!, by decide!, by decide!, by decide!, ?_, by decide!⟩
  have hA : Derives .factor [0] := .of_primary _ (.variable 0 (by decide))
  have hB : Derives .factor [1] := .of_primary _ (.variable 1 (by decide))
  have hC : Derives .factor [2] := .of_primary _ (.variable 2 (by decide))
  exact .and [0, TOK_XOR, 1] [2] (.xor [0] [1] (.of_factor _ hA) hB) hC


/-! ## A result other than the lack of fuel is the same with more fuel -/

theorem nots_stable :
    ∀ n ps c, parse_factor_nots n ps c ≠ .error .outOfFuel →
      ∀ k, n ≤ k → parse_factor_nots k ps c = parse_factor_nots n ps c := by
  intro n
  induction n with
  | zero => intro ps c h; exact absurd rfl h
  | succ n ih =>
    intro ps c h k hk
    obtain ⟨k', rfl⟩ : ∃ k', k = k' + 1 := ⟨k - 1, by omega⟩
    rw [parse_factor_nots] at h
    rw [parse_factor_nots, parse_factor_nots]
    by_cases hn : ps.token = TOK_NOT
    · rw [if_pos hn] at h ⊢
      rw [if_pos hn]
      cases h1 : parse_expect ps TOK_NOT with
      | error e => rfl
      | ok ps1 =>
        rw [h1] at h
        exact ih ps1 _ h k' (by omega)
    · rw [if_neg hn, if_neg hn]

theorem term_op_stable (n k : Nat) (lhs : TruthTab) (ps : ParseState)
    (hf : ∀ q, parse_factor n q ≠ .error .outOfFuel → parse_factor k q = parse_factor n q)
    (h : term_op (parse_factor n) lhs ps ≠ .error .outOfFuel) :
    term_op (parse_factor k) lhs ps = term_op (parse_factor n) lhs ps := by
  unfold term_op at h ⊢
  by_cases hand : ps.token = TOK_AND
  · rw [if_pos hand, if_pos hand]
  · rw [if_neg hand] at h ⊢
    rw [if_neg hand]
    by_cases hxor : ps.token = TOK_XOR
    · rw [if_pos hxor] at h ⊢
      rw [if_pos hxor]
      cases h1 : parse_expect ps TOK_XOR with
      | error e => rfl
      | ok q =>
        rw [h1] at h
        dsimp only at h ⊢
        have hq : parse_factor n q ≠ .error .outOfFuel := by
          intro hc
          rw [hc] at h
          exact h rfl
        rw [hf q hq]
    · rw [if_neg hxor, if_neg hxor]

theorem primary_stable (e1 e2 : ParseState → Except Failure (TruthTab × ParseState))
    (ps : ParseState)
    (he : ∀ q, e1 q ≠ .error .outOfFuel → e2 q = e1 q)
    (h : primary e1 ps ≠ .error .outOfFuel) : primary e2 ps = primary e1 ps := by
  unfold primary at h ⊢
  by_cases hid : isident ps.token = true
  · rw [if_pos hid, if_pos hid]
  · rw [if_neg hid] at h ⊢
    rw [if_neg hid]
    by_cases hF : ps.token = TOK_FALSE
    · rw [if_pos hF, if_pos hF]
    · rw [if_neg hF] at h ⊢
      rw [if_neg hF]
      by_cases hT : ps.token = TOK_TRUE
      · rw [if_pos hT, if_pos hT]
      · rw [if_neg hT] at h ⊢
        rw [if_neg hT]
        cases h1 : parse_expect ps TOK_LPAREN with
        | error e => rfl
        | ok q =>
          rw [h1] at h
          dsimp only at h ⊢
          have hq : e1 q ≠ .error .outOfFuel := by
            intro hc
            rw [hc] at h
            exact h rfl
          rw [he q hq]

/-- A result of the parser that is not the lack of fuel stays the same with
more fuel: the result is that of the program, whatever the fuel. -/
theorem parse_stable :
    ∀ n,
      (∀ ps, parse_expr n ps ≠ .error .outOfFuel →
        ∀ k, n ≤ k → parse_expr k ps = parse_expr n ps) ∧
      (∀ lhs ps, parse_expr_loop n lhs ps ≠ .error .outOfFuel →
        ∀ k, n ≤ k → parse_expr_loop k lhs ps = parse_expr_loop n lhs ps) ∧
      (∀ ps, parse_term n ps ≠ .error .outOfFuel →
        ∀ k, n ≤ k → parse_term k ps = parse_term n ps) ∧
      (∀ lhs ps, parse_term_loop n lhs ps ≠ .error .outOfFuel →
        ∀ k, n ≤ k → parse_term_loop k lhs ps = parse_term_loop n lhs ps) ∧
      (∀ ps, parse_factor n ps ≠ .error .outOfFuel →
        ∀ k, n ≤ k → parse_factor k ps = parse_factor n ps) := by
  intro n
  induction n with
  | zero =>
    refine ⟨?_, ?_, ?_, ?_, ?_⟩
    · intro ps h; exact absurd (by rw [parse_expr]) h
    · intro lhs ps h; exact absurd (by rw [parse_expr_loop]) h
    · intro ps h; exact absurd (by rw [parse_term]) h
    · intro lhs ps h; exact absurd (by rw [parse_term_loop]) h
    · intro ps h; exact absurd (by rw [parse_factor]) h
  | succ n ih =>
    obtain ⟨ihe, ihel, iht, ihtl, ihf⟩ := ih
    refine ⟨?_, ?_, ?_, ?_, ?_⟩
    · intro ps h k hk
      obtain ⟨k', rfl⟩ : ∃ k', k = k' + 1 := ⟨k - 1, by omega⟩
      rw [parse_expr] at h
      rw [parse_expr, parse_expr]
      have hsub : parse_term n ps ≠ .error .outOfFuel := by
        intro hc
        rw [hc] at h
        exact h rfl
      rw [iht ps hsub k' (by omega)]
      cases h1 : parse_term n ps with
      | error e => rfl
      | ok r =>
        obtain ⟨lhs, ps1⟩ := r
        rw [h1] at h
        exact ihel lhs ps1 h k' (by omega)
    · intro lhs ps h k hk
      obtain ⟨k', rfl⟩ : ∃ k', k = k' + 1 := ⟨k - 1, by omega⟩
      rw [parse_expr_loop] at h
      rw [parse_expr_loop, parse_expr_loop]
      by_cases hor : ps.token = TOK_OR
      · rw [if_pos hor] at h ⊢
        rw [if_pos hor]
        cases h1 : parse_expect ps TOK_OR with
        | error e => rfl
        | ok ps1 =>
          rw [h1] at h
          dsimp only at h ⊢
          have hsub : parse_term n ps1 ≠ .error .outOfFuel := by
            intro hc
            rw [hc] at h
            exact h rfl
          rw [iht ps1 hsub k' (by omega)]
          cases h2 : parse_term n ps1 with
          | error e => rfl
          | ok r =>
            obtain ⟨rhs, ps2⟩ := r
            rw [h2] at h
            exact ihel _ ps2 h k' (by omega)
      · rw [if_neg hor, if_neg hor]
    · intro ps h k hk
      obtain ⟨k', rfl⟩ : ∃ k', k = k' + 1 := ⟨k - 1, by omega⟩
      rw [parse_term] at h
      rw [parse_term, parse_term]
      have hsub : parse_factor n ps ≠ .error .outOfFuel := by
        intro hc
        rw [hc] at h
        exact h rfl
      rw [ihf ps hsub k' (by omega)]
      cases h1 : parse_factor n ps with
      | error e => rfl
      | ok r =>
        obtain ⟨lhs, ps1⟩ := r
        rw [h1] at h
        exact ihtl lhs ps1 h k' (by omega)
    · intro lhs ps h k hk
      obtain ⟨k', rfl⟩ : ∃ k', k = k' + 1 := ⟨k - 1, by omega⟩
      rw [parse_term_loop_succ] at h
      rw [parse_term_loop_succ, parse_term_loop_succ]
      have hsub : term_op (parse_factor n) lhs ps ≠ .error .outOfFuel := by
        intro hc
        rw [hc] at h
        exact h rfl
      rw [term_op_stable n k' lhs ps (fun q hq => ihf q hq k' (by omega)) hsub]
      cases h1 : term_op (parse_factor n) lhs ps with
      | error e => rfl
      | ok r =>
        obtain ⟨lhs1, ps1⟩ := r
        rw [h1] at h
        dsimp only at h ⊢
        by_cases hs : starts_factor ps1.token = true
        · rw [if_pos hs] at h ⊢
          rw [if_pos hs]
          have hsub2 : parse_factor n ps1 ≠ .error .outOfFuel := by
            intro hc
            rw [hc] at h
            exact h rfl
          rw [ihf ps1 hsub2 k' (by omega)]
          cases h2 : parse_factor n ps1 with
          | error e => rfl
          | ok r =>
            obtain ⟨rhs, ps2⟩ := r
            rw [h2] at h
            exact ihtl _ ps2 h k' (by omega)
        · rw [if_neg hs, if_neg hs]
    · intro ps h k hk
      obtain ⟨k', rfl⟩ : ∃ k', k = k' + 1 := ⟨k - 1, by omega⟩
      rw [parse_factor_succ] at h
      rw [parse_factor_succ, parse_factor_succ]
      have hsub : parse_factor_nots (n + 1) ps 0 ≠ .error .outOfFuel := by
        intro hc
        rw [hc] at h
        exact h rfl
      rw [nots_stable (n + 1) ps 0 hsub (k' + 1) (by omega)]
      cases h1 : parse_factor_nots (n + 1) ps 0 with
      | error e => rfl
      | ok r =>
        obtain ⟨c, ps1⟩ := r
        rw [h1] at h
        dsimp only at h ⊢
        have hsub2 : primary (parse_expr n) ps1 ≠ .error .outOfFuel := by
          intro hc
          rw [hc] at h
          exact h rfl
        rw [primary_stable (parse_expr n) (parse_expr k') ps1
          (fun q hq => ihe q hq k' (by omega)) hsub2]


/-! ## C18: termination -/

theorem parse_expr_loop_sentinel (n : Nat) (lhs : TruthTab) (ps : ParseState)
    (h : ps.token = MAXIDENT) : parse_expr_loop (n + 1) lhs ps = .ok (lhs, ps) := by
  rw [parse_expr_loop, if_neg (by rw [h]; decide)]

theorem parse_term_loop_sentinel (n : Nat) (lhs : TruthTab) (ps : ParseState)
    (h : ps.token = MAXIDENT) : parse_term_loop (n + 1) lhs ps = .ok (lhs, ps) :=
  parse_term_loop_stop n lhs ps (by rw [h]; decide) (by rw [h]; decide) (by rw [h]; decide)

theorem parse_factor_nots_sentinel (n c : Nat) (ps : ParseState)
    (h : ps.token = MAXIDENT) : parse_factor_nots (n + 1) ps c = .ok (c, ps) := by
  rw [parse_factor_nots, if_neg (by rw [h]; decide)]

/-- C18. The function `parse` terminates on every finite input: the embedded
`parse` is total, it returns a state or one of the failures of the program and
never stops for lack of fuel.  With fuel linear in the tokens still to be
consumed, `parse_expr`, `parse_term` and `parse_factor` return a result, and
the same one with any more fuel.  Every consumed token other than the sentinel
and every call of `parse_expr`, `parse_term` and `parse_factor` that returns
takes at least one character from the input, so every round of the loops does;
once the input is exhausted the scanner keeps returning the sentinel, and the
sentinel ends every loop. -/
theorem parse_terminates (ps : ParseState) (inputf : FILE) :
    ((∃ ps', parse ps inputf = .ok ps') ∨
      (∃ e, parse ps inputf = .error e ∧ e ≠ .outOfFuel)) ∧
    (∀ q n, 4 * pending q + 5 ≤ n →
      parse_expr n q ≠ .error .outOfFuel ∧ parse_term n q ≠ .error .outOfFuel ∧
      parse_factor n q ≠ .error .outOfFuel ∧
      ∀ k, n ≤ k → parse_expr k q = parse_expr n q ∧ parse_term k q = parse_term n q ∧
        parse_factor k q = parse_factor n q) ∧
    (∀ q tok q', tok ≠ MAXIDENT → parse_expect q tok = .ok q' → pending q' < pending q) ∧
    (∀ n q t q', (parse_expr n q = .ok (t, q') ∨ parse_term n q = .ok (t, q') ∨
      parse_factor n q = .ok (t, q')) → pending q' < pending q) ∧
    (∀ q, q.inputf.buf = [] → ∃ q', next_token q = .ok q' ∧ q'.token = MAXIDENT ∧
      q'.inputf.buf = [] ∧ pending q' = 0) ∧
    (∀ n lhs c q, q.token = MAXIDENT →
      parse_expr_loop (n + 1) lhs q = .ok (lhs, q) ∧
      parse_term_loop (n + 1) lhs q = .ok (lhs, q) ∧
      parse_factor_nots (n + 1) q c = .ok (c, q)) := by
  refine ⟨?_, ?_, ?_, ?_, ?_, ?_⟩
  · cases h : parse ps inputf with
    | ok ps' => exact Or.inl ⟨ps', rfl⟩
    | error e =>
      refine Or.inr ⟨e, rfl, ?_⟩
      intro he
      rw [he] at h
      exact parse_fuel_enough ps inputf h
  · intro q n hn
    have he := (parse_no_fuel_error n).1 q hn
    have ht := (parse_no_fuel_error n).2.2.1 q (by omega)
    have hf := (parse_no_fuel_error n).2.2.2.2 q (by omega)
    refine ⟨he, ht, hf, ?_⟩
    intro k hk
    exact ⟨(parse_stable n).1 q he k hk, (parse_stable n).2.2.1 q ht k hk,
      (parse_stable n).2.2.2.2 q hf k hk⟩
  · intro q tok q' htok h
    exact expect_progress q q' tok htok h
  · intro n q t q' h
    rcases h with h | h | h
    · exact (parse_progress n).1 _ _ _ h
    · exact (parse_progress n).2.2.1 _ _ _ h
    · exact (parse_progress n).2.2.2.2 _ _ _ h
  · intro q hq
    refine ⟨{ q with token := MAXIDENT, inputf := { buf := [], eof := true } }, ?_, rfl, rfl, ?_⟩
    · unfold next_token
      rw [hq, next_token_from_nil]
    · simp [pending]
  · intro n lhs c q hq
    exact ⟨parse_expr_loop_sentinel n lhs q hq, parse_term_loop_sentinel n lhs q hq,
      parse_factor_nots_sentinel n c q hq⟩

/-- C18 at the input `A +`: the program stops with the syntax error, a result
of the program. -/
theorem parse_terminates_witness :
    run (bytes "A +") = .error .syntaxErr ∧
    ((∃ ps', parse ParseState.fresh (FILE.open (bytes "A +")) = .ok ps') ∨
      (∃ e, parse ParseState.fresh (FILE.open (bytes "A +")) = .error e ∧
        e ≠ .outOfFuel)) :=
  ⟨by decide!, (parse_terminates ParseState.fresh (FILE.open (bytes "A +"))).1⟩


/-! ## The failures of the parser where the scanner always returns -/

theorem expect_failure (P : ParseState → Prop)
    (hT : ∀ ps, P ps → ∃ ps', next_token ps = .ok ps')
    (ps : ParseState) (tok : Nat) (e : Failure) (hp : P ps)
    (h : parse_expect ps tok = .error e) : e = .syntaxErr := by
  unfold parse_expect at h
  by_cases ht : ps.token ≠ tok
  · rw [if_pos ht] at h
    simp only [Except.error.injEq] at h
    exact h.symm
  · rw [if_neg ht] at h
    obtain ⟨ps', h'⟩ := hT ps hp
    rw [h'] at h
    cases h

theorem single_var_failure (i : Nat) (e : Failure) (h : single_var i = .error e) :
    e = .assertLen := by
  by_cases hi : i + 1 < MAXIDENT
  · rw [single_var_eq i hi] at h; cases h
  · rw [single_var_error i (Nat.le_of_not_lt hi)] at h
    simp only [Except.error.injEq] at h
    exact h.symm

theorem nots_failure (P : ParseState → Prop)
    (hP : ∀ ps ps', P ps → next_token ps = .ok ps' → P ps')
    (hT : ∀ ps, P ps → ∃ ps', next_token ps = .ok ps') :
    ∀ n ps c e, P ps → parse_factor_nots n ps c = .error e →
      e = .syntaxErr ∨ e = .assertLen ∨ e = .outOfFuel := by
  intro n
  induction n with
  | zero =>
    intro ps c e _ h
    simp only [parse_factor_nots, Except.error.injEq] at h
    exact Or.inr (Or.inr h.symm)
  | succ n ih =>
    intro ps c e hp h
    rw [parse_factor_nots] at h
    by_cases hn : ps.token = TOK_NOT
    · rw [if_pos hn] at h
      cases h1 : parse_expect ps TOK_NOT with
      | error e1 =>
        rw [h1] at h
        simp only [Except.error.injEq] at h
        subst h
        exact Or.inl (expect_failure P hT ps _ _ hp h1)
      | ok ps1 =>
        rw [h1] at h
        exact ih ps1 _ e (hP ps ps1 hp (parse_expect_ok _ _ _ h1).2) h
    · rw [if_neg hn] at h
      cases h

theorem primary_failure (P : ParseState → Prop)
    (hP : ∀ ps ps', P ps → next_token ps = .ok ps' → P ps')
    (hT : ∀ ps, P ps → ∃ ps', next_token ps = .ok ps')
    (expr : ParseState → Except Failure (TruthTab × ParseState))
    (hexpr_ok : ∀ q t q', expr q = .ok (t, q') → P q → P q')
    (hexpr : ∀ q e, P q → expr q = .error e →
      e = .syntaxErr ∨ e = .assertLen ∨ e = .outOfFuel)
    (ps : ParseState) (e : Failure) (hp : P ps) (h : primary expr ps = .error e) :
    e = .syntaxErr ∨ e = .assertLen ∨ e = .outOfFuel := by
  unfold primary at h
  by_cases hid : isident ps.token = true
  · rw [if_pos hid] at h
    cases h1 : single_var ps.token with
    | error e1 =>
      rw [h1] at h
      simp only [Except.error.injEq] at h
      subst h
      exact Or.inr (Or.inl (single_var_failure _ _ h1))
    | ok t =>
      rw [h1] at h
      dsimp only at h
      cases h2 : parse_expect ps ps.token with
      | error e2 =>
        rw [h2] at h
        simp only [Except.error.injEq] at h
        subst h
        exact Or.inl (expect_failure P hT ps _ _ hp h2)
      | ok q => rw [h2] at h; cases h
  · rw [if_neg hid] at h
    by_cases hF : ps.token = TOK_FALSE
    · rw [if_pos hF, constant_eq] at h
      dsimp only at h
      cases h2 : parse_expect ps TOK_FALSE with
      | error e2 =>
        rw [h2] at h
        simp only [Except.error.injEq] at h
        subst h
        exact Or.inl (expect_failure P hT ps _ _ hp h2)
      | ok q => rw [h2] at h; cases h
    · rw [if_neg hF] at h
      by_cases hT' : ps.token = TOK_TRUE
      · rw [if_pos hT', constant_eq] at h
        dsimp only at h
        cases h2 : parse_expect ps TOK_TRUE with
        | error e2 =>
          rw [h2] at h
          simp only [Except.error.injEq] at h
          subst h
          exact Or.inl (expect_failure P hT ps _ _ hp h2)
        | ok q => rw [h2] at h; cases h
      · rw [if_neg hT'] at h
        cases h1 : parse_expect ps TOK_LPAREN with
        | error e1 =>
          rw [h1] at h
          simp only [Except.error.injEq] at h
          subst h
          exact Or.inl (expect_failure P hT ps _ _ hp h1)
        | ok q =>
          rw [h1] at h
          dsimp only at h
          have hq : P q := hP ps q hp (parse_expect_ok _ _ _ h1).2
          cases h2 : expr q with
          | error e2 =>
            rw [h2] at h
            simp only [Except.error.injEq] at h
            subst h
            exact hexpr q _ hq h2
          | ok r =>
            obtain ⟨t, q2⟩ := r
            rw [h2] at h
            dsimp only at h
            cases h3 : parse_expect q2 TOK_RPAREN with
            | error e3 =>
              rw [h3] at h
              simp only [Except.error.injEq] at h
              subst h
              exact Or.inl (expect_failure P hT q2 _ _ (hexpr_ok q t q2 h2 hq) h3)
            | ok q3 => rw [h3] at h; cases h

theorem term_op_failure (P : ParseState → Prop)
    (hP : ∀ ps ps', P ps → next_token ps = .ok ps' → P ps')
    (hT : ∀ ps, P ps → ∃ ps', next_token ps = .ok ps')
    (factor : ParseState → Except Failure (TruthTab × ParseState))
    (hfactor : ∀ q e, P q → factor q = .error e →
      e = .syntaxErr ∨ e = .assertLen ∨ e = .outOfFuel)
    (lhs : TruthTab) (ps : ParseState) (e : Failure) (hp : P ps)
    (h : term_op factor lhs ps = .error e) :
    e = .syntaxErr ∨ e = .assertLen ∨ e = .outOfFuel := by
  unfold term_op at h
  by_cases hand : ps.token = TOK_AND
  · rw [if_pos hand] at h
    cases h1 : parse_expect ps TOK_AND with
    | error e1 =>
      rw [h1] at h
      simp only [Except.error.injEq] at h
      subst h
      exact Or.inl (expect_failure P hT ps _ _ hp h1)
    | ok q => rw [h1] at h; cases h
  · rw [if_neg hand] at h
    by_cases hxor : ps.token = TOK_XOR
    · rw [if_pos hxor] at h
      cases h1 : parse_expect ps TOK_XOR with
      | error e1 =>
        rw [h1] at h
        simp only [Except.error.injEq] at h
        subst h
        exact Or.inl (expect_failure P hT ps _ _ hp h1)
      | ok q =>
        rw [h1] at h
        dsimp only at h
        cases h2 : factor q with
        | error e2 =>
          rw [h2] at h
          simp only [Except.error.injEq] at h
          subst h
          exact hfactor q _ (hP ps q hp (parse_expect_ok _ _ _ h1).2) h2
        | ok r => rw [h2] at h; cases h
    · rw [if_neg hxor] at h
      cases h

theorem term_op_preserves (P : ParseState → Prop)
    (hP : ∀ ps ps', P ps → next_token ps = .ok ps' → P ps')
    (factor : ParseState → Except Failure (TruthTab × ParseState))
    (hfactor : ∀ q t q', factor q = .ok (t, q') → P q → P q')
    (lhs : TruthTab) (ps : ParseState) (lhs1 : TruthTab) (ps1 : ParseState) (hp : P ps)
    (h : term_op factor lhs ps = .ok (lhs1, ps1)) : P ps1 := by
  unfold term_op at h
  by_cases hand : ps.token = TOK_AND
  · rw [if_pos hand] at h
    cases h1 : parse_expect ps TOK_AND with
    | error e1 => rw [h1] at h; cases h
    | ok q =>
      rw [h1] at h
      simp only [Except.ok.injEq, Prod.mk.injEq] at h
      rw [← h.2]
      exact hP ps q hp (parse_expect_ok _ _ _ h1).2
  · rw [if_neg hand] at h
    by_cases hxor : ps.token = TOK_XOR
    · rw [if_pos hxor] at h
      cases h1 : parse_expect ps TOK_XOR with
      | error e1 => rw [h1] at h; cases h
      | ok q =>
        rw [h1] at h
        dsimp only at h
        cases h2 : factor q with
        | error e2 => rw [h2] at h; cases h
        | ok r =>
          obtain ⟨rhs, q2⟩ := r
          rw [h2] at h
          simp only [Except.ok.injEq, Prod.mk.injEq] at h
          rw [← h.2]
          exact hfactor q rhs q2 h2 (hP ps q hp (parse_expect_ok _ _ _ h1).2)
    · rw [if_neg hxor] at h
      simp only [Except.ok.injEq, Prod.mk.injEq] at h
      rw [← h.2]
      exact hp

/-- Where the scanner always returns, the parser stops only with the syntax
error, with the assertion on the table length, or for lack of fuel. -/
theorem parse_failures (P : ParseState → Prop)
    (hP : ∀ ps ps', P ps → next_token ps = .ok ps' → P ps')
    (hT : ∀ ps, P ps → ∃ ps', next_token ps = .ok ps') :
    ∀ n,
      (∀ ps e, P ps → parse_expr n ps = .error e →
        e = .syntaxErr ∨ e = .assertLen ∨ e = .outOfFuel) ∧
      (∀ lhs ps e, P ps → parse_expr_loop n lhs ps = .error e →
        e = .syntaxErr ∨ e = .assertLen ∨ e = .outOfFuel) ∧
      (∀ ps e, P ps → parse_term n ps = .error e →
        e = .syntaxErr ∨ e = .assertLen ∨ e = .outOfFuel) ∧
      (∀ lhs ps e, P ps → parse_term_loop n lhs ps = .error e →
        e = .syntaxErr ∨ e = .assertLen ∨ e = .outOfFuel) ∧
      (∀ ps e, P ps → parse_factor n ps = .error e →
        e = .syntaxErr ∨ e = .assertLen ∨ e = .outOfFuel) := by
  intro n
  induction n with
  | zero =>
    refine ⟨?_, ?_, ?_, ?_, ?_⟩
    · intro ps e _ h
      simp only [parse_expr, Except.error.injEq] at h
      exact Or.inr (Or.inr h.symm)
    · intro lhs ps e _ h
      simp only [parse_expr_loop, Except.error.injEq] at h
      exact Or.inr (Or.inr h.symm)
    · intro ps e _ h
      simp only [parse_term, Except.error.injEq] at h
      exact Or.inr (Or.inr h.symm)
    · intro lhs ps e _ h
      simp only [parse_term_loop, Except.error.injEq] at h
      exact Or.inr (Or.inr h.symm)
    · intro ps e _ h
      simp only [parse_factor, Except.error.injEq] at h
      exact Or.inr (Or.inr h.symm)
  | succ n ih =>
    obtain ⟨ihe, ihel, iht, ihtl, ihf⟩ := ih
    have pres := parse_preserves P hP n
    refine ⟨?_, ?_, ?_, ?_, ?_⟩
    · intro ps e hp h
      rw [parse_expr] at h
      cases h1 : parse_term n ps with
      | error e1 =>
        rw [h1] at h
        simp only [Except.error.injEq] at h
        subst h
        exact iht ps _ hp h1
      | ok r =>
        obtain ⟨lhs, ps1⟩ := r
        rw [h1] at h
        exact ihel lhs ps1 e (pres.2.2.1 _ _ _ h1 hp) h
    · intro lhs ps e hp h
      rw [parse_expr_loop] at h
      by_cases hor : ps.token = TOK_OR
      · rw [if_pos hor] at h
        cases h1 : parse_expect ps TOK_OR with
        | error e1 =>
          rw [h1] at h
          simp only [Except.error.injEq] at h
          subst h
          exact Or.inl (expect_failure P hT ps _ _ hp h1)
        | ok ps1 =>
          rw [h1] at h
          dsimp only at h
          have hp1 : P ps1 := hP ps ps1 hp (parse_expect_ok _ _ _ h1).2
          cases h2 : parse_term n ps1 with
          | error e2 =>
            rw [h2] at h
            simp only [Except.error.injEq] at h
            subst h
            exact iht ps1 _ hp1 h2
          | ok r =>
            obtain ⟨rhs, ps2⟩ := r
            rw [h2] at h
            exact ihel _ ps2 e (pres.2.2.1 _ _ _ h2 hp1) h
      · rw [if_neg hor] at h
        cases h
    · intro ps e hp h
      rw [parse_term] at h
      cases h1 : parse_factor n ps with
      | error e1 =>
        rw [h1] at h
        simp only [Except.error.injEq] at h
        subst h
        exact ihf ps _ hp h1
      | ok r =>
        obtain ⟨lhs, ps1⟩ := r
        rw [h1] at h
        exact ihtl lhs ps1 e (pres.2.2.2.2 _ _ _ h1 hp) h
    · intro lhs ps e hp h
      rw [parse_term_loop_succ] at h
      cases h1 : term_op (parse_factor n) lhs ps with
      | error e1 =>
        rw [h1] at h
        simp only [Except.error.injEq] at h
        subst h
        exact term_op_failure P hP hT _ (fun q e hq hqe => ihf q e hq hqe) lhs ps _ hp h1
      | ok r =>
        obtain ⟨lhs1, ps1⟩ := r
        rw [h1] at h
        dsimp only at h
        have hp1 : P ps1 := term_op_preserves P hP _
          (fun q t q' hq => pres.2.2.2.2 q t q' hq) lhs ps lhs1 ps1 hp h1
        by_cases hs : starts_factor ps1.token = true
        · rw [if_pos hs] at h
          cases h2 : parse_factor n ps1 with
          | error e2 =>
            rw [h2] at h
            simp only [Except.error.injEq] at h
            subst h
            exact ihf ps1 _ hp1 h2
          | ok r =>
            obtain ⟨rhs, ps2⟩ := r
            rw [h2] at h
            exact ihtl _ ps2 e (pres.2.2.2.2 _ _ _ h2 hp1) h
        · rw [if_neg hs] at h
          cases h
    · intro ps e hp h
      rw [parse_factor_succ] at h
      cases h1 : parse_factor_nots (n + 1) ps 0 with
      | error e1 =>
        rw [h1] at h
        simp only [Except.error.injEq] at h
        subst h
        exact nots_failure P hP hT _ ps 0 _ hp h1
      | ok r =>
        obtain ⟨c, ps1⟩ := r
        rw [h1] at h
        dsimp only at h
        have hp1 : P ps1 := parse_factor_nots_preserves P hP _ _ _ _ _ hp h1
        cases h2 : primary (parse_expr n) ps1 with
        | error e2 =>
          rw [h2] at h
          simp only [Except.error.injEq] at h
          subst h
          exact primary_failure P hP hT _ (fun q t q' hq => pres.1 q t q' hq)
            (fun q e hq hqe => ihe q e hq hqe) ps1 _ hp1 h2
        | ok r =>
          obtain ⟨t, ps2⟩ := r
          rw [h2] at h
          cases h


/-! ## C20: the assertion of `get_id` -/

/-- The failures of `parse`: the syntax error, the assertion on the table
length and the assertion on the end of the stream. -/
theorem parse_failure_kinds (ps : ParseState) (s : List Nat) (e : Failure)
    (h : parse ps (FILE.open s) = .error e) :
    e = .syntaxErr ∨ e = .assertLen ∨ e = .assertFeof := by
  have hfuel := parse_fuel_enough ps (FILE.open s)
  have hne : e ≠ .outOfFuel := by
    intro he
    rw [he] at h
    exact hfuel h
  unfold parse at h
  dsimp only at h
  obtain ⟨ps1, h1⟩ := next_token_succeeds s _ (seen_start ps s)
  have hs1 : Seen s ps1 := next_token_seen s _ _ (seen_start ps s) h1
  rw [h1] at h
  dsimp only at h
  cases h2 : parse_expr (parse_fuel (FILE.open s).buf.length) ps1 with
  | error e2 =>
    rw [h2] at h
    simp only [Except.error.injEq] at h
    subst h
    rcases (parse_failures (Seen s) (next_token_seen s) (next_token_succeeds s) _).1
      ps1 _ hs1 h2 with h' | h' | h'
    · exact Or.inl h'
    · exact Or.inr (Or.inl h')
    · exact absurd h' hne
  | ok r =>
    obtain ⟨t, ps2⟩ := r
    rw [h2] at h
    dsimp only at h
    have hs2 : Seen s ps2 :=
      (parse_preserves (Seen s) (next_token_seen s) _).1 _ _ _ h2 hs1
    cases h3 : parse_expect { ps2 with result := t } MAXIDENT with
    | error e3 =>
      rw [h3] at h
      simp only [Except.error.injEq] at h
      subst h
      exact Or.inl (expect_failure (Seen s) (next_token_succeeds s) _ _ _
        (seen_result s ps2 t hs2) h3)
    | ok ps3 =>
      rw [h3] at h
      dsimp only at h
      by_cases hf : feof ps3.inputf = true
      · rw [if_pos hf] at h; cases h
      · rw [if_neg hf] at h
        simp only [Except.error.injEq] at h
        exact Or.inr (Or.inr h.symm)

/-- C20. On every input the assertion of `get_id` never fails during `parse`.
The scanner calls `get_id` for the letters `A` to `Z` only; the invariant
`Seen` holds when `parse` starts and after every call of `next_token`, and
where it holds the stored identifiers are pairwise distinct letters, so
`ident_cnt` is at most 26, `next_token` returns, and `get_id` on a letter
returns an index below 26 and leaves `ident_cnt` at most 26. -/
theorem get_id_assertion_holds (ps : ParseState) (s : List Nat) :
    parse ps (FILE.open s) ≠ .error .assertIdent ∧
    Seen s { ps with ident_cnt := 0, inputf := FILE.open s } ∧
    (∀ q q', Seen s q → next_token q = .ok q' → Seen s q') ∧
    (∀ q, Seen s q →
      q.idents.Nodup ∧ (∀ c ∈ q.idents, is_upper c) ∧ q.ident_cnt ≤ MAXIDENT ∧
      (∃ q', next_token q = .ok q') ∧
      (∀ ch, is_upper ch →
        ∃ i q', get_id q ch = .ok (i, q') ∧ i < MAXIDENT ∧ q'.ident_cnt ≤ MAXIDENT)) ∧
    (∀ (q : ParseState) ch rest, ¬ is_upper ch → ¬ is_space ch →
      next_token_from q (ch :: rest) =
        .ok { q with inputf := { buf := rest, eof := q.inputf.eof },
                     token := char_token ch }) := by
  refine ⟨?_, seen_start ps s, fun q q' hq h => next_token_seen s q q' hq h, ?_, ?_⟩
  · intro h
    rcases parse_failure_kinds ps s _ h with h' | h' | h' <;> cases h'
  · intro q hq
    obtain ⟨hnd, hup⟩ := seen_idents_upper s q hq
    have hcnt : q.ident_cnt ≤ MAXIDENT := by
      rw [← idents_length]
      exact upper_nodup_length _ hnd hup
    refine ⟨hnd, hup, hcnt, next_token_succeeds s q hq, ?_⟩
    intro ch hch
    obtain ⟨i, q', hg⟩ := get_id_upper_ok q ch hnd hup hch
    refine ⟨i, q', hg, ?_⟩
    rcases get_id_ok _ _ _ _ hg with ⟨-, -, hi, rfl⟩ | ⟨-, hi, hroom, -, hc, -⟩
    · exact ⟨by omega, hcnt⟩
    · exact ⟨by omega, by omega⟩
  · intro q ch rest hu hs
    exact next_token_from_other q ch rest hs hu

/-- C20 at a text with all 26 letters: `parse` stops at the assertion on the
table length, not at the one of `get_id`. -/
theorem get_id_assertion_holds_witness :
    run (bytes "ABCDEFGHIJKLMNOPQRSTUVWXYZ") = .error .assertLen ∧
    parse ParseState.fresh (FILE.open (bytes "ABCDEFGHIJKLMNOPQRSTUVWXYZ")) ≠
      .error .assertIdent :=
  ⟨by decide!,
    (get_id_assertion_holds ParseState.fresh (bytes "ABCDEFGHIJKLMNOPQRSTUVWXYZ")).1⟩


/-! ## The parser under a change of the state that the scanner respects -/

theorem expect_commute (f : ParseState → ParseState)
    (htok : ∀ ps, (f ps).token = ps.token)
    (hnext : ∀ ps, next_token (f ps) = (next_token ps).map f)
    (ps : ParseState) (tok : Nat) :
    parse_expect (f ps) tok = (parse_expect ps tok).map f := by
  unfold parse_expect
  rw [htok]
  by_cases h : ps.token ≠ tok
  · rw [if_pos h, if_pos h]; rfl
  · rw [if_neg h, if_neg h]; exact hnext ps

theorem nots_commute (f : ParseState → ParseState)
    (htok : ∀ ps, (f ps).token = ps.token)
    (hnext : ∀ ps, next_token (f ps) = (next_token ps).map f) :
    ∀ n ps c, parse_factor_nots n (f ps) c =
      (parse_factor_nots n ps c).map (fun r => (r.1, f r.2)) := by
  intro n
  induction n with
  | zero => intro ps c; rfl
  | succ n ih =>
    intro ps c
    rw [parse_factor_nots, parse_factor_nots, htok]
    by_cases hn : ps.token = TOK_NOT
    · rw [if_pos hn, if_pos hn, expect_commute f htok hnext]
      cases h1 : parse_expect ps TOK_NOT with
      | error e => rfl
      | ok ps1 => exact ih ps1 _
    · rw [if_neg hn, if_neg hn]; rfl

theorem primary_commute (f : ParseState → ParseState)
    (htok : ∀ ps, (f ps).token = ps.token)
    (hnext : ∀ ps, next_token (f ps) = (next_token ps).map f)
    (expr : ParseState → Except Failure (TruthTab × ParseState))
    (hexpr : ∀ q, expr (f q) = (expr q).map (fun r => (r.1, f r.2)))
    (ps : ParseState) :
    primary expr (f ps) = (primary expr ps).map (fun r => (r.1, f r.2)) := by
  unfold primary
  rw [htok]
  by_cases hid : isident ps.token = true
  · rw [if_pos hid, if_pos hid]
    cases h1 : single_var ps.token with
    | error e => rfl
    | ok t =>
      dsimp only
      rw [expect_commute f htok hnext]
      cases h2 : parse_expect ps ps.token with
      | error e => rfl
      | ok q => rfl
  · rw [if_neg hid, if_neg hid]
    by_cases hF : ps.token = TOK_FALSE
    · rw [if_pos hF, if_pos hF, constant_eq]
      dsimp only
      rw [expect_commute f htok hnext]
      cases h2 : parse_expect ps TOK_FALSE with
      | error e => rfl
      | ok q => rfl
    · rw [if_neg hF, if_neg hF]
      by_cases hT : ps.token = TOK_TRUE
      · rw [if_pos hT, if_pos hT, constant_eq]
        dsimp only
        rw [expect_commute f htok hnext]
        cases h2 : parse_expect ps TOK_TRUE with
        | error e => rfl
        | ok q => rfl
      · rw [if_neg hT, if_neg hT, expect_commute f htok hnext]
        cases h1 : parse_expect ps TOK_LPAREN with
        | error e => rfl
        | ok q =>
          dsimp only [Except.map]
          rw [hexpr q]
          cases h2 : expr q with
          | error e => rfl
          | ok r =>
            obtain ⟨t, q2⟩ := r
            dsimp only [Except.map]
            rw [expect_commute f htok hnext]
            cases h3 : parse_expect q2 TOK_RPAREN with
            | error e => rfl
            | ok q3 => rfl

theorem term_op_commute (f : ParseState → ParseState)
    (htok : ∀ ps, (f ps).token = ps.token)
    (hnext : ∀ ps, next_token (f ps) = (next_token ps).map f)
    (factor : ParseState → Except Failure (TruthTab × ParseState))
    (hfactor : ∀ q, factor (f q) = (factor q).map (fun r => (r.1, f r.2)))
    (lhs : TruthTab) (ps : ParseState) :
    term_op factor lhs (f ps) = (term_op factor lhs ps).map (fun r => (r.1, f r.2)) := by
  unfold term_op
  rw [htok]
  by_cases hand : ps.token = TOK_AND
  · rw [if_pos hand, if_pos hand, expect_commute f htok hnext]
    cases h1 : parse_expect ps TOK_AND with
    | error e => rfl
    | ok q => rfl
  · rw [if_neg hand, if_neg hand]
    by_cases hxor : ps.token = TOK_XOR
    · rw [if_pos hxor, if_pos hxor, expect_commute f htok hnext]
      cases h1 : parse_expect ps TOK_XOR with
      | error e => rfl
      | ok q =>
        dsimp only [Except.map]
        rw [hfactor q]
        cases h2 : factor q with
        | error e => rfl
        | ok r => rfl
    · rw [if_neg hxor, if_neg hxor]; rfl

/-- A change of the state that keeps the lookahead token and that `next_token`
respects goes through the parser: every function gives the same result, on
the changed state. -/
theorem parse_commute (f : ParseState → ParseState)
    (htok : ∀ ps, (f ps).token = ps.token)
    (hnext : ∀ ps, next_token (f ps) = (next_token ps).map f) :
    ∀ n,
      (∀ ps, parse_expr n (f ps) = (parse_expr n ps).map (fun r => (r.1, f r.2))) ∧
      (∀ lhs ps, parse_expr_loop n lhs (f ps) =
        (parse_expr_loop n lhs ps).map (fun r => (r.1, f r.2))) ∧
      (∀ ps, parse_term n (f ps) = (parse_term n ps).map (fun r => (r.1, f r.2))) ∧
      (∀ lhs ps, parse_term_loop n lhs (f ps) =
        (parse_term_loop n lhs ps).map (fun r => (r.1, f r.2))) ∧
      (∀ ps, parse_factor n (f ps) = (parse_factor n ps).map (fun r => (r.1, f r.2))) := by
  intro n
  induction n with
  | zero =>
    refine ⟨?_, ?_, ?_, ?_, ?_⟩
    · intro ps; rw [parse_expr, parse_expr]; rfl
    · intro lhs ps; rw [parse_expr_loop, parse_expr_loop]; rfl
    · intro ps; rw [parse_term, parse_term]; rfl
    · intro lhs ps; rw [parse_term_loop, parse_term_loop]; rfl
    · intro ps; rw [parse_factor, parse_factor]; rfl
  | succ n ih =>
    obtain ⟨ihe, ihel, iht, ihtl, ihf⟩ := ih
    refine ⟨?_, ?_, ?_, ?_, ?_⟩
    · intro ps
      rw [parse_expr, parse_expr, iht ps]
      cases h1 : parse_term n ps with
      | error e => rfl
      | ok r =>
        obtain ⟨lhs, ps1⟩ := r
        exact ihel lhs ps1
    · intro lhs ps
      rw [parse_expr_loop, parse_expr_loop, htok]
      by_cases hor : ps.token = TOK_OR
      · rw [if_pos hor, if_pos hor, expect_commute f htok hnext]
        cases h1 : parse_expect ps TOK_OR with
        | error e => rfl
        | ok ps1 =>
          dsimp only [Except.map]
          rw [iht ps1]
          cases h2 : parse_term n ps1 with
          | error e => rfl
          | ok r =>
            obtain ⟨rhs, ps2⟩ := r
            exact ihel _ ps2
      · rw [if_neg hor, if_neg hor]; rfl
    · intro ps
      rw [parse_term, parse_term, ihf ps]
      cases h1 : parse_factor n ps with
      | error e => rfl
      | ok r =>
        obtain ⟨lhs, ps1⟩ := r
        exact ihtl lhs ps1
    · intro lhs ps
      rw [parse_term_loop_succ, parse_term_loop_succ,
        term_op_commute f htok hnext (parse_factor n) ihf lhs ps]
      cases h1 : term_op (parse_factor n) lhs ps with
      | error e => rfl
      | ok r =>
        obtain ⟨lhs1, ps1⟩ := r
        dsimp only [Except.map]
        rw [htok]
        by_cases hs : starts_factor ps1.token = true
        · rw [if_pos hs, if_pos hs, ihf ps1]
          cases h2 : parse_factor n ps1 with
          | error e => rfl
          | ok r =>
            obtain ⟨rhs, ps2⟩ := r
            exact ihtl _ ps2
        · rw [if_neg hs, if_neg hs]
    · intro ps
      rw [parse_factor_succ, parse_factor_succ, nots_commute f htok hnext]
      cases h1 : parse_factor_nots (n + 1) ps 0 with
      | error e => rfl
      | ok r =>
        obtain ⟨c, ps1⟩ := r
        dsimp only [Except.map]
        rw [primary_commute f htok hnext (parse_expr n) ihe ps1]
        cases h2 : primary (parse_expr n) ps1 with
        | error e => rfl
        | ok r => rfl


/-! ## C13: whitespace -/

theorem get_id_inputf (ps : ParseState) (g : FILE) (ch : Nat) :
    get_id { ps with inputf := g } ch =
      (get_id ps ch).map (fun r => (r.1, { r.2 with inputf := g })) := by
  unfold get_id
  rw [get_id_loop_congr ps { ps with inputf := g } rfl]
  cases get_id_loop ps ch ps.ident_cnt 0 with
  | some i => rfl
  | none =>
    dsimp only
    by_cases h : ps.ident_cnt < MAXIDENT
    · rw [if_pos h, if_pos h]; rfl
    · rw [if_neg h, if_neg h]; rfl

theorem strip_space (ch : Nat) (rest : List Nat) (h : is_space ch) :
    strip (ch :: rest) = strip rest := by
  unfold strip
  rw [List.filter_cons_of_neg (by simpa using h)]

theorem strip_other (ch : Nat) (rest : List Nat) (h : ¬ is_space ch) :
    strip (ch :: rest) = ch :: strip rest := by
  unfold strip
  rw [List.filter_cons_of_pos (by simpa using h)]

theorem strip_append (a b : List Nat) : strip (a ++ b) = strip a ++ strip b := by
  unfold strip
  rw [List.filter_append]

theorem strip_length_le (s : List Nat) : (strip s).length ≤ s.length := by
  unfold strip
  exact List.length_filter_le _ _

/-- The scanner reads the same token from a stream without the skipped
characters. -/
theorem next_token_from_strip (l : List Nat) (ps : ParseState) :
    next_token_from (unspace ps) (strip l) = (next_token_from ps l).map unspace := by
  induction l with
  | nil => rfl
  | cons ch rest ih =>
    by_cases hs : is_space ch
    · rw [strip_space ch rest hs, next_token_from_space ps ch rest hs]
      exact ih
    · rw [strip_other ch rest hs]
      by_cases hu : is_upper ch
      · rw [next_token_from_upper _ ch _ hu, next_token_from_upper ps ch rest hu]
        have e1 := get_id_inputf ps { buf := strip rest, eof := ps.inputf.eof } ch
        have e2 := get_id_inputf ps { buf := rest, eof := ps.inputf.eof } ch
        have e3 : ({ unspace ps with
            inputf := { buf := strip rest, eof := (unspace ps).inputf.eof } } : ParseState) =
            { ps with inputf := { buf := strip rest, eof := ps.inputf.eof } } := rfl
        rw [e3, e1, e2]
        cases get_id ps ch with
        | error e => rfl
        | ok r => rfl
      · rw [next_token_from_other _ ch _ hs hu, next_token_from_other ps ch rest hs hu]
        rfl

theorem next_token_unspace (ps : ParseState) :
    next_token (unspace ps) = (next_token ps).map unspace := by
  unfold next_token
  exact next_token_from_strip ps.inputf.buf ps

theorem pending_unspace (ps : ParseState) : pending (unspace ps) ≤ pending ps := by
  unfold pending
  have : (unspace ps).token = ps.token := rfl
  rw [this]
  split
  · exact Nat.le_refl _
  · have := strip_length_le ps.inputf.buf
    show (strip ps.inputf.buf).length + 1 ≤ ps.inputf.buf.length + 1
    omega

theorem outcome_unspace (ps : ParseState) :
    outcome (.ok (unspace ps)) = outcome (.ok ps) := rfl

/-- The program has the same outcome on a text and on the text without the
skipped characters. -/
theorem parse_strip (ps : ParseState) (s : List Nat) :
    outcome (parse ps (FILE.open (strip s))) = outcome (parse ps (FILE.open s)) := by
  have htok : ∀ q, (unspace q).token = q.token := fun _ => rfl
  unfold parse
  dsimp only
  have e0 : ({ ps with ident_cnt := 0, inputf := FILE.open (strip s) } : ParseState) =
      unspace { ps with ident_cnt := 0, inputf := FILE.open s } := rfl
  rw [e0, next_token_unspace]
  cases h1 : next_token { ps with ident_cnt := 0, inputf := FILE.open s } with
  | error e => rfl
  | ok p1 =>
    dsimp only [Except.map]
    have hlen1 : (FILE.open (strip s)).buf.length = (strip s).length := rfl
    have hlen2 : (FILE.open s).buf.length = s.length := rfl
    rw [hlen1, hlen2]
    have hn1 : next_token (unspace { ps with ident_cnt := 0, inputf := FILE.open s }) =
        .ok (unspace p1) := by
      rw [next_token_unspace, h1]; rfl
    have hpend : pending (unspace p1) ≤ (strip s).length := next_token_pending _ _ hn1
    have hcomm := (parse_commute unspace htok next_token_unspace
      (parse_fuel (strip s).length)).1 p1
    have hno : parse_expr (parse_fuel (strip s).length) (unspace p1) ≠ .error .outOfFuel :=
      (parse_no_fuel_error _).1 _ (by unfold parse_fuel; omega)
    have hno1 : parse_expr (parse_fuel (strip s).length) p1 ≠ .error .outOfFuel := by
      intro hc
      rw [hcomm, hc] at hno
      exact hno rfl
    have hstab := (parse_stable _).1 p1 hno1 (parse_fuel s.length)
      (by unfold parse_fuel; have := strip_length_le s; omega)
    rw [hcomm, hstab]
    cases h2 : parse_expr (parse_fuel (strip s).length) p1 with
    | error e => rfl
    | ok r =>
      obtain ⟨t, p2⟩ := r
      dsimp only [Except.map]
      have e2 : ({ unspace p2 with result := t } : ParseState) =
          unspace { p2 with result := t } := rfl
      rw [e2, expect_commute unspace htok next_token_unspace]
      cases h3 : parse_expect { p2 with result := t } MAXIDENT with
      | error e => rfl
      | ok p3 =>
        dsimp only [Except.map]
        have e3 : feof (unspace p3).inputf = feof p3.inputf := rfl
        rw [e3]
        by_cases hf : feof p3.inputf = true
        · rw [if_pos hf, if_pos hf]; rfl
        · rw [if_neg hf, if_neg hf]

theorem strip_of_edits (s s' : List Nat) (h : SpaceEdits s s') : strip s' = strip s := by
  induction h with
  | same => rfl
  | insert a b c _ hc ih =>
    rw [← ih, strip_append, strip_append, strip_space c b hc]
  | delete a b c _ hc ih =>
    rw [← ih, strip_append, strip_append, strip_space c b hc]

/-- C13. Whitespace is insignificant: for every input `s` and every `s'` made
from `s` by inserting or deleting space, tab, CR or LF characters at any
positions, `parse` has the same outcome on `s'` as on `s`: the same
identifier list and the same table, or the same failure. -/
theorem whitespace_insignificant (ps : ParseState) (s s' : List Nat)
    (h : SpaceEdits s s') :
    outcome (parse ps (FILE.open s')) = outcome (parse ps (FILE.open s)) := by
  rw [← parse_strip ps s', ← parse_strip ps s, strip_of_edits s s' h]

/-- C13 at `A+B` and `A + B` with a tab and a line end added. -/
theorem whitespace_insignificant_witness :
    SpaceEdits (bytes "A+B") (bytes "A\t+ B\n") ∧
    outcome (parse ParseState.fresh (FILE.open (bytes "A\t+ B\n"))) =
      outcome (parse ParseState.fresh (FILE.open (bytes "A+B"))) ∧
    run (bytes "A+B") = .ok ([65, 66], [0, 1, 1, 1]) := by
  have h : SpaceEdits (bytes "A+B") (bytes "A\t+ B\n") :=
    .insert [65] [43, 32, 66, 10] 9 (.insert [65, 43] [66, 10] 32
      (.insert [65, 43, 66] [] 10 .same (by decide)) (by decide)) (by decide)
  exact ⟨h, whitespace_insignificant ParseState.fresh (bytes "A+B") (bytes "A\t+ B\n") h,
    by decide!⟩


/-! ## One step of the scanner, by cases -/

theorem next_token_cases (p p' : ParseState) (hroom : Room p) (h : next_token p = .ok p') :
    Room p' ∧
    (((∀ x ∈ p.inputf.buf, is_space x) ∧
      p' = { p with token := MAXIDENT, inputf := { buf := [], eof := true } }) ∨
    (∃ ws ch rest, p.inputf.buf = ws ++ ch :: rest ∧ (∀ x ∈ ws, is_space x) ∧
      ¬ is_space ch ∧ p'.inputf = { buf := rest, eof := p.inputf.eof } ∧
      ((is_upper ch ∧ p'.token < MAXIDENT) ∨
        (¬ is_upper ch ∧ p'.token = char_token ch)))) := by
  unfold Room at hroom ⊢
  unfold next_token at h
  rcases next_token_from_ok _ _ _ h with ⟨hall, rfl⟩ | ⟨ws, ch, rest, hl, hws, hch, hcase⟩
  · exact ⟨hroom, Or.inl ⟨hall, rfl⟩⟩
  · rcases hcase with ⟨hu, i, ps2, hg, rfl⟩ | ⟨hu, rfl⟩
    · rcases get_id_ok _ _ _ _ hg with ⟨-, -, hi, rfl⟩ | ⟨-, hi, hr, -, hcnt, -, hinp, -⟩
      · refine ⟨hroom, Or.inr ⟨ws, ch, rest, hl, hws, hch, rfl, Or.inl ⟨hu, ?_⟩⟩⟩
        show i < MAXIDENT
        exact Nat.lt_of_lt_of_le hi hroom
      · refine ⟨?_, Or.inr ⟨ws, ch, rest, hl, hws, hch, ?_, Or.inl ⟨hu, ?_⟩⟩⟩
        · show ps2.ident_cnt ≤ MAXIDENT
          rw [hcnt]
          exact hr
        · show ps2.inputf = _
          rw [hinp]
        · show i < MAXIDENT
          rw [hi]; exact hr
    · exact ⟨hroom, Or.inr ⟨ws, ch, rest, hl, hws, hch, rfl, Or.inr ⟨hu, rfl⟩⟩⟩

theorem next_token_room (p p' : ParseState) (hroom : Room p) (h : next_token p = .ok p') :
    Room p' := (next_token_cases p p' hroom h).1

theorem strip_eq_nil_iff (l : List Nat) : strip l = [] ↔ ∀ x ∈ l, is_space x := by
  unfold strip
  rw [List.filter_eq_nil_iff]
  constructor
  · intro h x hx
    have := h x hx
    simpa using this
  · intro h x hx
    simpa using h x hx

theorem strip_spaces_append (ws l : List Nat) (h : ∀ x ∈ ws, is_space x) :
    strip (ws ++ l) = strip l := by
  rw [strip_append, (strip_eq_nil_iff ws).mpr h, List.nil_append]

theorem next_token_from_spaces (q : ParseState) (ws l : List Nat)
    (h : ∀ x ∈ ws, is_space x) : next_token_from q (ws ++ l) = next_token_from q l := by
  induction ws with
  | nil => rfl
  | cons w ws ih =>
    rw [List.cons_append, next_token_from_space q w _ (h w (List.mem_cons_self _ _))]
    exact ih (fun x hx => h x (List.mem_cons_of_mem _ hx))


/-! ## The scanner on a text with an AND character added at its end -/

theorem and_char_token (c : Nat) (hc : c = 42 ∨ c = 38) :
    ¬ is_space c ∧ ¬ is_upper c ∧ char_token c = TOK_AND := by
  rcases hc with rfl | rfl <;> refine ⟨by decide, by decide, by decide⟩

theorem get_id_ok_inputf (p : ParseState) (g : FILE) (ch i : Nat) (p2 : ParseState)
    (h : get_id { p with inputf := g } ch = .ok (i, p2)) :
    ∃ p0, get_id p ch = .ok (i, p0) ∧ p2 = { p0 with inputf := g } := by
  rw [get_id_inputf] at h
  cases h0 : get_id p ch with
  | error e => rw [h0] at h; cases h
  | ok r =>
    obtain ⟨i0, p0⟩ := r
    rw [h0] at h
    simp only [Except.map, Except.ok.injEq, Prod.mk.injEq] at h
    obtain ⟨rfl, rfl⟩ := h
    exact ⟨p0, rfl, rfl⟩

/-- One token read before the end of the text is met: on the longer text the
scanner reads the same token, or the added AND where the text ends. -/
theorem next_token_appended (c : Nat) (hc : c = 42 ∨ c = 38) (p p' : ParseState)
    (he : p.inputf.eof = false) (h : next_token p = .ok p') :
    next_token (appended c p) = .ok (shadow c p') := by
  obtain ⟨hcs, hcu, hct⟩ := and_char_token c hc
  unfold next_token at h ⊢
  have hbuf : (appended c p).inputf.buf = p.inputf.buf ++ [c] := rfl
  rw [hbuf]
  rcases next_token_from_ok _ _ _ h with ⟨hall, rfl⟩ | ⟨ws, ch, rest, hl, hws, hch, hcase⟩
  · rw [next_token_from_spaces _ _ _ hall, next_token_from_other _ c [] hcs hcu, hct]
    rfl
  · have hl' : p.inputf.buf ++ [c] = ws ++ ch :: (rest ++ [c]) := by
      rw [hl]; simp
    rw [hl', next_token_from_spaces _ _ _ hws]
    rcases hcase with ⟨hu, i, ps2, hg, rfl⟩ | ⟨hu, rfl⟩
    · obtain ⟨p0, hg0, rfl⟩ := get_id_ok_inputf p _ ch i ps2 hg
      rw [next_token_from_upper _ ch _ hu]
      have e1 : ({ appended c p with
          inputf := { buf := rest ++ [c], eof := (appended c p).inputf.eof } } : ParseState) =
          { p with inputf := { buf := rest ++ [c], eof := false } } := rfl
      rw [e1, get_id_inputf, hg0]
      simp only [Except.map, shadow, appended, he]
      rfl
    · rw [next_token_from_other _ ch _ hch hu]
      simp only [shadow, appended, he]
      rfl

theorem next_token_at_and (p : ParseState) (ht : p.token = MAXIDENT)
    (hi : p.inputf = { buf := [], eof := true }) : next_token (at_and p) = .ok p := by
  unfold next_token
  have hbuf : (at_and p).inputf.buf = [] := rfl
  rw [hbuf, next_token_from_nil]
  cases p with
  | mk ident cnt token inputf result =>
    simp only at ht hi
    subst ht hi
    rfl

theorem expect_appended (c : Nat) (hc : c = 42 ∨ c = 38) (p p' : ParseState) (tok : Nat)
    (he : p.inputf.eof = false) (h : parse_expect p tok = .ok p') :
    parse_expect (appended c p) tok = .ok (shadow c p') := by
  obtain ⟨ht, hn⟩ := parse_expect_ok _ _ _ h
  unfold parse_expect
  have : (appended c p).token = p.token := rfl
  rw [this, if_neg (by rw [ht]; exact fun h => h rfl)]
  exact next_token_appended c hc p p' he hn


/-! ## Invariants for a text that no AND character ends -/

theorem char_token_and (ch : Nat) (h : char_token ch = TOK_AND) : ch = 42 ∨ ch = 38 := by
  unfold char_token at h
  repeat' split at h
  all_goals first
    | assumption
    | (exfalso; revert h; decide)

theorem char_token_xor (ch : Nat) (h : char_token ch = TOK_XOR) : ch = 94 := by
  unfold char_token at h
  repeat' split at h
  all_goals first
    | assumption
    | (exfalso; revert h; decide)

theorem char_token_lparen (ch : Nat) (h : char_token ch = TOK_LPAREN) : ch = 40 := by
  unfold char_token at h
  repeat' split at h
  all_goals first
    | assumption
    | (exfalso; revert h; decide)

theorem char_token_rparen (ch : Nat) (h : char_token ch = TOK_RPAREN) : ch = 41 := by
  unfold char_token at h
  repeat' split at h
  all_goals first
    | assumption
    | (exfalso; revert h; decide)

theorem not_trailing_and_nil : ¬ trailing_and [] := by decide

theorem trailing_and_cons (ch : Nat) (rest : List Nat) (hch : ¬ is_space ch)
    (h : ¬ trailing_and (ch :: rest)) :
    ¬ trailing_and rest ∧ ((ch = 42 ∨ ch = 38) → strip rest ≠ []) := by
  unfold trailing_and at h ⊢
  rw [strip_other ch rest hch] at h
  by_cases hr : strip rest = []
  · rw [hr] at h ⊢
    refine ⟨by simp, ?_⟩
    intro hc
    exfalso
    apply h
    rcases hc with rfl | rfl
    · exact Or.inl rfl
    · exact Or.inr rfl
  · refine ⟨?_, fun _ => hr⟩
    obtain ⟨b, l, hl⟩ := List.exists_cons_of_ne_nil hr
    rw [hl] at h ⊢
    rw [List.getLast?_cons_cons] at h
    exact h

theorem trailing_and_spaces (ws l : List Nat) (hws : ∀ x ∈ ws, is_space x) :
    trailing_and (ws ++ l) ↔ trailing_and l := by
  unfold trailing_and
  rw [strip_spaces_append ws l hws]

/-- One token read from recognised characters that no AND character ends. -/
theorem next_token_sound_of_buf (p p' : ParseState) (hroom : Room p)
    (hrec : ∀ x ∈ p.inputf.buf, recognised x) (hand : ¬ trailing_and p.inputf.buf)
    (hend : p.inputf.eof = true → p.inputf.buf = [])
    (h : next_token p = .ok p') : Sound p' := by
  obtain ⟨hroom', hcase⟩ := next_token_cases p p' hroom h
  rcases hcase with ⟨-, rfl⟩ | ⟨ws, ch, rest, hl, hws, hch, hinp, htok⟩
  · refine ⟨hroom', ?_, ⟨not_trailing_and_nil, ?_⟩, ⟨?_, fun _ => rfl⟩⟩
    · intro _; exact ⟨rfl, rfl⟩
    · intro ht
      have ht' : MAXIDENT = TOK_AND := ht
      exact absurd ht' (by decide)
    · intro x hx; cases hx
  · have he : p.inputf.eof = false := by
      cases hpe : p.inputf.eof with
      | false => rfl
      | true =>
        have := hend hpe
        rw [hl] at this
        simp at this
    have hbuf : p'.inputf.buf = rest := by rw [hinp]
    have heof : p'.inputf.eof = false := by rw [hinp]; exact he
    have hrest : ∀ x ∈ rest, recognised x := by
      intro x hx
      apply hrec
      rw [hl]
      simp [hx]
    have hrch : recognised ch := by
      apply hrec
      rw [hl]
      simp
    have hta : ¬ trailing_and (ch :: rest) := by
      rw [hl] at hand
      exact fun hc => hand ((trailing_and_spaces ws _ hws).mpr hc)
    obtain ⟨hta1, hta2⟩ := trailing_and_cons ch rest hch hta
    refine ⟨hroom', ?_, ⟨?_, ?_⟩, ⟨?_, ?_⟩⟩
    · intro hc
      rw [heof] at hc
      cases hc
    · rw [hbuf]; exact hta1
    · intro ht
      rw [hbuf]
      rcases htok with ⟨-, hlt⟩ | ⟨-, heq⟩
      · rw [ht] at hlt
        exact absurd hlt (by decide)
      · rw [ht] at heq
        exact hta2 (char_token_and ch heq.symm)
    · rw [hbuf]; exact hrest
    · intro ht
      exfalso
      rcases htok with ⟨-, hlt⟩ | ⟨hu, heq⟩
      · rw [ht] at hlt
        exact absurd hlt (by decide)
      · rw [ht] at heq
        exact (char_token_symbol ch hch hu).mp heq.symm hrch

theorem next_token_sound (p p' : ParseState) (hs : Sound p) (h : next_token p = .ok p') :
    Sound p' := by
  obtain ⟨hroom, hend, ⟨hand, -⟩, ⟨hrec, -⟩⟩ := hs
  exact next_token_sound_of_buf p p' hroom hrec hand (fun he => (hend he).2) h

/-- In a sound state the end-of-file indicator is set exactly at the
sentinel. -/
theorem sound_eof_iff (p : ParseState) (hs : Sound p) :
    p.inputf.eof = true ↔ p.token = MAXIDENT :=
  ⟨fun h => (hs.2.1 h).1, fun h => hs.2.2.2.2 h⟩

theorem sound_eof_false (p : ParseState) (hs : Sound p) (h : p.token ≠ MAXIDENT) :
    p.inputf.eof = false := by
  cases he : p.inputf.eof with
  | false => rfl
  | true => exact absurd ((sound_eof_iff p hs).mp he) h

theorem sound_at_end (p : ParseState) (hs : Sound p) (h : p.inputf.eof = true) :
    p.token = MAXIDENT ∧ p.inputf = { buf := [], eof := true } := by
  obtain ⟨ht, hb⟩ := hs.2.1 h
  refine ⟨ht, ?_⟩
  cases hi : p.inputf with
  | mk buf eof =>
    rw [hi] at h hb
    simp only at h hb
    rw [h, hb]

/-- After an AND lookahead in a sound state the scanner does not meet the
end. -/
theorem next_token_after_and (p p' : ParseState) (hs : Sound p) (ht : p.token = TOK_AND)
    (h : next_token p = .ok p') : p'.inputf.eof = false := by
  have he : p.inputf.eof = false := sound_eof_false p hs (by rw [ht]; decide)
  obtain ⟨hroom, -, ⟨-, hfol⟩, -⟩ := hs
  have hne := hfol ht
  obtain ⟨-, hcase⟩ := next_token_cases p p' hroom h
  rcases hcase with ⟨hall, -⟩ | ⟨ws, ch, rest, hl, hws, hch, hinp, -⟩
  · exact absurd ((strip_eq_nil_iff _).mpr hall) hne
  · rw [hinp]; exact he


/-! ## The parenthesis depth along a parse -/

theorem top_xor_free_plain (d ch : Nat) (l : List Nat) (h1 : ch ≠ 40) (h2 : ch ≠ 41)
    (h3 : ch ≠ 94) : top_xor_free d (ch :: l) = top_xor_free d l := by
  rw [top_xor_free, if_neg h1, if_neg h2]
  simp [h3]

theorem top_xor_free_spaces (d : Nat) (ws l : List Nat) (hws : ∀ x ∈ ws, is_space x) :
    top_xor_free d (ws ++ l) = top_xor_free d l := by
  induction ws with
  | nil => rfl
  | cons w ws ih =>
    have hw : is_space w := hws w (List.mem_cons_self _ _)
    have h1 : w ≠ 40 := by unfold is_space at hw; omega
    have h2 : w ≠ 41 := by unfold is_space at hw; omega
    have h3 : w ≠ 94 := by unfold is_space at hw; omega
    rw [List.cons_append, top_xor_free_plain d w _ h1 h2 h3]
    exact ih (fun x hx => hws x (List.mem_cons_of_mem _ hx))

theorem paren_depth_plain (d tok : Nat) (h1 : tok ≠ TOK_LPAREN) (h2 : tok ≠ TOK_RPAREN) :
    paren_depth d tok = d := by
  unfold paren_depth
  rw [if_neg h1, if_neg h2]

theorem upper_plain (ch : Nat) (h : is_upper ch) : ch ≠ 40 ∧ ch ≠ 41 ∧ ch ≠ 94 := by
  unfold is_upper at h
  omega

/-- One token read from a text at depth `d`: the token stands at depth `d`. -/
theorem next_token_level (d : Nat) (p p' : ParseState) (hroom : Room p)
    (hfree : top_xor_free d p.inputf.buf = true) (h : next_token p = .ok p') :
    Level d p' := by
  obtain ⟨-, hcase⟩ := next_token_cases p p' hroom h
  rcases hcase with ⟨-, rfl⟩ | ⟨ws, ch, rest, hl, hws, hch, hinp, htok⟩
  · refine ⟨rfl, ?_⟩
    intro ht
    have ht' : MAXIDENT = TOK_XOR := ht
    exact absurd ht' (by decide)
  · rw [hl, top_xor_free_spaces d ws _ hws] at hfree
    have hbuf : p'.inputf.buf = rest := by rw [hinp]
    unfold Level
    rw [hbuf]
    rcases htok with ⟨hu, hlt⟩ | ⟨hu, heq⟩
    · obtain ⟨h1, h2, h3⟩ := upper_plain ch hu
      rw [top_xor_free_plain d ch rest h1 h2 h3] at hfree
      have hd : paren_depth d p'.token = d :=
        paren_depth_plain d _ (by intro hc; rw [hc] at hlt; exact absurd hlt (by decide))
          (by intro hc; rw [hc] at hlt; exact absurd hlt (by decide))
      rw [hd]
      refine ⟨hfree, ?_⟩
      intro hc
      rw [hc] at hlt
      exact absurd hlt (by decide)
    · by_cases h40 : ch = 40
      · subst h40
        have ht : p'.token = TOK_LPAREN := by rw [heq]; rfl
        rw [ht]
        refine ⟨?_, fun hc => absurd hc (by decide)⟩
        rw [top_xor_free, if_pos rfl] at hfree
        exact hfree
      · by_cases h41 : ch = 41
        · subst h41
          have ht : p'.token = TOK_RPAREN := by rw [heq]; rfl
          rw [ht]
          refine ⟨?_, fun hc => absurd hc (by decide)⟩
          rw [top_xor_free, if_neg (by decide), if_pos rfl] at hfree
          exact hfree
        · have hd : paren_depth d p'.token = d :=
            paren_depth_plain d _ (by rw [heq]; exact fun hc => h40 (char_token_lparen ch hc))
              (by rw [heq]; exact fun hc => h41 (char_token_rparen ch hc))
          rw [hd]
          rw [top_xor_free, if_neg h40, if_neg h41] at hfree
          simp only [Bool.and_eq_true, Bool.not_eq_true', Bool.and_eq_false_imp,
            decide_eq_true_eq, decide_eq_false_iff_not] at hfree
          refine ⟨hfree.2, ?_⟩
          intro hc
          rw [heq] at hc
          exact hfree.1 (char_token_xor ch hc)

theorem expect_level (d : Nat) (p p' : ParseState) (tok : Nat) (hroom : Room p)
    (hl : Level d p) (h : parse_expect p tok = .ok p') :
    Room p' ∧ Level (paren_depth d tok) p' := by
  obtain ⟨ht, hn⟩ := parse_expect_ok _ _ _ h
  refine ⟨next_token_room p p' hroom hn, ?_⟩
  rw [← ht]
  exact next_token_level _ p p' hroom hl.1 hn

theorem expect_level_plain (d : Nat) (p p' : ParseState) (tok : Nat)
    (h1 : tok ≠ TOK_LPAREN) (h2 : tok ≠ TOK_RPAREN)
    (hl : Room p ∧ Level d p) (h : parse_expect p tok = .ok p') :
    Room p' ∧ Level d p' := by
  have := expect_level d p p' tok hl.1 hl.2 h
  rw [paren_depth_plain d tok h1 h2] at this
  exact this

theorem nots_level (d : Nat) :
    ∀ n p c c' p', Room p ∧ Level d p → parse_factor_nots n p c = .ok (c', p') →
      Room p' ∧ Level d p' := by
  intro n
  induction n with
  | zero => intro p c c' p' _ h; simp [parse_factor_nots] at h
  | succ n ih =>
    intro p c c' p' hp h
    rw [parse_factor_nots] at h
    by_cases hn : p.token = TOK_NOT
    · rw [if_pos hn] at h
      cases h1 : parse_expect p TOK_NOT with
      | error e => simp [h1] at h
      | ok p1 =>
        simp only [h1] at h
        exact ih p1 _ c' p' (expect_level_plain d p p1 _ (by decide) (by decide) hp h1) h
    · rw [if_neg hn] at h
      simp only [Except.ok.injEq, Prod.mk.injEq] at h
      rw [← h.2]
      exact hp

/-- Every function of the parser returns at the parenthesis depth it was
called at. -/
theorem parse_level :
    ∀ n,
      (∀ ps t ps', parse_expr n ps = .ok (t, ps') →
        ∀ d, Room ps ∧ Level d ps → Room ps' ∧ Level d ps') ∧
      (∀ lhs ps t ps', parse_expr_loop n lhs ps = .ok (t, ps') →
        ∀ d, Room ps ∧ Level d ps → Room ps' ∧ Level d ps') ∧
      (∀ ps t ps', parse_term n ps = .ok (t, ps') →
        ∀ d, Room ps ∧ Level d ps → Room ps' ∧ Level d ps') ∧
      (∀ lhs ps t ps', parse_term_loop n lhs ps = .ok (t, ps') →
        ∀ d, Room ps ∧ Level d ps → Room ps' ∧ Level d ps') ∧
      (∀ ps t ps', parse_factor n ps = .ok (t, ps') →
        ∀ d, Room ps ∧ Level d ps → Room ps' ∧ Level d ps') := by
  refine parse_induction
    (fun _ ps _ ps' => ∀ d, Room ps ∧ Level d ps → Room ps' ∧ Level d ps')
    (fun _ ps _ ps' => ∀ d, Room ps ∧ Level d ps → Room ps' ∧ Level d ps')
    (fun _ ps _ ps' => ∀ d, Room ps ∧ Level d ps → Room ps' ∧ Level d ps')
    (fun _ ps _ ps' => ∀ d, Room ps ∧ Level d ps → Room ps' ∧ Level d ps')
    (fun _ _ ps _ ps' => ∀ d, Room ps ∧ Level d ps → Room ps' ∧ Level d ps')
    (fun _ _ ps _ ps' => ∀ d, Room ps ∧ Level d ps → Room ps' ∧ Level d ps')
    (fun _ _ ps _ ps' => ∀ d, Room ps ∧ Level d ps → Room ps' ∧ Level d ps')
    ?_ ?_ ?_ ?_ ?_ ?_ ?_ ?_ ?_ ?_ ?_ ?_ ?_ ?_
  · intro n ps lhs ps1 t ps2 h1 h2 d hp; exact h2 d (h1 d hp)
  · intro n lhs ps _ d hp; exact hp
  · intro n lhs ps ps1 rhs ps2 t ps3 _ he h1 h2 d hp
    exact h2 d (h1 d (expect_level_plain d _ _ _ (by decide) (by decide) hp he))
  · intro n ps lhs ps1 t ps2 h1 h2 d hp; exact h2 d (h1 d hp)
  · intro n lhs ps ps1 _ he d hp
    exact expect_level_plain d _ _ _ (by decide) (by decide) hp he
  · intro n lhs ps ps1 rhs ps2 _ _ he h1 d hp
    exact h1 d (expect_level_plain d _ _ _ (by decide) (by decide) hp he)
  · intro n lhs ps _ _ d hp; exact hp
  · intro n lhs ps lhs1 ps1 h1 _ d hp; exact h1 d hp
  · intro n lhs ps lhs1 ps1 rhs ps2 t ps3 h1 _ h2 h3 d hp; exact h3 d (h2 d (h1 d hp))
  · intro n ps t ps1 hid _ he d hp
    have hlt : ps.token < MAXIDENT := by simpa [isident] using hid
    exact expect_level_plain d _ _ _
      (by intro hc; rw [hc] at hlt; exact absurd hlt (by decide))
      (by intro hc; rw [hc] at hlt; exact absurd hlt (by decide)) hp he
  · intro n ps t ps1 _ _ _ he d hp
    exact expect_level_plain d _ _ _ (by decide) (by decide) hp he
  · intro n ps t ps1 _ _ _ _ he d hp
    exact expect_level_plain d _ _ _ (by decide) (by decide) hp he
  · intro n ps ps1 t ps2 ps3 _ _ _ he1 h1 he2 d hp
    have hp1 := expect_level d _ _ _ hp.1 hp.2 he1
    have e1 : paren_depth d TOK_LPAREN = d + 1 := rfl
    rw [e1] at hp1
    have hp2 := h1 (d + 1) hp1
    have hp3 := expect_level (d + 1) _ _ _ hp2.1 hp2.2 he2
    have e2 : paren_depth (d + 1) TOK_RPAREN = d := rfl
    rw [e2] at hp3
    exact hp3
  · intro n ps c ps1 t ps2 hn h1 d hp
    exact h1 d (nots_level d _ _ _ _ _ hp hn)

theorem term_op_level (n : Nat) (lhs : TruthTab) (p : ParseState) (lhs1 : TruthTab)
    (p1 : ParseState) (d : Nat) (hp : Room p ∧ Level d p)
    (h : term_op (parse_factor n) lhs p = .ok (lhs1, p1)) : Room p1 ∧ Level d p1 := by
  unfold term_op at h
  by_cases hand : p.token = TOK_AND
  · rw [if_pos hand] at h
    cases h1 : parse_expect p TOK_AND with
    | error e1 => rw [h1] at h; cases h
    | ok q =>
      rw [h1] at h
      simp only [Except.ok.injEq, Prod.mk.injEq] at h
      rw [← h.2]
      exact expect_level_plain d _ _ _ (by decide) (by decide) hp h1
  · rw [if_neg hand] at h
    by_cases hxor : p.token = TOK_XOR
    · rw [if_pos hxor] at h
      cases h1 : parse_expect p TOK_XOR with
      | error e1 => rw [h1] at h; cases h
      | ok q =>
        rw [h1] at h
        dsimp only at h
        cases h2 : parse_factor n q with
        | error e2 => rw [h2] at h; cases h
        | ok r =>
          obtain ⟨rhs, q2⟩ := r
          rw [h2] at h
          simp only [Except.ok.injEq, Prod.mk.injEq] at h
          rw [← h.2]
          exact (parse_level n).2.2.2.2 _ _ _ h2 d
            (expect_level_plain d _ _ _ (by decide) (by decide) hp h1)
    · rw [if_neg hxor] at h
      simp only [Except.ok.injEq, Prod.mk.injEq] at h
      rw [← h.2]
      exact hp


/-! ## The run on the text with an AND character added: single steps -/

theorem shadow_before (c : Nat) (p : ParseState) (h : p.inputf.eof = false) :
    shadow c p = appended c p := by
  unfold shadow
  rw [if_neg (by rw [h]; exact fun hc => by cases hc)]

theorem shadow_at_end (c : Nat) (p : ParseState) (h : p.inputf.eof = true) :
    shadow c p = at_and p := by
  unfold shadow
  rw [if_pos h]

theorem final_before (c : Nat) (p : ParseState) (h : p.inputf.eof = false) :
    final c p = appended c p := by
  unfold final
  rw [if_neg (by rw [h]; exact fun hc => by cases hc)]

theorem final_at_end (c : Nat) (p : ParseState) (h : p.inputf.eof = true) :
    final c p = p := by
  unfold final
  rw [if_pos h]

theorem appended_token (c : Nat) (p : ParseState) : (appended c p).token = p.token := rfl

theorem final_token (c : Nat) (p : ParseState) : (final c p).token = p.token := by
  unfold final
  split <;> rfl

theorem eof_cases (p : ParseState) : p.inputf.eof = true ∨ p.inputf.eof = false := by
  cases p.inputf.eof
  · exact Or.inr rfl
  · exact Or.inl rfl

theorem expect_sound (p p' : ParseState) (tok : Nat) (hs : Sound p)
    (h : parse_expect p tok = .ok p') : Sound p' :=
  next_token_sound p p' hs (parse_expect_ok _ _ _ h).2

theorem expect_shadow (c : Nat) (hc : c = 42 ∨ c = 38) (p p' : ParseState) (tok : Nat)
    (hs : Sound p) (htok : tok ≠ MAXIDENT) (h : parse_expect p tok = .ok p') :
    p.inputf.eof = false ∧ parse_expect (appended c p) tok = .ok (shadow c p') := by
  have ht := (parse_expect_ok _ _ _ h).1
  have he : p.inputf.eof = false := sound_eof_false p hs (by rw [ht]; exact htok)
  exact ⟨he, expect_appended c hc p p' tok he h⟩

theorem next_token_eof_mono (p p' : ParseState) (hp : Room p ∧ p.inputf.eof = true)
    (h : next_token p = .ok p') : Room p' ∧ p'.inputf.eof = true := by
  obtain ⟨hroom', hcase⟩ := next_token_cases p p' hp.1 h
  refine ⟨hroom', ?_⟩
  rcases hcase with ⟨-, rfl⟩ | ⟨ws, ch, rest, -, -, -, hinp, -⟩
  · rfl
  · rw [hinp]; exact hp.2

/-- Once the end of the text is met it stays met. -/
theorem parse_eof_mono (n : Nat) :
    (∀ ps t ps', parse_expr n ps = .ok (t, ps') → Room ps → ps.inputf.eof = true →
      ps'.inputf.eof = true) ∧
    (∀ lhs ps t ps', parse_expr_loop n lhs ps = .ok (t, ps') → Room ps →
      ps.inputf.eof = true → ps'.inputf.eof = true) ∧
    (∀ lhs ps t ps', parse_term_loop n lhs ps = .ok (t, ps') → Room ps →
      ps.inputf.eof = true → ps'.inputf.eof = true) := by
  have key := parse_preserves (fun p => Room p ∧ p.inputf.eof = true) next_token_eof_mono n
  exact ⟨fun ps t ps' h hr he => (key.1 ps t ps' h ⟨hr, he⟩).2,
    fun lhs ps t ps' h hr he => (key.2.1 lhs ps t ps' h ⟨hr, he⟩).2,
    fun lhs ps t ps' h hr he => (key.2.2.2.1 lhs ps t ps' h ⟨hr, he⟩).2⟩

theorem nots_shadow (c : Nat) (hc : c = 42 ∨ c = 38) :
    ∀ n p k k' p1, Sound p → parse_factor_nots n p k = .ok (k', p1) →
      parse_factor_nots n (shadow c p) k = .ok (k', shadow c p1) := by
  intro n
  induction n with
  | zero => intro p k k' p1 _ h; simp [parse_factor_nots] at h
  | succ n ih =>
    intro p k k' p1 hs h
    rw [parse_factor_nots] at h
    by_cases hn : p.token = TOK_NOT
    · rw [if_pos hn] at h
      cases h1 : parse_expect p TOK_NOT with
      | error e => simp [h1] at h
      | ok p2 =>
        simp only [h1] at h
        obtain ⟨he, hq⟩ := expect_shadow c hc p p2 _ hs (by decide) h1
        rw [shadow_before c p he, parse_factor_nots, appended_token, if_pos hn, hq]
        exact ih p2 _ k' p1 (expect_sound _ _ _ hs h1) h
    · rw [if_neg hn] at h
      simp only [Except.ok.injEq, Prod.mk.injEq] at h
      obtain ⟨rfl, rfl⟩ := h
      rw [parse_factor_nots]
      have hne : (shadow c p).token ≠ TOK_NOT := by
        rcases eof_cases p with he | he
        · rw [shadow_at_end c p he]
          exact fun hc => by cases hc
        · rw [shadow_before c p he]
          exact hn
      rw [if_neg hne]


/-! ## The run on the text with an AND character added: the parser -/

theorem term_op_at_end (factor : ParseState → Except Failure (TruthTab × ParseState))
    (lhs : TruthTab) (p : ParseState) (lhs1 : TruthTab) (p1 : ParseState)
    (ht : p.token = MAXIDENT) (h : term_op factor lhs p = .ok (lhs1, p1)) :
    lhs1 = lhs ∧ p1 = p := by
  unfold term_op at h
  rw [if_neg (by rw [ht]; decide), if_neg (by rw [ht]; decide)] at h
  simp only [Except.ok.injEq, Prod.mk.injEq] at h
  exact ⟨h.1.symm, h.2.symm⟩

theorem starts_factor_not_sentinel (p : ParseState) (h : starts_factor p.token = true) :
    p.token ≠ MAXIDENT := by
  intro hc
  rw [hc] at h
  exact absurd h (by decide)

/-- The run on a text with an AND character added at its end follows the run
on the text: before the end is met the states differ by the added character
only; a factor that ends the text leaves the added AND as the lookahead; and a
term or an expression that ends the text, with no XOR outside parentheses,
consumes the added AND and ends in the same state. -/
theorem parse_appended (c : Nat) (hc : c = 42 ∨ c = 38) :
    ∀ n,
      (∀ ps t ps', parse_expr n ps = .ok (t, ps') → Sound ps →
        (ps'.inputf.eof = true → Level 0 ps) →
        parse_expr n (shadow c ps) = .ok (t, final c ps')) ∧
      (∀ lhs ps t ps', parse_expr_loop n lhs ps = .ok (t, ps') → Sound ps →
        (ps'.inputf.eof = true → Level 0 ps) →
        parse_expr_loop n lhs (final c ps) = .ok (t, final c ps')) ∧
      (∀ ps t ps', parse_term n ps = .ok (t, ps') → Sound ps →
        (ps'.inputf.eof = true → Level 0 ps) →
        parse_term n (shadow c ps) = .ok (t, final c ps')) ∧
      (∀ lhs ps t ps', parse_term_loop n lhs ps = .ok (t, ps') → Sound ps →
        (ps'.inputf.eof = true → Level 0 ps) →
        parse_term_loop n lhs (shadow c ps) = .ok (t, final c ps')) ∧
      (∀ ps t ps', parse_factor n ps = .ok (t, ps') → Sound ps →
        parse_factor n (shadow c ps) = .ok (t, shadow c ps')) := by
  have pres := parse_preserves Sound next_token_sound
  refine parse_runs
    (fun n ps t ps' => Sound ps → (ps'.inputf.eof = true → Level 0 ps) →
      parse_expr n (shadow c ps) = .ok (t, final c ps'))
    (fun n ps t ps' => Sound ps → (ps'.inputf.eof = true → Level 0 ps) →
      parse_term n (shadow c ps) = .ok (t, final c ps'))
    (fun n ps t ps' => Sound ps → parse_factor n (shadow c ps) = .ok (t, shadow c ps'))
    (fun n ps t ps' => Sound ps →
      primary (parse_expr n) (shadow c ps) = .ok (t, shadow c ps'))
    (fun n lhs ps t ps' => Sound ps → (ps'.inputf.eof = true → Level 0 ps) →
      parse_expr_loop n lhs (final c ps) = .ok (t, final c ps'))
    (fun n lhs ps t ps' => Sound ps → (ps'.inputf.eof = true → Level 0 ps) →
      parse_term_loop n lhs (shadow c ps) = .ok (t, final c ps'))
    (fun n lhs ps lhs1 ps1 => Sound ps → ps.inputf.eof = false →
      term_op (parse_factor n) lhs (appended c ps) = .ok (lhs1, shadow c ps1) ∧
      (ps1.inputf.eof = true → Level 0 ps → False))
    ?_ ?_ ?_ ?_ ?_ ?_ ?_ ?_ ?_ ?_ ?_ ?_ ?_ ?_
  · -- expr
    intro n p lhs p1 t p2 eqt qt eql qel hs hL
    have hs1 : Sound p1 := (pres n).2.2.1 _ _ _ eqt hs
    have mono : p1.inputf.eof = true → p2.inputf.eof = true :=
      (parse_eof_mono n).2.1 _ _ _ _ eql hs1.1
    have h1 := qt hs (fun he1 => hL (mono he1))
    have h2 := qel hs1 (fun he2 => ((parse_level n).2.2.1 _ _ _ eqt 0 ⟨hs.1, hL he2⟩).2)
    rw [parse_expr, h1]
    exact h2
  · -- expr loop, exit
    intro n lhs p hor _ _
    rw [parse_expr_loop, final_token, if_neg hor]
  · -- expr loop, OR
    intro n lhs p p1 rhs p2 t p3 hor he eqt qt eql qel hs hL
    obtain ⟨hef, hq⟩ := expect_shadow c hc p p1 _ hs (by decide) he
    have hs1 : Sound p1 := expect_sound _ _ _ hs he
    have hs2 : Sound p2 := (pres n).2.2.1 _ _ _ eqt hs1
    have mono : p2.inputf.eof = true → p3.inputf.eof = true :=
      (parse_eof_mono n).2.1 _ _ _ _ eql hs2.1
    have hL1 : p3.inputf.eof = true → Room p1 ∧ Level 0 p1 := fun he3 =>
      expect_level_plain 0 _ _ _ (by decide) (by decide) ⟨hs.1, hL he3⟩ he
    have h1 := qt hs1 (fun he2 => (hL1 (mono he2)).2)
    have h2 := qel hs2 (fun he3 => ((parse_level n).2.2.1 _ _ _ eqt 0 (hL1 he3)).2)
    rw [final_before c p hef, parse_expr_loop, appended_token, if_pos hor, hq]
    simp only [h1]
    exact h2
  · -- term
    intro n p lhs p1 t p2 eqf qf eql qtl hs hL
    have hs1 : Sound p1 := (pres n).2.2.2.2 _ _ _ eqf hs
    have h2 := qtl hs1 (fun he2 => ((parse_level n).2.2.2.2 _ _ _ eqf 0 ⟨hs.1, hL he2⟩).2)
    rw [parse_term, qf hs]
    exact h2
  · -- the first `if`: AND
    intro n lhs p p1 hand he hs hef
    refine ⟨?_, ?_⟩
    · unfold term_op
      rw [appended_token, if_pos hand, expect_appended c hc p p1 _ hef he]
    · intro he1 _
      have := next_token_after_and p p1 hs hand (parse_expect_ok _ _ _ he).2
      rw [this] at he1
      cases he1
  · -- the first `if`: XOR
    intro n lhs p p1 rhs p2 hand hxor he eqf qf hs hef
    refine ⟨?_, ?_⟩
    · unfold term_op
      rw [appended_token, if_neg hand, if_pos hxor, expect_appended c hc p p1 _ hef he]
      simp only [qf (expect_sound _ _ _ hs he)]
    · intro _ hL
      exact hL.2 hxor rfl
  · -- the first `if`: neither
    intro n lhs p hand hxor hs hef
    refine ⟨?_, ?_⟩
    · unfold term_op
      rw [appended_token, if_neg hand, if_neg hxor, shadow_before c p hef]
    · intro he1
      rw [hef] at he1
      cases he1
  · -- term loop, exit
    intro n lhs p lhs1 p1 eqo qo hst hs hL
    rcases eof_cases p with hef | hef
    · obtain ⟨ht, hinp⟩ := sound_at_end p hs hef
      obtain ⟨rfl, rfl⟩ := term_op_at_end _ lhs p lhs1 p1 ht eqo
      rw [shadow_at_end c p1 hef, final_at_end c p1 hef, parse_term_loop_succ]
      unfold term_op
      have htok : (at_and p1).token = TOK_AND := rfl
      have hexp : parse_expect (at_and p1) TOK_AND = .ok p1 := by
        unfold parse_expect
        rw [htok, if_neg (fun h => h rfl)]
        exact next_token_at_and p1 ht hinp
      rw [htok, if_pos rfl, hexp]
      simp [hst]
    · obtain ⟨h1, h2⟩ := qo hs hef
      have he1 : p1.inputf.eof = false := by
        rcases eof_cases p1 with he1 | he1
        · exact absurd (hL he1) (fun hl => h2 he1 hl)
        · exact he1
      rw [shadow_before c p hef, parse_term_loop_succ, h1, shadow_before c p1 he1,
        final_before c p1 he1]
      simp [appended_token, hst]
  · -- term loop, one more factor
    intro n lhs p lhs1 p1 rhs p2 t p3 eqo qo hst eqf qf eql qtl hs hL
    have hef : p.inputf.eof = false := by
      rcases eof_cases p with hef | hef
      · obtain ⟨ht, -⟩ := sound_at_end p hs hef
        obtain ⟨-, rfl⟩ := term_op_at_end _ lhs p lhs1 p1 ht eqo
        exact absurd ht (starts_factor_not_sentinel _ hst)
      · exact hef
    obtain ⟨h1, -⟩ := qo hs hef
    have hs1 : Sound p1 := term_op_preserves Sound next_token_sound _
      (fun q t q' hq => (pres n).2.2.2.2 q t q' hq) lhs p lhs1 p1 hs eqo
    have hs2 : Sound p2 := (pres n).2.2.2.2 _ _ _ eqf hs1
    have he1 : p1.inputf.eof = false :=
      sound_eof_false p1 hs1 (starts_factor_not_sentinel _ hst)
    have h2 := qf hs1
    have h3 := qtl hs2 (fun he3 =>
      ((parse_level n).2.2.2.2 _ _ _ eqf 0
        (term_op_level n lhs p lhs1 p1 0 ⟨hs.1, hL he3⟩ eqo)).2)
    rw [shadow_before c p hef, parse_term_loop_succ, h1]
    have hst' : starts_factor (shadow c p1).token = true := by
      rw [shadow_before c p1 he1]; exact hst
    simp only [hst', if_true, h2]
    exact h3
  · -- primary: variable
    intro n p t p1 hid hsv he hs
    have hlt : p.token < MAXIDENT := by simpa [isident] using hid
    obtain ⟨hef, hq⟩ := expect_shadow c hc p p1 _ hs (Nat.ne_of_lt hlt) he
    rw [shadow_before c p hef]
    unfold primary
    rw [appended_token, if_pos hid, hsv]
    simp only [hq]
  · -- primary: 0
    intro n p t p1 hid hF hc0 he hs
    obtain ⟨hef, hq⟩ := expect_shadow c hc p p1 _ hs (by decide) he
    rw [shadow_before c p hef]
    unfold primary
    rw [appended_token, if_neg (by simp [hid]), if_pos hF, hc0]
    simp only [hq]
  · -- primary: 1
    intro n p t p1 hid hF hT hc1 he hs
    obtain ⟨hef, hq⟩ := expect_shadow c hc p p1 _ hs (by decide) he
    rw [shadow_before c p hef]
    unfold primary
    rw [appended_token, if_neg (by simp [hid]), if_neg hF, if_pos hT, hc1]
    simp only [hq]
  · -- primary: parentheses
    intro n p p1 t p2 p3 hid hF hT he1 eqe qe he2 hs
    obtain ⟨hef, hq1⟩ := expect_shadow c hc p p1 _ hs (by decide) he1
    have hs1 : Sound p1 := expect_sound _ _ _ hs he1
    have hs2 : Sound p2 := (pres n).1 _ _ _ eqe hs1
    obtain ⟨hef2, hq2⟩ := expect_shadow c hc p2 p3 _ hs2 (by decide) he2
    have h1 := qe hs1 (fun he => by rw [hef2] at he; cases he)
    rw [final_before c p2 hef2] at h1
    rw [shadow_before c p hef]
    unfold primary
    rw [appended_token, if_neg (by simp [hid]), if_neg hF, if_neg hT, hq1]
    simp only [h1, hq2]
  · -- factor
    intro n p k p1 t p2 hn eqp qp hs
    have hs1 : Sound p1 := parse_factor_nots_preserves Sound next_token_sound _ _ _ _ _ hs hn
    rw [parse_factor_succ, nots_shadow c hc _ _ _ _ _ hs hn]
    simp only [qp hs1]


/-! ## Sequences of factors, as token sequences and as texts -/

theorem toks_xor_free_plain (d t : Nat) (l : List Nat) (h1 : t ≠ TOK_LPAREN)
    (h2 : t ≠ TOK_RPAREN) (h3 : t ≠ TOK_XOR) : toks_xor_free d (t :: l) = toks_xor_free d l := by
  rw [toks_xor_free, if_neg h1, if_neg h2]
  simp [h3]

theorem toks_xor_free_xor (d : Nat) (l : List Nat) (hd : d ≠ 0) :
    toks_xor_free d (TOK_XOR :: l) = toks_xor_free d l := by
  rw [toks_xor_free, if_neg (by decide), if_neg (by decide)]
  simp [hd]

theorem getLast?_append_cons (l r : List Nat) (x : Nat) :
    (l ++ x :: r).getLast? = (x :: r).getLast? := by
  rw [List.getLast?_append_of_ne_nil l (List.cons_ne_nil x r)]

theorem getLast?_append_ne_nil (l r : List Nat) (hr : r ≠ []) :
    (l ++ r).getLast? = r.getLast? :=
  List.getLast?_append_of_ne_nil l hr

theorem getLast?_cons_ne_nil (x : Nat) (r : List Nat) (hr : r ≠ []) :
    (x :: r).getLast? = r.getLast? := by
  obtain ⟨b, l, rfl⟩ := List.exists_cons_of_ne_nil hr
  rw [List.getLast?_cons_cons]

/-- A token sequence of the grammar is not empty, does not end in AND, and is
balanced; what is not a factor has its XOR tokens at the depth it starts
at. -/
theorem derives_shape (sym : Sym) (l : List Nat) (h : Derives sym l) :
    l ≠ [] ∧ l.getLast? ≠ some TOK_AND ∧
    ∀ d rest, (sym = .factor ∨ sym = .primary ∨ d ≠ 0) →
      toks_xor_free d (l ++ rest) = toks_xor_free d rest := by
  induction h
  next i hi =>
    have hlt : i < MAXIDENT := by simpa [isident] using hi
    refine ⟨by simp, ?_, ?_⟩
    · simp only [List.getLast?_singleton, ne_eq, Option.some.injEq]
      intro hc; rw [hc] at hlt; exact absurd hlt (by decide)
    · intro d rest _
      exact toks_xor_free_plain d i rest
        (by intro hc; rw [hc] at hlt; exact absurd hlt (by decide))
        (by intro hc; rw [hc] at hlt; exact absurd hlt (by decide))
        (by intro hc; rw [hc] at hlt; exact absurd hlt (by decide))
  next =>
    refine ⟨by simp, by decide, ?_⟩
    intro d rest _
    exact toks_xor_free_plain d _ rest (by decide) (by decide) (by decide)
  next =>
    refine ⟨by simp, by decide, ?_⟩
    intro d rest _
    exact toks_xor_free_plain d _ rest (by decide) (by decide) (by decide)
  next l _ ih =>
    obtain ⟨-, -, ih3⟩ := ih
    refine ⟨by simp, ?_, ?_⟩
    · rw [getLast?_append_cons]
      decide
    · intro d rest _
      have e : (TOK_LPAREN :: l ++ [TOK_RPAREN]) ++ rest =
          TOK_LPAREN :: (l ++ TOK_RPAREN :: rest) := by simp
      rw [e, toks_xor_free, if_pos rfl, ih3 (d + 1) _ (Or.inr (Or.inr (Nat.succ_ne_zero d))),
        toks_xor_free, if_neg (by decide), if_pos rfl]
      rfl
  next l _ ih =>
    obtain ⟨ih1, ih2, ih3⟩ := ih
    exact ⟨ih1, ih2, fun d rest _ => ih3 d rest (Or.inr (Or.inl rfl))⟩
  next l _ ih =>
    obtain ⟨ih1, ih2, ih3⟩ := ih
    refine ⟨by simp, ?_, ?_⟩
    · rw [getLast?_cons_ne_nil _ l ih1]; exact ih2
    · intro d rest _
      rw [List.cons_append, toks_xor_free_plain d _ _ (by decide) (by decide) (by decide)]
      exact ih3 d rest (Or.inl rfl)
  next l _ ih =>
    obtain ⟨ih1, ih2, ih3⟩ := ih
    exact ⟨ih1, ih2, fun d rest _ => ih3 d rest (Or.inl rfl)⟩
  next l r _ _ ihl ihr =>
    obtain ⟨-, -, il3⟩ := ihl
    obtain ⟨ir1, ir2, ir3⟩ := ihr
    refine ⟨by simp, ?_, ?_⟩
    · rw [getLast?_append_cons, getLast?_cons_ne_nil _ r ir1]; exact ir2
    · intro d rest hd
      have hd' : d ≠ 0 := by
        rcases hd with hd | hd | hd
        · cases hd
        · cases hd
        · exact hd
      rw [List.append_assoc, il3 d _ (Or.inr (Or.inr hd')), List.cons_append,
        toks_xor_free_plain d _ _ (by decide) (by decide) (by decide)]
      exact ir3 d rest (Or.inl rfl)
  next l r _ _ ihl ihr =>
    obtain ⟨-, -, il3⟩ := ihl
    obtain ⟨ir1, ir2, ir3⟩ := ihr
    refine ⟨by simp [ir1], ?_, ?_⟩
    · rw [getLast?_append_ne_nil l r ir1]; exact ir2
    · intro d rest hd
      have hd' : d ≠ 0 := by
        rcases hd with hd | hd | hd
        · cases hd
        · cases hd
        · exact hd
      rw [List.append_assoc, il3 d _ (Or.inr (Or.inr hd'))]
      exact ir3 d rest (Or.inl rfl)
  next l r _ _ ihl ihr =>
    obtain ⟨-, -, il3⟩ := ihl
    obtain ⟨ir1, ir2, ir3⟩ := ihr
    refine ⟨by simp, ?_, ?_⟩
    · rw [getLast?_append_cons, getLast?_cons_ne_nil _ r ir1]; exact ir2
    · intro d rest hd
      have hd' : d ≠ 0 := by
        rcases hd with hd | hd | hd
        · cases hd
        · cases hd
        · exact hd
      rw [List.append_assoc, il3 d _ (Or.inr (Or.inr hd')), List.cons_append,
        toks_xor_free_xor d _ hd']
      exact ir3 d rest (Or.inl rfl)
  next l _ ih =>
    obtain ⟨ih1, ih2, ih3⟩ := ih
    refine ⟨ih1, ih2, ?_⟩
    intro d rest hd
    have hd' : d ≠ 0 := by
      rcases hd with hd | hd | hd
      · cases hd
      · cases hd
      · exact hd
    exact ih3 d rest (Or.inr (Or.inr hd'))
  next l r _ _ ihl ihr =>
    obtain ⟨-, -, il3⟩ := ihl
    obtain ⟨ir1, ir2, ir3⟩ := ihr
    refine ⟨by simp, ?_, ?_⟩
    · rw [getLast?_append_cons, getLast?_cons_ne_nil _ r ir1]; exact ir2
    · intro d rest hd
      have hd' : d ≠ 0 := by
        rcases hd with hd | hd | hd
        · cases hd
        · cases hd
        · exact hd
      rw [List.append_assoc, il3 d _ (Or.inr (Or.inr hd')), List.cons_append,
        toks_xor_free_plain d _ _ (by decide) (by decide) (by decide)]
      exact ir3 d rest (Or.inr (Or.inr hd'))

theorem factor_seq_shape (l : List Nat) (h : FactorSeq l) :
    l ≠ [] ∧ l.getLast? ≠ some TOK_AND ∧
    ∀ rest, toks_xor_free 0 (l ++ rest) = toks_xor_free 0 rest := by
  induction h with
  | one l hl =>
    obtain ⟨h1, h2, h3⟩ := derives_shape .factor l hl
    exact ⟨h1, h2, fun rest => h3 0 rest (Or.inl rfl)⟩
  | and l r _ hr ih =>
    obtain ⟨-, -, il3⟩ := ih
    obtain ⟨ir1, ir2, ir3⟩ := derives_shape .factor r hr
    refine ⟨by simp, ?_, ?_⟩
    · rw [getLast?_append_cons, getLast?_cons_ne_nil _ r ir1]; exact ir2
    · intro rest
      rw [List.append_assoc, il3, List.cons_append,
        toks_xor_free_plain 0 _ _ (by decide) (by decide) (by decide)]
      exact ir3 0 rest (Or.inl rfl)
  | juxtaposition l r _ hr ih =>
    obtain ⟨-, -, il3⟩ := ih
    obtain ⟨ir1, ir2, ir3⟩ := derives_shape .factor r hr
    refine ⟨by simp [ir1], ?_, ?_⟩
    · rw [getLast?_append_ne_nil l r ir1]; exact ir2
    · intro rest
      rw [List.append_assoc, il3]
      exact ir3 0 rest (Or.inl rfl)

theorem seen_room (s : List Nat) (p : ParseState) (h : Seen s p) : Room p := by
  obtain ⟨hnd, hup⟩ := seen_idents_upper s p h
  unfold Room
  rw [← idents_length]
  exact upper_nodup_length _ hnd hup

theorem token_stream_succ (n : Nat) (p p1 : ParseState) (h : next_token p = .ok p1) :
    token_stream (n + 1) p =
      if p1.token = MAXIDENT then [] else p1.token :: token_stream n p1 := by
  rw [token_stream, h]

theorem top_xor_free_nil_of_spaces (d : Nat) (l : List Nat) (h : ∀ x ∈ l, is_space x) :
    top_xor_free d l = true := by
  have := top_xor_free_spaces d l [] h
  rw [List.append_nil] at this
  rw [this]
  rfl

theorem not_trailing_and_of_spaces (l : List Nat) (h : ∀ x ∈ l, is_space x) :
    ¬ trailing_and l := by
  unfold trailing_and
  rw [(strip_eq_nil_iff l).mpr h]
  simp

/-- The token sequence of a text of recognised characters, read against the
text: it is empty when only whitespace is left, it ends in AND when an AND
character ends the text, and it has an XOR outside parentheses when the text
has one. -/
theorem token_stream_text (s : List Nat) :
    ∀ n p, Seen s p → (∀ x ∈ p.inputf.buf, recognised x) → p.inputf.buf.length < n →
      (token_stream n p = [] ↔ strip p.inputf.buf = []) ∧
      ((token_stream n p).getLast? = some TOK_AND ↔ trailing_and p.inputf.buf) ∧
      (∀ d, toks_xor_free d (token_stream n p) = top_xor_free d p.inputf.buf) := by
  intro n
  induction n with
  | zero => intro p _ _ h; exact absurd h (Nat.not_lt_zero _)
  | succ n ih =>
    intro p hseen hrec hlen
    obtain ⟨p1, h1⟩ := next_token_succeeds s p hseen
    have hseen1 : Seen s p1 := next_token_seen s p p1 hseen h1
    rw [token_stream_succ n p p1 h1]
    obtain ⟨-, hcase⟩ := next_token_cases p p1 (seen_room s p hseen) h1
    rcases hcase with ⟨hall, rfl⟩ | ⟨ws, ch, rest, hl, hws, hch, hinp, htok⟩
    · rw [if_pos rfl]
      refine ⟨⟨fun _ => (strip_eq_nil_iff _).mpr hall, fun _ => rfl⟩, ?_, ?_⟩
      · constructor
        · intro hc; simp at hc
        · intro hc; exact absurd hc (not_trailing_and_of_spaces _ hall)
      · intro d
        rw [top_xor_free_nil_of_spaces d _ hall]
        rfl
    · have hbuf : p1.inputf.buf = rest := by rw [hinp]
      have hrch : recognised ch := by
        apply hrec; rw [hl]; simp
      have hrest : ∀ x ∈ p1.inputf.buf, recognised x := by
        intro x hx
        rw [hbuf] at hx
        apply hrec; rw [hl]; simp [hx]
      have hlen1 : p1.inputf.buf.length < n := by
        rw [hbuf]
        rw [hl] at hlen
        simp at hlen
        omega
      obtain ⟨ih1, ih2, ih3⟩ := ih p1 hseen1 hrest hlen1
      rw [hbuf] at ih1 ih2 ih3
      have hne : p1.token ≠ MAXIDENT := by
        rcases htok with ⟨-, hlt⟩ | ⟨hu, heq⟩
        · exact Nat.ne_of_lt hlt
        · rw [heq]
          exact fun hc => (char_token_symbol ch hch hu).mp hc hrch
      have hstrip : strip p.inputf.buf = ch :: strip rest := by
        rw [hl, strip_spaces_append ws _ hws, strip_other ch rest hch]
      have hand_iff : p1.token = TOK_AND ↔ (ch = 42 ∨ ch = 38) := by
        rcases htok with ⟨hu, hlt⟩ | ⟨hu, heq⟩
        · constructor
          · intro hc; rw [hc] at hlt; exact absurd hlt (by decide)
          · intro hc
            unfold is_upper at hu
            omega
        · rw [heq]
          exact ⟨char_token_and ch, fun hc => (and_char_token ch hc).2.2⟩
      rw [if_neg hne]
      refine ⟨?_, ?_, ?_⟩
      · rw [hstrip]; simp
      · rw [hl, trailing_and_spaces ws _ hws]
        unfold trailing_and
        rw [strip_other ch rest hch]
        by_cases hts : token_stream n p1 = []
        · have hsr : strip rest = [] := ih1.mp hts
          rw [hts, hsr]
          simp only [List.getLast?_singleton, Option.some.injEq]
          exact hand_iff
        · have hsr : strip rest ≠ [] := fun hc => hts (ih1.mpr hc)
          rw [getLast?_cons_ne_nil _ _ hts, getLast?_cons_ne_nil _ _ hsr]
          exact ih2
      · intro d
        rw [hl, top_xor_free_spaces d ws _ hws]
        rcases htok with ⟨hu, hlt⟩ | ⟨hu, heq⟩
        · obtain ⟨c1, c2, c3⟩ := upper_plain ch hu
          rw [top_xor_free_plain d ch rest c1 c2 c3, toks_xor_free_plain d _ _
            (by intro hc; rw [hc] at hlt; exact absurd hlt (by decide))
            (by intro hc; rw [hc] at hlt; exact absurd hlt (by decide))
            (by intro hc; rw [hc] at hlt; exact absurd hlt (by decide))]
          exact ih3 d
        · by_cases h40 : ch = 40
          · subst h40
            have ht : p1.token = TOK_LPAREN := by rw [heq]; rfl
            rw [ht, toks_xor_free, if_pos rfl, top_xor_free, if_pos rfl]
            exact ih3 (d + 1)
          · by_cases h41 : ch = 41
            · subst h41
              have ht : p1.token = TOK_RPAREN := by rw [heq]; rfl
              rw [ht, toks_xor_free, if_neg (by decide), if_pos rfl, top_xor_free,
                if_neg (by decide), if_pos rfl]
              exact ih3 (d - 1)
            · by_cases h94 : ch = 94
              · subst h94
                have ht : p1.token = TOK_XOR := by rw [heq]; rfl
                rw [ht, toks_xor_free, if_neg (by decide), if_neg (by decide), top_xor_free,
                  if_neg (by decide), if_neg (by decide), ih3 d]
                simp
              · rw [top_xor_free_plain d ch rest h40 h41 h94, toks_xor_free_plain d _ _
                  (by rw [heq]; exact fun hc => h40 (char_token_lparen ch hc))
                  (by rw [heq]; exact fun hc => h41 (char_token_rparen ch hc))
                  (by rw [heq]; exact fun hc => h94 (char_token_xor ch hc))]
                exact ih3 d

/-- A text of recognised characters whose token sequence is a sequence of
factors joined by AND or by juxtaposition has no XOR outside parentheses and
does not end in an AND character. -/
theorem factor_seq_text (s : List Nat) (hrec : ∀ x ∈ s, recognised x)
    (hseq : FactorSeq (tokens s)) : top_xor_free 0 s = true ∧ ¬ trailing_and s := by
  obtain ⟨-, h2, h3⟩ := factor_seq_shape _ hseq
  have hseen : Seen s { ParseState.fresh with inputf := FILE.open s } :=
    seen_start ParseState.fresh s
  obtain ⟨-, t2, t3⟩ := token_stream_text s (s.length + 1)
    { ParseState.fresh with inputf := FILE.open s } hseen hrec (Nat.lt_succ_self _)
  have e : token_stream (s.length + 1) { ParseState.fresh with inputf := FILE.open s } =
      tokens s := rfl
  rw [e] at t2 t3
  refine ⟨?_, fun hc => h2 (t2.mpr hc)⟩
  have := t3 0
  have e2 : ({ ParseState.fresh with inputf := FILE.open s } : ParseState).inputf.buf = s := rfl
  rw [e2] at this
  rw [← this]
  have h30 := h3 []
  rw [List.append_nil] at h30
  rw [h30]
  rfl


/-! ## A trailing AND after an accepted text -/

/-- A trailing AND is dropped, for texts given by their characters: where the
program accepts a text of recognised characters that has no XOR outside
parentheses and whose last character other than whitespace is no AND
character, it accepts the text with an AND character added at its end and
returns the same state. -/
theorem parse_trailing_and (ps : ParseState) (s : List Nat) (c : Nat) (ps' : ParseState)
    (hc : c = 42 ∨ c = 38) (hrec : ∀ x ∈ s, recognised x)
    (hxor : top_xor_free 0 s = true) (hand : ¬ trailing_and s)
    (h : parse ps (FILE.open s) = .ok ps') :
    parse ps (FILE.open (s ++ [c])) = .ok ps' := by
  obtain ⟨p1, t, p2, h1, h2, h3, hf⟩ := parse_ok_inv _ _ _ h
  have hroom : Room { ps with ident_cnt := 0, inputf := FILE.open s } := Nat.zero_le _
  have hs1 : Sound p1 :=
    next_token_sound_of_buf _ p1 hroom hrec hand (fun he => by cases he) h1
  have hL1 : Level 0 p1 := next_token_level 0 _ p1 hroom hxor h1
  have hs2 : Sound p2 := (parse_preserves Sound next_token_sound _).1 _ _ _ h2 hs1
  have ht2 : p2.token = MAXIDENT := (parse_expect_ok _ _ _ h3).1
  have he2 : p2.inputf.eof = true := (sound_eof_iff p2 hs2).mpr ht2
  have hsim := (parse_appended c hc _).1 p1 t p2 h2 hs1 (fun _ => hL1)
  rw [final_at_end c p2 he2] at hsim
  have hlen : (FILE.open s).buf.length ≤ (FILE.open (s ++ [c])).buf.length := by
    simp [FILE.open]
  have hexpr := (parse_mono _).1 _ _ _ hsim (parse_fuel (FILE.open (s ++ [c])).buf.length)
    (by unfold parse_fuel; omega)
  have hnext : next_token { ps with ident_cnt := 0, inputf := FILE.open (s ++ [c]) } =
      .ok (shadow c p1) :=
    next_token_appended c hc { ps with ident_cnt := 0, inputf := FILE.open s } p1 rfl h1
  unfold parse
  dsimp only
  rw [hnext]
  dsimp only
  rw [hexpr]
  dsimp only
  rw [h3]
  dsimp only
  rw [if_pos hf]

/-- A trailing AND is dropped where the text without it is accepted.  Let a
text hold recognised characters only and let its token sequence be a sequence
of factors joined by explicit AND or by juxtaposition, no XOR between them.
Where the program accepts the text, it accepts the text with one AND character,
`*` or `&`, added at its end, and returns the same state: the same identifiers
and the same table. -/
theorem trailing_and_dropped_of_accepted (ps : ParseState) (s : List Nat) (c : Nat) (ps' : ParseState)
    (hc : c = 42 ∨ c = 38) (hrec : ∀ x ∈ s, recognised x) (hseq : FactorSeq (tokens s))
    (h : parse ps (FILE.open s) = .ok ps') :
    parse ps (FILE.open (s ++ [c])) = .ok ps' ∧
    outcome (parse ps (FILE.open (s ++ [c]))) = outcome (parse ps (FILE.open s)) ∧
    run (bytes "A &") = run (bytes "A") ∧ run (bytes "A") = .ok ([65], [0, 1]) := by
  obtain ⟨hxor, hand⟩ := factor_seq_text s hrec hseq
  have key := parse_trailing_and ps s c ps' hc hrec hxor hand h
  exact ⟨key, by rw [key, h], by decide!, by decide!⟩

/-- The text `(A ^ B) C`, two factors, and the same text with `&` added at its
end. -/
theorem trailing_and_dropped_example :
    (∀ x ∈ bytes "(A ^ B) C", recognised x) ∧
    tokens (bytes "(A ^ B) C") = [TOK_LPAREN, 0, TOK_XOR, 1, TOK_RPAREN, 2] ∧
    FactorSeq (tokens (bytes "(A ^ B) C")) ∧
    run (bytes "(A ^ B) C") = .ok ([65, 66, 67], [0, 0, 0, 0, 0, 1, 1, 0]) ∧
    ∃ ps', parse ParseState.fresh (FILE.open (bytes "(A ^ B) C")) = .ok ps' ∧
      parse ParseState.fresh (FILE.open (bytes "(A ^ B) C" ++ [38])) = .ok ps' := by
  have ht : tokens (bytes "(A ^ B) C") = [TOK_LPAREN, 0, TOK_XOR, 1, TOK_RPAREN, 2] := by
    decide!
  have hA : Derives .factor [0] := .of_primary _ (.variable 0 (by decide))
  have hB : Derives .factor [1] := .of_primary _ (.variable 1 (by decide))
  have hC : Derives .factor [2] := .of_primary _ (.variable 2 (by decide))
  have hP : Derives .factor [TOK_LPAREN, 0, TOK_XOR, 1, TOK_RPAREN] :=
    .of_primary _ (.paren [0, TOK_XOR, 1] (.of_term _ (.xor [0] [1] (.of_factor _ hA) hB)))
  have hseq : FactorSeq (tokens (bytes "(A ^ B) C")) := by
    rw [ht]
    exact .juxtaposition [TOK_LPAREN, 0, TOK_XOR, 1, TOK_RPAREN] [2] (.one _ hP) hC
  obtain ⟨ps', h⟩ := ok_of_isSome
    (parse ParseState.fresh (FILE.open (bytes "(A ^ B) C"))) (by decide!)
  exact ⟨by decide, ht, hseq, by decide!, ps', h,
    (trailing_and_dropped_of_accepted ParseState.fresh (bytes "(A ^ B) C") 38 ps' (Or.inr rfl)
      (by decide) hseq h).1⟩

/-! ## C16: a trailing AND after any sequence of factors -/

theorem factor_seq_range (n : Nat) (h : n + 1 ≤ MAXIDENT) : FactorSeq (List.range (n + 1)) := by
  induction n with
  | zero => exact .one [0] (.of_primary _ (.variable 0 (by decide)))
  | succ n ih =>
    rw [List.range_succ]
    exact .juxtaposition _ [n + 1] (ih (by omega))
      (.of_primary _ (.variable (n + 1) (by simp [isident]; omega)))

/-- C16. On `A &` and on `A B &` the trailing AND is dropped: the program
accepts them with the identifiers and the table of `A` and of `A B`.  It is not
so for every sequence of factors: the text `(A ^ B ^ C)` is one factor of the
grammar, and the 26 letters are 26 factors joined by juxtaposition, yet with
`&` added the program stops on the first with the syntax error and on the
second at the assertion on the table length, as it does without the `&`. -/
theorem trailing_and_after_factors :
    run (bytes "A &") = run (bytes "A") ∧ run (bytes "A") = .ok ([65], [0, 1]) ∧
    run (bytes "A B &") = run (bytes "A B") ∧
    run (bytes "A B") = .ok ([65, 66], [0, 0, 0, 1]) ∧
    (∀ x ∈ bytes "(A ^ B ^ C)", recognised x) ∧
    tokens (bytes "(A ^ B ^ C)") = [TOK_LPAREN, 0, TOK_XOR, 1, TOK_XOR, 2, TOK_RPAREN] ∧
    FactorSeq (tokens (bytes "(A ^ B ^ C)")) ∧
    run (bytes "(A ^ B ^ C) &") = .error .syntaxErr ∧
    run (bytes "(A ^ B ^ C)") = .error .syntaxErr ∧
    (∀ x ∈ bytes "ABCDEFGHIJKLMNOPQRSTUVWXYZ", recognised x) ∧
    tokens (bytes "ABCDEFGHIJKLMNOPQRSTUVWXYZ") = List.range 26 ∧
    FactorSeq (tokens (bytes "ABCDEFGHIJKLMNOPQRSTUVWXYZ")) ∧
    run (bytes "ABCDEFGHIJKLMNOPQRSTUVWXYZ&") = .error .assertLen ∧
    run (bytes "ABCDEFGHIJKLMNOPQRSTUVWXYZ") = .error .assertLen := by
  have ht : tokens (bytes "(A ^ B ^ C)") =
      [TOK_LPAREN, 0, TOK_XOR, 1, TOK_XOR, 2, TOK_RPAREN] := by decide!
  have ht26 : tokens (bytes "ABCDEFGHIJKLMNOPQRSTUVWXYZ") = List.range 26 := by decide!
  have hA : Derives .factor [0] := .of_primary _ (.variable 0 (by decide))
  have hB : Derives .factor [1] := .of_primary _ (.variable 1 (by decide))
  have hC : Derives .factor [2] := .of_primary _ (.variable 2 (by decide))
  have hP : Derives .factor [TOK_LPAREN, 0, TOK_XOR, 1, TOK_XOR, 2, TOK_RPAREN] :=
    .of_primary _ (.paren [0, TOK_XOR, 1, TOK_XOR, 2]
      (.of_term _ (.xor [0, TOK_XOR, 1] [2] (.xor [0] [1] (.of_factor _ hA) hB) hC)))
  refine ⟨by decide!, by decide!, by decide!, by decide!, by decide, ht, ?_, by decide!,
    by decide!, by decide, ht26, ?_, by decide!, by decide!⟩
  · rw [ht]; exact .one _ hP
  · rw [ht26]; exact factor_seq_range 25 (by decide)


end Logex
